import Mathlib

set_option linter.unusedSectionVars false

/-!
Shallow embedding of the `DoublyLinkedList` class (src/doubly_linked_list.py,
node class in src/node.py) of the Pythonic-LinkedList-Abstraction repository.

Modelling choices:
* The Python heap is an append-only arena `nodes : List (Node α)`; a node
  reference is an index into the arena, `Option Nat` standing for a
  possibly-`None` Python reference.  Unlinked nodes simply become
  unreachable, as under Python's garbage collector.
* Python payload values are `Option α`: `none` is Python's `None`
  (the absence sentinel rejected by `_validate_value`).
* `size` is `Int`, as Python integers are signed and unbounded.
* Python exceptions become `Except Err`.  Every method of the class raises
  only before its first mutation of reachable state, so an error result with
  the caller keeping the original list is exactly Python's behaviour.
  `Err.internalError` stands for exceptions that signal a corrupt structure
  (AttributeError on a `None` dereference, a failed `assert`): they cannot
  occur on states reachable through the public interface.
* Unbounded `while current:` walks are modelled with explicit fuel; the fuel
  chosen (the list's recorded size, or the arena bound) suffices on every
  state satisfying the structural invariant, where the two semantics agree.
-/

namespace PyDLL

/-- Error kinds, following the spec's taxonomy (§7).  Python raises
`ValueError` both for a `None` payload (`invalidValue`) and for a failed
value lookup (`valueNotFound`), distinguished by message; `RuntimeError` on
empty lists (`emptyList`); `IndexError` (`outOfRange`); `TypeError` on
non-integer positions (`typeMismatch`, unreachable here since positions are
typed `Int`).  `internalError` marks crashes possible only on corrupt
states (failed asserts / `AttributeError`). -/
inductive Err where
  | invalidValue
  | emptyList
  | valueNotFound
  | outOfRange
  | typeMismatch
  | internalError
  deriving DecidableEq, Repr

/-- src/node.py: a node holds a value `info` and two links; links start out
`None`. -/
structure Node (α : Type) where
  info : Option α
  next : Option Nat := none
  prev : Option Nat := none
  deriving DecidableEq, Repr

/-- The list object together with the arena of nodes it allocated.
`DoublyLinkedList.__init__`: head and tail absent, size 0, no nodes yet. -/
structure DLL (α : Type) where
  nodes : List (Node α) := []
  head : Option Nat := none
  tail : Option Nat := none
  size : Int := 0
  deriving DecidableEq, Repr

variable {α : Type} [DecidableEq α]

/-- The empty list produced by the constructor. -/
def emptyDLL : DLL α := {}

/-- `_validate_value`: raise `ValueError` when the value is `None`. -/
def _validate_value (value : Option α) : Except Err Unit :=
  match value with
  | none => throw Err.invalidValue
  | some _ => pure ()

/-- Dereference a node pointer; `none` or a dangling index is Python's
`AttributeError` / corrupt-arena crash. -/
def deref (nodes : List (Node α)) (r : Option Nat) : Except Err (Nat × Node α) :=
  match r with
  | none => throw Err.internalError
  | some a =>
    match nodes[a]? with
    | none => throw Err.internalError
    | some n => pure (a, n)

/-- Overwrite the node stored at address `a`. -/
def setNode (nodes : List (Node α)) (a : Nat) (n : Node α) : List (Node α) :=
  nodes.set a n

/-- `insert_at_beginning` (src lines 105–131). -/
def insert_at_beginning (L : DLL α) (value : Option α) : Except Err (DLL α) := do
  _validate_value value
  let newAddr := L.nodes.length
  match L.head with
  | none =>
    -- empty list: the new node (links still None) becomes head and tail
    pure { nodes := L.nodes ++ [{ info := value }], head := some newAddr,
           tail := some newAddr, size := L.size + 1 }
  | some h =>
    -- new_node.next = self.head; self.head.prev = new_node; self.head = new_node
    let nodes0 := L.nodes ++ [{ info := value, next := some h }]
    let (_, hn) ← deref nodes0 (some h)
    let nodes1 := setNode nodes0 h { hn with prev := some newAddr }
    pure { nodes := nodes1, head := some newAddr, tail := L.tail, size := L.size + 1 }

/-- `insert_at_end` (src lines 134–160). -/
def insert_at_end (L : DLL α) (value : Option α) : Except Err (DLL α) := do
  _validate_value value
  let newAddr := L.nodes.length
  match L.head with
  | none =>
    pure { nodes := L.nodes ++ [{ info := value }], head := some newAddr,
           tail := some newAddr, size := L.size + 1 }
  | some _ =>
    -- self.tail.next = new_node; new_node.prev = self.tail; self.tail = new_node
    let nodes0 := L.nodes ++ [{ info := value }]
    let (t, tn) ← deref nodes0 L.tail
    let nodes1 := setNode nodes0 t { tn with next := some newAddr }
    let (_, nn) ← deref nodes1 (some newAddr)
    let nodes2 := setNode nodes1 newAddr { nn with prev := some t }
    pure { nodes := nodes2, head := L.head, tail := some newAddr, size := L.size + 1 }

/-- The scanning loop `while current and not found` used by `contains`,
`insert_after_node`, `insert_before_node` and `delete_value`: address of the
first node from `cur` whose `info` equals `value`.  Fuel bounds the walk;
any fuel of at least the chain length is exact. -/
def findFrom (nodes : List (Node α)) (value : Option α) :
    Option Nat → Nat → Option Nat
  | none, _ => none
  | some _, 0 => none
  | some a, fuel + 1 =>
    match nodes[a]? with
    | none => none
    | some n => if n.info = value then some a else findFrom nodes value n.next fuel

/-- `contains` (src lines 208–233): validate, then scan from head. -/
def contains (L : DLL α) (value : Option α) : Except Err Bool := do
  _validate_value value
  pure (findFrom L.nodes value L.head L.nodes.length).isSome

/-- Values of the chain starting at `cur`, following `next`, as collected by
the `while current:` loop of `to_python_list`.  Fuel as in `findFrom`. -/
def chainValues (nodes : List (Node α)) : Option Nat → Nat → List (Option α)
  | none, _ => []
  | some _, 0 => []
  | some a, fuel + 1 =>
    match nodes[a]? with
    | none => []
    | some n => n.info :: chainValues nodes n.next fuel

/-- `to_python_list` (src lines 420–442). -/
def to_python_list (L : DLL α) : List (Option α) :=
  if L.head = none ∨ L.tail = none ∨ L.size = 0 then []
  else chainValues L.nodes L.head L.nodes.length

/-- The `for item in python_list: dll.insert_at_end(item)` loop shared by
`from_python_list`, `sort`, `remove_duplicates` and `clone`. -/
def insertAll (L : DLL α) : List (Option α) → Except Err (DLL α)
  | [] => pure L
  | v :: vs => do
    let L1 ← insert_at_end L v
    insertAll L1 vs

/-- `from_python_list` (src lines 445–469); the `isinstance(python_list, list)`
check is discharged by typing. -/
def from_python_list (python_list : List (Option α)) : Except Err (DLL α) :=
  insertAll emptyDLL python_list

/-- `get_size` (src lines 400–407). -/
def get_size (L : DLL α) : Int := L.size

/-- `is_empty` (src lines 410–417). -/
def is_empty (L : DLL α) : Bool := L.size = 0

/-- `clear` (src lines 88–102): reset head, tail and size; the nodes are
left to the garbage collector (they stay in the arena, unreachable). -/
def clear (L : DLL α) : DLL α :=
  { L with head := none, tail := none, size := 0 }

/-- `current = current.next` iterated `k` times, as in the forward loop of
`_get_node_at_position`; `none` records that Python would have crashed with
`AttributeError` (or that the arena is corrupt). -/
def stepFwd (nodes : List (Node α)) : Option Nat → Nat → Option Nat
  | cur, 0 => cur
  | none, _ + 1 => none
  | some a, k + 1 =>
    match nodes[a]? with
    | none => none
    | some n => stepFwd nodes n.next k

/-- `current = current.prev` iterated `k` times (backward loop of
`_get_node_at_position`). -/
def stepBwd (nodes : List (Node α)) : Option Nat → Nat → Option Nat
  | cur, 0 => cur
  | none, _ + 1 => none
  | some a, k + 1 =>
    match nodes[a]? with
    | none => none
    | some n => stepBwd nodes n.prev k

/-- `_get_node_at_position` (src lines 51–85), returning the address of the
node.  The `isinstance(position, int)` test is discharged by typing.  The
backward loop `for _ in range(self.size - 1, position, -1)` runs
`size - 1 - position` times.  On the reachable guard `0 ≤ position < size`
the Lean `/` on `Int` agrees with Python's floor division `//`. -/
def _get_node_at_position (L : DLL α) (position : Int) : Except Err Nat := do
  if position < 0 ∨ position ≥ L.size then throw Err.outOfRange
  let cur : Option Nat :=
    if position > L.size / 2 then
      stepBwd L.nodes L.tail (L.size - 1 - position).toNat
    else
      stepFwd L.nodes L.head position.toNat
  match cur with
  | none => throw Err.internalError   -- the final `assert current is not None`
  | some a => pure a

/-- `insert_after_node` (src lines 163–205). -/
def insert_after_node (L : DLL α) (target_value new_value : Option α) :
    Except Err (DLL α) := do
  _validate_value target_value
  _validate_value new_value
  let c ← contains L target_value
  if ¬ c then throw Err.valueNotFound
  -- the `while current and not on_target` walk re-finds the first match
  match findFrom L.nodes target_value L.head L.nodes.length with
  | none => throw Err.internalError   -- contains was true, the walk cannot miss
  | some a => do
    let (_, n) ← deref L.nodes (some a)
    let newAddr := L.nodes.length
    match n.next with
    | none => do
      -- assert (current == self.tail); then extend after the tail
      if L.tail ≠ some a then throw Err.internalError
      let nodes0 := L.nodes ++ [{ info := new_value }]
      let (t, tn) ← deref nodes0 L.tail
      let nodes1 := setNode nodes0 t { tn with next := some newAddr }
      let (_, nn) ← deref nodes1 (some newAddr)
      let nodes2 := setNode nodes1 newAddr { nn with prev := some t }
      pure { nodes := nodes2, head := L.head, tail := some newAddr, size := L.size + 1 }
    | some b => do
      -- four-pointer interior splice
      let nodes0 := L.nodes ++ [{ info := new_value, next := some b, prev := some a }]
      let (_, bn) ← deref nodes0 (some b)
      let nodes1 := setNode nodes0 b { bn with prev := some newAddr }
      let (_, an) ← deref nodes1 (some a)
      let nodes2 := setNode nodes1 a { an with next := some newAddr }
      pure { nodes := nodes2, head := L.head, tail := L.tail, size := L.size + 1 }

/-- `insert_before_node` (src lines 236–278). -/
def insert_before_node (L : DLL α) (target_value new_value : Option α) :
    Except Err (DLL α) := do
  _validate_value target_value
  _validate_value new_value
  let c ← contains L target_value
  if ¬ c then throw Err.valueNotFound
  match findFrom L.nodes target_value L.head L.nodes.length with
  | none => throw Err.internalError
  | some a => do
    let (_, n) ← deref L.nodes (some a)
    let newAddr := L.nodes.length
    match n.prev with
    | none => do
      -- assert (current == self.head); then extend before the head
      if L.head ≠ some a then throw Err.internalError
      let nodes0 := L.nodes ++ [{ info := new_value }]
      let (h, hn) ← deref nodes0 L.head
      let nodes1 := setNode nodes0 h { hn with prev := some newAddr }
      let (_, nn) ← deref nodes1 (some newAddr)
      let nodes2 := setNode nodes1 newAddr { nn with next := some h }
      pure { nodes := nodes2, head := some newAddr, tail := L.tail, size := L.size + 1 }
    | some p => do
      let nodes0 := L.nodes ++ [{ info := new_value, next := some a, prev := some p }]
      let (_, pn) ← deref nodes0 (some p)
      let nodes1 := setNode nodes0 p { pn with next := some newAddr }
      let (_, an) ← deref nodes1 (some a)
      let nodes2 := setNode nodes1 a { an with prev := some newAddr }
      pure { nodes := nodes2, head := L.head, tail := L.tail, size := L.size + 1 }

/-- `delete_at_beginning` (src lines 281–306). -/
def delete_at_beginning (L : DLL α) : Except Err (DLL α) := do
  if L.head = none ∨ L.size = 0 then throw Err.emptyList
  if get_size L = 1 then
    -- self.head = self.head.next (hence None); self.tail = None
    let (_, hn) ← deref L.nodes L.head
    pure { L with head := hn.next, tail := none, size := L.size - 1 }
  else
    -- self.head = self.head.next; self.head.prev = None
    let (_, hn) ← deref L.nodes L.head
    let (h2, h2n) ← deref L.nodes hn.next
    let nodes1 := setNode L.nodes h2 { h2n with prev := none }
    pure { L with nodes := nodes1, head := hn.next, size := L.size - 1 }

/-- `delete_at_end` (src lines 309–334). -/
def delete_at_end (L : DLL α) : Except Err (DLL α) := do
  if L.head = none ∨ L.tail = none ∨ L.size = 0 then throw Err.emptyList
  if get_size L = 1 then
    let (_, hn) ← deref L.nodes L.head
    pure { L with head := hn.next, tail := none, size := L.size - 1 }
  else
    -- self.tail = self.tail.prev; self.tail.next = None
    let (_, tn) ← deref L.nodes L.tail
    let (t2, t2n) ← deref L.nodes tn.prev
    let nodes1 := setNode L.nodes t2 { t2n with next := none }
    pure { L with nodes := nodes1, tail := tn.prev, size := L.size - 1 }

/-- `delete_value` (src lines 336–375). -/
def delete_value (L : DLL α) (value : Option α) : Except Err (DLL α) := do
  _validate_value value
  if L.head = none then throw Err.emptyList
  match findFrom L.nodes value L.head L.nodes.length with
  | none => throw Err.valueNotFound
  | some a => do
    let (_, n) ← deref L.nodes (some a)
    match n.prev with
    | none => delete_at_beginning L      -- current is the head
    | some p =>
      match n.next with
      | none => delete_at_end L          -- current is the tail
      | some b => do
        -- current.prev.next = current.next; current.next.prev = current.prev
        let (_, pn) ← deref L.nodes (some p)
        let nodes1 := setNode L.nodes p { pn with next := some b }
        let (_, bn) ← deref nodes1 (some b)
        let nodes2 := setNode nodes1 b { bn with prev := some p }
        pure { L with nodes := nodes2, size := L.size - 1 }

/-- `delete_at_position` (src lines 378–397). -/
def delete_at_position (L : DLL α) (position : Int) : Except Err (DLL α) := do
  if L.head = none ∨ L.size = 0 then throw Err.emptyList
  let a ← _get_node_at_position L position
  let (_, n) ← deref L.nodes (some a)
  match n.prev with
  | none => delete_at_beginning L
  | some p =>
    match n.next with
    | none => delete_at_end L
    | some b => do
      let (_, pn) ← deref L.nodes (some p)
      let nodes1 := setNode L.nodes p { pn with next := some b }
      let (_, bn) ← deref nodes1 (some b)
      let nodes2 := setNode nodes1 b { bn with prev := some p }
      pure { L with nodes := nodes2, size := L.size - 1 }

/-- The `while current:` loop of `reverse`: swap `next` and `prev` of the
current node, then step to `current.prev` (the original `next`). -/
def reverseLoop (nodes : List (Node α)) : Option Nat → Nat → List (Node α)
  | none, _ => nodes
  | some _, 0 => nodes
  | some a, fuel + 1 =>
    match nodes[a]? with
    | none => nodes
    | some n =>
      let n' : Node α := { n with next := n.prev, prev := n.next }
      reverseLoop (setNode nodes a n') n'.prev fuel

/-- `reverse` (src lines 473–503): swap every node's links, then exchange
head and tail. -/
def reverse (L : DLL α) : Except Err (DLL α) := do
  if L.head = none ∨ L.tail = none ∨ L.size = 0 then throw Err.emptyList
  let nodes1 := reverseLoop L.nodes L.head L.nodes.length
  pure { L with nodes := nodes1, head := L.tail, tail := L.head }

/-- `clone` (src lines 505–521): walk from the head, inserting each value at
the end of a fresh list. -/
def clone (L : DLL α) : Except Err (DLL α) := do
  if L.head = none ∨ L.tail = none ∨ L.size = 0 then pure emptyDLL
  else insertAll emptyDLL (chainValues L.nodes L.head L.nodes.length)

/-- The outcome `sort` reports through `print` (none of these is a raised
error). -/
inductive SortStatus where
  | emptyMsg            -- "Cannot sort: list is empty."
  | incomparableMsg     -- "Cannot sort: the list contains elements that cannot be compared ..."
  | sortedMsg           -- "List sorted successfully."
  | sortedReverseMsg    -- "List sorted in reverse order."
  deriving DecidableEq, Repr

/-- Comparability of every pair of elements of `l` under the host's rich
comparison `lt` (where `lt a b = none` models `a < b` raising `TypeError`). -/
def allPairsComparable (lt : Option α → Option α → Option Bool)
    (l : List (Option α)) : Bool :=
  l.all fun a => l.all fun b => (lt a b).isSome

/-- The total `≤` test the host sort orders by: ascending is
`¬ (b < a)`, descending (`reverse=True`) is `¬ (a < b)`. -/
def sortLe (lt : Option α → Option α → Option Bool) (desc : Bool)
    (a b : Option α) : Bool :=
  if desc then !((lt a b).getD false) else !((lt b a).getD false)

/-- Model of the host primitive `python_list.sort(reverse=desc)`: succeeds
with the (unique, for genuine orders) sorted arrangement when all pairs of
elements are comparable, and raises `TypeError` (`none`) otherwise. -/
def pythonListSort (lt : Option α → Option α → Option Bool) (desc : Bool)
    (l : List (Option α)) : Option (List (Option α)) :=
  if allPairsComparable lt l then
    some (List.insertionSort (fun a b => sortLe lt desc a b = true) l)
  else none

/-- `sort` (src lines 524–553); the Boolean `reverse` parameter of the
source is `desc` here, to avoid clashing with the method `reverse`.  The
host comparison is the parameter `lt`.  Failures are soft: the function
returns the untouched list plus a reported status instead of throwing
(`Except` only because re-inserting a `None` payload — impossible on
intact lists — would raise). -/
def sort (lt : Option α → Option α → Option Bool) (L : DLL α)
    (desc : Bool) : Except Err (DLL α × SortStatus) := do
  if L.head = none ∨ L.tail = none ∨ L.size = 0 then
    pure (L, SortStatus.emptyMsg)
  else
    let python_list := to_python_list L
    match pythonListSort lt desc python_list with
    | none => pure (L, SortStatus.incomparableMsg)
    | some sorted_list => do
      let L1 ← insertAll (clear L) sorted_list
      pure (L1, if desc then SortStatus.sortedReverseMsg else SortStatus.sortedMsg)

/-- The `seen`/`result` accumulation loop of `remove_duplicates` (the Python
`set` is a list probed by value equality). -/
def dedupSeen (seen : List (Option α)) : List (Option α) → List (Option α)
  | [] => []
  | x :: xs => if x ∈ seen then dedupSeen seen xs else x :: dedupSeen (x :: seen) xs

/-- `remove_duplicates` (src lines 556–579). -/
def remove_duplicates (L : DLL α) : Except Err (DLL α) := do
  if L.head = none ∨ L.tail = none ∨ L.size = 0 then throw Err.emptyList
  let result := dedupSeen [] (to_python_list L)
  insertAll (clear L) result

/-- `push` (src lines 584–598): delegates to `insert_at_end`. -/
def push (L : DLL α) (value : Option α) : Except Err (DLL α) :=
  insert_at_end L value

/-- `pop` (src lines 601–623), returning the removed value and the new
state. -/
def pop (L : DLL α) : Except Err (Option α × DLL α) := do
  if L.head = none ∨ L.tail = none ∨ L.size = 0 then throw Err.emptyList
  if L.size = 1 then
    let (_, hn) ← deref L.nodes L.head
    let (_, tn) ← deref L.nodes L.tail
    if hn.info ≠ tn.info then throw Err.internalError  -- assert(value == self.tail.info)
    pure (hn.info, clear L)
  else
    let (_, tn) ← deref L.nodes L.tail
    let (t2, t2n) ← deref L.nodes tn.prev
    let nodes1 := setNode L.nodes t2 { t2n with next := none }
    pure (tn.info, { L with nodes := nodes1, tail := tn.prev, size := L.size - 1 })

/-- `peek` (src lines 626–639). -/
def peek (L : DLL α) : Except Err (Option α) := do
  if L.head = none ∨ L.tail = none ∨ L.size = 0 then throw Err.emptyList
  let (_, tn) ← deref L.nodes L.tail
  pure tn.info

/-- `enqueue` (src lines 644–658): delegates to `insert_at_end`. -/
def enqueue (L : DLL α) (value : Option α) : Except Err (DLL α) :=
  insert_at_end L value

/-- `dequeue` (src lines 661–681). -/
def dequeue (L : DLL α) : Except Err (Option α × DLL α) := do
  if L.head = none ∨ L.tail = none ∨ L.size = 0 then throw Err.emptyList
  let (_, hn) ← deref L.nodes L.head
  if L.size = 1 then
    pure (hn.info, clear L)
  else
    let (h2, h2n) ← deref L.nodes hn.next
    let nodes1 := setNode L.nodes h2 { h2n with prev := none }
    pure (hn.info, { L with nodes := nodes1, head := hn.next, size := L.size - 1 })

/-- `peek_front` (src lines 686–698). -/
def peek_front (L : DLL α) : Except Err (Option α) := do
  if L.head = none ∨ L.tail = none ∨ L.size = 0 then throw Err.emptyList
  let (_, hn) ← deref L.nodes L.head
  pure hn.info

/-- `peek_rear` (src lines 701–713). -/
def peek_rear (L : DLL α) : Except Err (Option α) := do
  if L.head = none ∨ L.tail = none ∨ L.size = 0 then throw Err.emptyList
  let (_, tn) ← deref L.nodes L.tail
  pure tn.info

/-- The signed-index resolution shared by `__getitem__` and `__setitem__`:
a negative index gains `size`; resolution below zero (negative branch) or
at/after `size` (non-negative branch) is `IndexError`. -/
def resolveIndex (L : DLL α) (index : Int) : Except Err Int := do
  if index < 0 then
    let positive_index := index + L.size
    if positive_index < 0 then throw Err.outOfRange
    pure positive_index
  else
    if index ≥ L.size then throw Err.outOfRange
    pure index

/-- `__getitem__` (src lines 842–867); `isinstance(index, int)` is
discharged by typing. -/
def __getitem__ (L : DLL α) (index : Int) : Except Err (Option α) := do
  let positive_index ← resolveIndex L index
  let a ← _get_node_at_position L positive_index
  let (_, n) ← deref L.nodes (some a)
  pure n.info

/-- `__setitem__` (src lines 809–838): validate the value, resolve the
index, then overwrite `node.info` in place. -/
def __setitem__ (L : DLL α) (index : Int) (value : Option α) :
    Except Err (DLL α) := do
  _validate_value value
  let positive_index ← resolveIndex L index
  let a ← _get_node_at_position L positive_index
  let (_, n) ← deref L.nodes (some a)
  pure { L with nodes := setNode L.nodes a { n with info := value } }

/-! ## The structural invariant

`chainSeg nodes p cur addrs q` says: starting from the pointer `cur`, the
addresses `addrs` form a doubly linked segment inside the arena `nodes`,
the first node's `prev` being `p`, consecutive nodes linked both ways, and
the last node's `next` being `q` (for the empty segment, `cur = q`).  A
whole well-formed list is a segment from `head` with `p = q = none`,
whose last address is `tail` and whose length is `size`. -/

/-- Swap the two links of a node (what one turn of `reverse`'s loop does). -/
def swapNode (n : Node α) : Node α := { n with next := n.prev, prev := n.next }

/-- The payload stored at address `a` (`none` also when `a` dangles). -/
def infoAt (nodes : List (Node α)) (a : Nat) : Option α :=
  match nodes[a]? with
  | none => none
  | some n => n.info

/-- The payload sequence along a list of addresses. -/
def valsAt (nodes : List (Node α)) (addrs : List Nat) : List (Option α) :=
  addrs.map (infoAt nodes)

/-- Doubly linked segment predicate (see section header). -/
def chainSeg (nodes : List (Node α)) : Option Nat → Option Nat → List Nat → Option Nat → Bool
  | _, cur, [], q => decide (cur = q)
  | p, cur, a :: rest, q =>
    decide (cur = some a) &&
    (match nodes[a]? with
     | none => false
     | some n => decide (n.prev = p) && chainSeg nodes (some a) n.next rest q)

/-- The `prev`-pointer expected by whatever follows the segment `addrs`:
its last address, or `p` when the segment is empty. -/
def lastOr (p : Option Nat) : List Nat → Option Nat
  | [] => p
  | a :: rest => lastOr (some a) rest

/-- The structural invariant of a list state, witnessed by its address
chain. -/
def IsChain (L : DLL α) (addrs : List Nat) : Prop :=
  chainSeg L.nodes none L.head addrs none = true ∧
  L.tail = addrs.getLast? ∧
  L.size = (addrs.length : Int) ∧
  addrs.Nodup

/-- `IsChain` plus the payload invariant: no stored value is the absence
sentinel. -/
def Good (L : DLL α) (addrs : List Nat) : Prop :=
  IsChain L addrs ∧ none ∉ valsAt L.nodes addrs

theorem chainSeg_nil {nodes : List (Node α)} {p cur q : Option Nat} :
    chainSeg nodes p cur [] q = decide (cur = q) := rfl

/-- From a successful indexed lookup, the index is in bounds. -/
theorem lt_length_of_getElem? {β : Type} {l : List β} {i : Nat} {x : β}
    (h : l[i]? = some x) : i < l.length := by
  rcases List.getElem?_eq_some.mp h with ⟨h', _⟩
  exact h'

theorem chainSeg_cons_iff {nodes : List (Node α)} {p cur q : Option Nat}
    {a : Nat} {rest : List Nat} :
    chainSeg nodes p cur (a :: rest) q = true ↔
      cur = some a ∧ ∃ n, nodes[a]? = some n ∧ n.prev = p ∧
        chainSeg nodes (some a) n.next rest q = true := by
  constructor
  · intro h
    rw [chainSeg, Bool.and_eq_true] at h
    obtain ⟨h1, h2⟩ := h
    refine ⟨of_decide_eq_true h1, ?_⟩
    cases hn : nodes[a]? with
    | none => rw [hn] at h2; exact absurd h2 Bool.false_ne_true
    | some n =>
      rw [hn, Bool.and_eq_true] at h2
      obtain ⟨h3, h4⟩ := h2
      exact ⟨n, rfl, of_decide_eq_true h3, h4⟩
  · rintro ⟨hcur, n, hn, hprev, hrest⟩
    rw [chainSeg, hn, Bool.and_eq_true, Bool.and_eq_true]
    exact ⟨decide_eq_true hcur, decide_eq_true hprev, hrest⟩

theorem lastOr_nil {p : Option Nat} : lastOr p ([] : List Nat) = p := rfl

theorem lastOr_cons {p : Option Nat} {a : Nat} {rest : List Nat} :
    lastOr p (a :: rest) = lastOr (some a) rest := rfl

/-- `lastOr` computes the last address, with `p` as the fallback. -/
theorem lastOr_eq_getLast?_or {p : Option Nat} {addrs : List Nat} :
    lastOr p addrs = addrs.getLast?.or p := by
  induction addrs generalizing p with
  | nil => rfl
  | cons a rest ih =>
    cases rest with
    | nil => rfl
    | cons b r =>
      rw [lastOr_cons, ih, List.getLast?_cons_cons]
      have : (b :: r).getLast?.isSome := by
        rw [List.getLast?_isSome]; exact List.cons_ne_nil b r
      cases hl : (b :: r).getLast? with
      | none => rw [hl] at this; cases this
      | some x => rfl

theorem chainSeg_append_iff {nodes : List (Node α)} {p cur r : Option Nat}
    {xs ys : List Nat} :
    chainSeg nodes p cur (xs ++ ys) r = true ↔
      ∃ q, chainSeg nodes p cur xs q = true ∧
        chainSeg nodes (lastOr p xs) q ys r = true := by
  induction xs generalizing p cur with
  | nil =>
    simp only [List.nil_append, lastOr_nil, chainSeg_nil]
    constructor
    · intro h; exact ⟨cur, by simp, h⟩
    · rintro ⟨q, hq, h⟩
      have : cur = q := of_decide_eq_true hq
      rwa [this]
  | cons a xs ih =>
    rw [List.cons_append, chainSeg_cons_iff, lastOr_cons]
    constructor
    · rintro ⟨hcur, n, hn, hprev, hrest⟩
      rcases ih.mp hrest with ⟨q, h1, h2⟩
      exact ⟨q, chainSeg_cons_iff.mpr ⟨hcur, n, hn, hprev, h1⟩, h2⟩
    · rintro ⟨q, h1, h2⟩
      rcases chainSeg_cons_iff.mp h1 with ⟨hcur, n, hn, hprev, hrest⟩
      exact ⟨hcur, n, hn, hprev, ih.mpr ⟨q, hrest, h2⟩⟩

theorem chainSeg_mem_lt {nodes : List (Node α)} {p cur q : Option Nat}
    {addrs : List Nat} (h : chainSeg nodes p cur addrs q = true) :
    ∀ a ∈ addrs, a < nodes.length := by
  induction addrs generalizing p cur with
  | nil => intro a ha; cases ha
  | cons b rest ih =>
    rcases chainSeg_cons_iff.mp h with ⟨_, n, hn, _, hrest⟩
    intro a ha
    rcases List.mem_cons.mp ha with rfl | ha
    · exact lt_length_of_getElem? hn
    · exact ih hrest a ha

theorem chainSeg_set_of_notMem {nodes : List (Node α)} {p cur q : Option Nat}
    {addrs : List Nat} {b : Nat} {m : Node α} (hb : b ∉ addrs) :
    chainSeg (setNode nodes b m) p cur addrs q = chainSeg nodes p cur addrs q := by
  induction addrs generalizing p cur with
  | nil => rfl
  | cons a rest ih =>
    have hba : b ≠ a := fun h => hb (h ▸ List.mem_cons_self a rest)
    have hbr : b ∉ rest := fun h => hb (List.mem_cons_of_mem a h)
    have hget : (setNode nodes b m)[a]? = nodes[a]? := List.getElem?_set_ne hba
    rw [chainSeg, chainSeg, hget]
    cases nodes[a]? with
    | none => rfl
    | some n => simp only [ih hbr]

theorem chainSeg_extend_arena {nodes ext : List (Node α)} {p cur q : Option Nat}
    {addrs : List Nat} (h : chainSeg nodes p cur addrs q = true) :
    chainSeg (nodes ++ ext) p cur addrs q = true := by
  induction addrs generalizing p cur with
  | nil => exact h
  | cons a rest ih =>
    rcases chainSeg_cons_iff.mp h with ⟨hcur, n, hn, hprev, hrest⟩
    have ha : a < nodes.length := lt_length_of_getElem? hn
    refine chainSeg_cons_iff.mpr ⟨hcur, n, ?_, hprev, ih hrest⟩
    rw [List.getElem?_append, if_pos ha]
    exact hn

theorem infoAt_extend_arena {nodes ext : List (Node α)} {a : Nat}
    (ha : a < nodes.length) : infoAt (nodes ++ ext) a = infoAt nodes a := by
  rw [infoAt, infoAt, List.getElem?_append, if_pos ha]

theorem infoAt_set_ne {nodes : List (Node α)} {a b : Nat} {m : Node α}
    (hab : b ≠ a) : infoAt (setNode nodes b m) a = infoAt nodes a := by
  rw [infoAt, infoAt, setNode, List.getElem?_set_ne hab]

theorem valsAt_extend_arena {nodes ext : List (Node α)} {addrs : List Nat}
    (h : ∀ a ∈ addrs, a < nodes.length) :
    valsAt (nodes ++ ext) addrs = valsAt nodes addrs := by
  unfold valsAt
  exact List.map_congr_left fun a ha => infoAt_extend_arena (h a ha)

theorem valsAt_set_of_notMem {nodes : List (Node α)} {addrs : List Nat}
    {b : Nat} {m : Node α} (hb : b ∉ addrs) :
    valsAt (setNode nodes b m) addrs = valsAt nodes addrs := by
  unfold valsAt
  exact List.map_congr_left fun a ha => infoAt_set_ne (fun h => hb (h ▸ ha))

/-! ## Traversals over a well-formed chain -/

/-- On a chain ending in `none`, the collecting loop of `to_python_list`
returns exactly the payloads along the chain, for any sufficient fuel. -/
theorem chainValues_eq {nodes : List (Node α)} {p cur : Option Nat}
    {addrs : List Nat} (h : chainSeg nodes p cur addrs none = true)
    {fuel : Nat} (hf : addrs.length ≤ fuel) :
    chainValues nodes cur fuel = valsAt nodes addrs := by
  induction addrs generalizing p cur fuel with
  | nil =>
    have : cur = none := of_decide_eq_true h
    subst this
    cases fuel <;> rfl
  | cons a rest ih =>
    rcases chainSeg_cons_iff.mp h with ⟨hcur, n, hn, _, hrest⟩
    subst hcur
    cases fuel with
    | zero => simp at hf
    | succ f =>
      have hlen : rest.length ≤ f := by simpa using hf
      simp only [chainValues, hn]
      rw [ih hrest hlen]
      simp [valsAt, infoAt, hn]

/-- On a chain ending in `none`, the scanning loop returns the first
address whose payload equals the probe. -/
theorem findFrom_eq {nodes : List (Node α)} {p cur : Option Nat}
    {addrs : List Nat} {v : Option α}
    (h : chainSeg nodes p cur addrs none = true)
    {fuel : Nat} (hf : addrs.length ≤ fuel) :
    findFrom nodes v cur fuel =
      addrs.find? (fun a => decide (infoAt nodes a = v)) := by
  induction addrs generalizing p cur fuel with
  | nil =>
    have : cur = none := of_decide_eq_true h
    subst this
    cases fuel <;> rfl
  | cons a rest ih =>
    rcases chainSeg_cons_iff.mp h with ⟨hcur, n, hn, _, hrest⟩
    subst hcur
    cases fuel with
    | zero => simp at hf
    | succ f =>
      have hlen : rest.length ≤ f := by simpa using hf
      have hia : infoAt nodes a = n.info := by rw [infoAt, hn]
      simp only [findFrom, hn, List.find?_cons, hia]
      by_cases hv : n.info = v
      · simp [hv]
      · simp only [if_neg hv, decide_eq_false hv]
        exact ih hrest hlen

/-- `k` forward steps from the entry of a chain land on its `k`-th
address. -/
theorem stepFwd_eq {nodes : List (Node α)} {p cur q : Option Nat}
    {addrs : List Nat} (h : chainSeg nodes p cur addrs q = true)
    {k : Nat} (hk : k < addrs.length) :
    stepFwd nodes cur k = addrs[k]? := by
  induction addrs generalizing p cur k with
  | nil => simp at hk
  | cons a rest ih =>
    rcases chainSeg_cons_iff.mp h with ⟨hcur, n, hn, _, hrest⟩
    subst hcur
    cases k with
    | zero => simp [stepFwd]
    | succ j =>
      have hj : j < rest.length := by simpa using hk
      simp only [stepFwd, hn, List.getElem?_cons_succ]
      exact ih hrest hj

/-- `k` backward steps from the last address of a chain land on its
`(length - 1 - k)`-th address. -/
theorem stepBwd_eq {nodes : List (Node α)} {p cur q : Option Nat}
    {addrs : List Nat} (h : chainSeg nodes p cur addrs q = true)
    {k : Nat} (hk : k < addrs.length) :
    stepBwd nodes addrs.getLast? k = addrs[addrs.length - 1 - k]? := by
  induction addrs using List.reverseRecOn generalizing q k with
  | nil => simp at hk
  | append_singleton xs b ih =>
    rcases chainSeg_append_iff.mp h with ⟨q', h1, h2⟩
    rcases chainSeg_cons_iff.mp h2 with ⟨hq', nb, hnb, hbprev, hbnext⟩
    have hbq : nb.next = q := of_decide_eq_true hbnext
    rw [List.getLast?_concat]
    cases k with
    | zero =>
      have hidx : (xs ++ [b]).length - 1 - 0 = xs.length := by simp
      rw [stepBwd, hidx, List.getElem?_concat_length]
    | succ j =>
      have hj : j < xs.length := by
        rw [List.length_append, List.length_singleton] at hk
        omega
      have hxs : xs ≠ [] := by
        intro hx; rw [hx] at hj; simp at hj
      simp only [stepBwd, hnb]
      rw [hbprev, lastOr_eq_getLast?_or]
      cases hgl : xs.getLast? with
      | none => exact absurd (List.getLast?_isSome.mpr hxs) (by rw [hgl]; simp)
      | some x =>
        rw [Option.or_some, ← hgl, ih h1 hj]
        have hidx : (xs ++ [b]).length - 1 - (j + 1) = xs.length - 1 - j := by
          rw [List.length_append, List.length_singleton]; omega
        rw [hidx, List.getElem?_append,
          if_pos (by omega : xs.length - 1 - j < xs.length)]

/-- The forward address walk (`while current: current = current.next`). -/
def fwdWalk (nodes : List (Node α)) : Option Nat → Nat → List Nat
  | none, _ => []
  | some _, 0 => []
  | some a, fuel + 1 =>
    match nodes[a]? with
    | none => [a]
    | some n => a :: fwdWalk nodes n.next fuel

/-- The backward address walk (`while current: current = current.prev`). -/
def bwdWalk (nodes : List (Node α)) : Option Nat → Nat → List Nat
  | none, _ => []
  | some _, 0 => []
  | some a, fuel + 1 =>
    match nodes[a]? with
    | none => [a]
    | some n => a :: bwdWalk nodes n.prev fuel

/-- The forward walk from the entry of a chain visits exactly its
addresses. -/
theorem fwdWalk_eq {nodes : List (Node α)} {p cur : Option Nat}
    {addrs : List Nat} (h : chainSeg nodes p cur addrs none = true)
    {fuel : Nat} (hf : addrs.length ≤ fuel) :
    fwdWalk nodes cur fuel = addrs := by
  induction addrs generalizing p cur fuel with
  | nil =>
    have : cur = none := of_decide_eq_true h
    subst this
    cases fuel <;> rfl
  | cons a rest ih =>
    rcases chainSeg_cons_iff.mp h with ⟨hcur, n, hn, _, hrest⟩
    subst hcur
    cases fuel with
    | zero => simp at hf
    | succ f =>
      have hlen : rest.length ≤ f := by simpa using hf
      simp only [fwdWalk, hn]
      rw [ih hrest hlen]

/-- The backward walk from the last address of a chain whose first node's
`prev` is `none` visits exactly the reversed addresses. -/
theorem bwdWalk_eq {nodes : List (Node α)} {cur q : Option Nat}
    {addrs : List Nat} (h : chainSeg nodes none cur addrs q = true)
    {fuel : Nat} (hf : addrs.length ≤ fuel) :
    bwdWalk nodes addrs.getLast? fuel = addrs.reverse := by
  induction addrs using List.reverseRecOn generalizing cur q fuel with
  | nil => cases fuel <;> rfl
  | append_singleton xs b ih =>
    rcases chainSeg_append_iff.mp h with ⟨q', h1, h2⟩
    rcases chainSeg_cons_iff.mp h2 with ⟨hq', nb, hnb, hbprev, _⟩
    rw [List.getLast?_concat]
    cases fuel with
    | zero =>
      rw [List.length_append] at hf; simp at hf
    | succ f =>
      have hlen : xs.length ≤ f := by
        rw [List.length_append, List.length_singleton] at hf
        omega
      simp only [bwdWalk, hnb]
      rw [hbprev, lastOr_eq_getLast?_or, List.reverse_append]
      cases hxs : xs with
      | nil =>
        subst hxs
        simp only [List.getLast?_nil, Option.none_or]
        cases f <;> rfl
      | cons y ys =>
        have hxs' : xs ≠ [] := by rw [hxs]; exact List.cons_ne_nil y ys
        rw [← hxs]
        cases hgl : xs.getLast? with
        | none => exact absurd (List.getLast?_isSome.mpr hxs') (by rw [hgl]; simp)
        | some x =>
          rw [Option.or_some, ← hgl, ih h1 hlen]
          rfl

/-! ## Reduction toolkit for the `Except` do-blocks -/

theorem throw_def {γ : Type} (e : Err) : (throw e : Except Err γ) = Except.error e := rfl

theorem pure_def {γ : Type} (u : γ) : (pure u : Except Err γ) = Except.ok u := rfl

theorem ok_bind {β γ : Type} (u : β) (f : β → Except Err γ) :
    (Except.ok u : Except Err β) >>= f = f u := rfl

theorem error_bind {β γ : Type} (e : Err) (f : β → Except Err γ) :
    (Except.error e : Except Err β) >>= f = Except.error e := rfl

theorem validate_some (x : α) : _validate_value (some x) = Except.ok () := rfl

theorem validate_none : _validate_value (none : Option α) = Except.error Err.invalidValue := rfl

theorem deref_eq_ok {nodes : List (Node α)} {a : Nat} {n : Node α}
    (h : nodes[a]? = some n) : deref nodes (some a) = Except.ok (a, n) := by
  simp only [deref, h]
  rfl

/-! ## Consequences of the invariant -/

theorem chain_length_le {nodes : List (Node α)} {p cur q : Option Nat}
    {addrs : List Nat} (h : chainSeg nodes p cur addrs q = true)
    (hnd : addrs.Nodup) : addrs.length ≤ nodes.length := by
  classical
  calc addrs.length = addrs.toFinset.card := (List.toFinset_card_of_nodup hnd).symm
    _ ≤ (Finset.range nodes.length).card := Finset.card_le_card
        (fun a ha => Finset.mem_range.mpr (chainSeg_mem_lt h a (List.mem_toFinset.mp ha)))
    _ = nodes.length := Finset.card_range nodes.length

/-- The next address the arena will allocate is not on the chain. -/
theorem fresh_notMem {nodes : List (Node α)} {p cur q : Option Nat}
    {addrs : List Nat} (h : chainSeg nodes p cur addrs q = true) :
    nodes.length ∉ addrs :=
  fun hmem => lt_irrefl _ (chainSeg_mem_lt h _ hmem)

theorem IsChain.head_eq {L : DLL α} {addrs : List Nat} (h : IsChain L addrs) :
    L.head = addrs.head? := by
  rcases h with ⟨hc, _, _, _⟩
  cases addrs with
  | nil => exact of_decide_eq_true hc
  | cons a rest => exact (chainSeg_cons_iff.mp hc).1

/-- Overwriting a node without changing its payload preserves every
`infoAt`. -/
theorem infoAt_set_preserve {nodes : List (Node α)} {b : Nat} {n m : Node α}
    (hb : nodes[b]? = some n) (hinfo : m.info = n.info) (a : Nat) :
    infoAt (setNode nodes b m) a = infoAt nodes a := by
  by_cases hab : b = a
  · subst hab
    simp only [infoAt, setNode,
      List.getElem?_set_self (lt_length_of_getElem? hb), hb, hinfo]
  · exact infoAt_set_ne hab

theorem valsAt_set_preserve {nodes : List (Node α)} {b : Nat} {n : Node α}
    (m : Node α) (hb : nodes[b]? = some n) (hinfo : m.info = n.info) (addrs : List Nat) :
    valsAt (setNode nodes b m) addrs = valsAt nodes addrs := by
  unfold valsAt
  exact List.map_congr_left fun a _ => infoAt_set_preserve hb hinfo a

/-- A non-empty chain decomposes into a front part and a last node whose
`next` is the exit pointer. -/
theorem chain_last_node {nodes : List (Node α)} {p cur q : Option Nat}
    {addrs : List Nat} (hne : addrs ≠ [])
    (h : chainSeg nodes p cur addrs q = true) :
    ∃ front t tn, addrs = front ++ [t] ∧ nodes[t]? = some tn ∧
      tn.prev = lastOr p front ∧ tn.next = q ∧
      chainSeg nodes p cur front (some t) = true := by
  rcases addrs.eq_nil_or_concat with rfl | ⟨front, t, rfl⟩
  · exact absurd rfl hne
  · rw [List.concat_eq_append] at h
    rcases chainSeg_append_iff.mp h with ⟨q', h1, h2⟩
    rcases chainSeg_cons_iff.mp h2 with ⟨hq', tn, htn, hprev, hnext⟩
    subst hq'
    exact ⟨front, t, tn, List.concat_eq_append front t, htn, hprev,
      of_decide_eq_true hnext, h1⟩

theorem to_python_list_eq {L : DLL α} {addrs : List Nat} (h : IsChain L addrs) :
    to_python_list L = valsAt L.nodes addrs := by
  rcases h with ⟨hc, htail, hsize, hnd⟩
  cases addrs with
  | nil =>
    have hh : L.head = none := of_decide_eq_true hc
    rw [to_python_list, if_pos (Or.inl hh)]
    rfl
  | cons a rest =>
    have hh : L.head = some a := (chainSeg_cons_iff.mp hc).1
    have hguard : ¬(L.head = none ∨ L.tail = none ∨ L.size = 0) := by
      push_neg
      refine ⟨by rw [hh]; simp, ?_, ?_⟩
      · rw [htail]
        exact fun hcon =>
          List.cons_ne_nil a rest (List.getLast?_eq_none_iff.mp hcon)
      · rw [hsize]
        intro hcon
        simp only [List.length_cons] at hcon
        omega
    rw [to_python_list, if_neg hguard]
    exact chainValues_eq hc (chain_length_le hc hnd)

/-- The state produced by the constructor satisfies the invariant. -/
theorem good_empty : Good (emptyDLL : DLL α) [] := by
  refine ⟨⟨?_, rfl, rfl, List.nodup_nil⟩, ?_⟩ <;> simp [emptyDLL, chainSeg, valsAt]

theorem valsAt_append {nodes : List (Node α)} (xs ys : List Nat) :
    valsAt nodes (xs ++ ys) = valsAt nodes xs ++ valsAt nodes ys :=
  List.map_append _ _ _

/-! ## Operation specifications under the invariant -/

/-- `insert_at_end` on a well-formed list succeeds and appends the value;
the new node is allocated at the end of the arena. -/
theorem insert_at_end_spec {L : DLL α} {addrs : List Nat} (h : Good L addrs) (x : α) :
    ∃ L', insert_at_end L (some x) = Except.ok L' ∧
      Good L' (addrs ++ [L.nodes.length]) ∧
      valsAt L'.nodes (addrs ++ [L.nodes.length]) = valsAt L.nodes addrs ++ [some x] ∧
      L'.nodes.length = L.nodes.length + 1 ∧
      L'.size = L.size + 1 := by
  obtain ⟨⟨hc, htail, hsize, hnd⟩, hvals⟩ := h
  cases addrs with
  | nil =>
    have hh : L.head = none := of_decide_eq_true hc
    have hsz : L.size = 0 := by simpa using hsize
    refine ⟨{ nodes := L.nodes ++ [{ info := some x }],
              head := some L.nodes.length, tail := some L.nodes.length,
              size := L.size + 1 }, ?_, ?_, ?_, ?_, ?_⟩
    · simp only [insert_at_end, validate_some, ok_bind, hh]
      rfl
    · refine ⟨⟨?_, rfl, ?_, by simp⟩, ?_⟩
      · refine chainSeg_cons_iff.mpr ⟨rfl, { info := some x },
          List.getElem?_concat_length _ _, rfl, ?_⟩
        rfl
      · rw [hsz]; rfl
      · simp [valsAt, infoAt, List.getElem?_concat_length]
    · simp [valsAt, infoAt, List.getElem?_concat_length]
    · simp
    · rfl
  | cons a rest =>
    obtain ⟨front, t, tn, heq, htn, htnprev, htnnext, hfront⟩ :=
      chain_last_node (List.cons_ne_nil a rest) hc
    have hh : L.head = some a := (chainSeg_cons_iff.mp hc).1
    have htailt : L.tail = some t := by rw [htail, heq, List.getLast?_concat]
    have ht_lt : t < L.nodes.length := by
      refine chainSeg_mem_lt hc t ?_
      rw [heq]
      exact List.mem_append_right _ (List.mem_singleton_self t)
    have hlen_notMem : L.nodes.length ∉ a :: rest := fresh_notMem hc
    have ht_ne_len : t ≠ L.nodes.length := Nat.ne_of_lt ht_lt
    have e1 : (L.nodes ++ [({ info := some x } : Node α)])[t]? = some tn := by
      rw [List.getElem?_append, if_pos ht_lt, htn]
    have e2 : (setNode (L.nodes ++ [({ info := some x } : Node α)]) t
        { tn with next := some L.nodes.length })[L.nodes.length]? =
        some ({ info := some x } : Node α) := by
      rw [setNode, List.getElem?_set_ne ht_ne_len, List.getElem?_concat_length]
    refine ⟨{ nodes := setNode (setNode (L.nodes ++ [{ info := some x }]) t
                         { tn with next := some L.nodes.length }) L.nodes.length
                         { info := some x, prev := some t },
              head := some a, tail := some L.nodes.length,
              size := L.size + 1 }, ?_, ?_, ?_, ?_, ?_⟩
    · simp only [insert_at_end, validate_some, ok_bind, hh, htailt,
        deref_eq_ok e1, deref_eq_ok e2]
      rfl
    case _ =>
      have hfrontsub : ∀ b ∈ front, b ∈ a :: rest := by
        intro b hb; rw [heq]; exact List.mem_append_left _ hb
      have ht_notMem_front : t ∉ front := by
        rw [heq] at hnd
        rcases List.nodup_append.mp hnd with ⟨-, -, hdisj⟩
        exact fun hmem => hdisj hmem (List.mem_singleton_self t)
      have hlen_notMem_front : L.nodes.length ∉ front := fun hmem =>
        hlen_notMem (hfrontsub _ hmem)
      have hh' := hfront
      rw [hh] at hh'
      have hfront2 : chainSeg (setNode (setNode (L.nodes ++ [{ info := some x }]) t
          { tn with next := some L.nodes.length }) L.nodes.length
          { info := some x, prev := some t }) none (some a) front (some t) = true := by
        rw [chainSeg_set_of_notMem hlen_notMem_front,
            chainSeg_set_of_notMem ht_notMem_front]
        exact chainSeg_extend_arena hh'
      have htlt0 : t < (L.nodes ++ [({ info := some x } : Node α)]).length := by
        rw [List.length_append, List.length_singleton]; omega
      have et2 : (setNode (setNode (L.nodes ++ [{ info := some x }]) t
          { tn with next := some L.nodes.length }) L.nodes.length
          { info := some x, prev := some t })[t]? =
          some { tn with next := some L.nodes.length } := by
        rw [setNode, setNode, List.getElem?_set_ne (Ne.symm ht_ne_len),
            List.getElem?_set_self htlt0]
      have hlenlt1 : L.nodes.length < (setNode (L.nodes ++ [({ info := some x } : Node α)]) t
          { tn with next := some L.nodes.length }).length := by
        rw [setNode, List.length_set, List.length_append, List.length_singleton]
        omega
      have elen2 : (setNode (setNode (L.nodes ++ [{ info := some x }]) t
          { tn with next := some L.nodes.length }) L.nodes.length
          { info := some x, prev := some t })[L.nodes.length]? =
          some ({ info := some x, prev := some t } : Node α) := by
        rw [setNode, List.getElem?_set_self hlenlt1]
      refine ⟨⟨?_, ?_, ?_, ?_⟩, ?_⟩
      · show chainSeg _ none (some a) ((a :: rest) ++ [L.nodes.length]) none = true
        rw [heq]
        refine chainSeg_append_iff.mpr ⟨some L.nodes.length, ?_, ?_⟩
        · refine chainSeg_append_iff.mpr ⟨some t, hfront2, ?_⟩
          refine chainSeg_cons_iff.mpr ⟨rfl, _, et2, htnprev, ?_⟩
          rw [chainSeg_nil]
          exact decide_eq_true rfl
        · have hlastOr : lastOr none (front ++ [t]) = some t := by
            rw [lastOr_eq_getLast?_or, List.getLast?_concat]; rfl
          rw [hlastOr]
          refine chainSeg_cons_iff.mpr ⟨rfl, _, elen2, rfl, ?_⟩
          rw [chainSeg_nil]
          exact decide_eq_true rfl
      · show some L.nodes.length = ((a :: rest) ++ [L.nodes.length]).getLast?
        rw [List.getLast?_concat]
      · show L.size + 1 = (((a :: rest) ++ [L.nodes.length]).length : Int)
        rw [hsize, List.length_append, List.length_singleton]
        push_cast
        ring
      · refine List.Nodup.append hnd (List.nodup_singleton _) ?_
        intro b hb hmem
        rw [List.mem_singleton] at hmem
        exact hlen_notMem (hmem ▸ hb)
      · have hvalEq : valsAt (setNode (setNode (L.nodes ++ [{ info := some x }]) t
            { tn with next := some L.nodes.length }) L.nodes.length
            { info := some x, prev := some t }) ((a :: rest) ++ [L.nodes.length]) =
            valsAt L.nodes (a :: rest) ++ [some x] := by
          rw [valsAt_set_preserve { info := some x, prev := some t } e2 rfl,
            valsAt_set_preserve { tn with next := some L.nodes.length } e1 rfl,
            valsAt_append, valsAt_extend_arena (chainSeg_mem_lt hc)]
          simp [valsAt, infoAt, List.getElem?_concat_length]
        rw [hvalEq]
        intro hmem
        rcases List.mem_append.mp hmem with hmem | hmem
        · exact hvals hmem
        · simp at hmem
    case _ =>
      rw [valsAt_set_preserve { info := some x, prev := some t } e2 rfl,
        valsAt_set_preserve { tn with next := some L.nodes.length } e1 rfl,
        valsAt_append, valsAt_extend_arena (chainSeg_mem_lt hc)]
      simp [valsAt, infoAt, List.getElem?_concat_length]
    case _ =>
      show (setNode (setNode (L.nodes ++ [{ info := some x }]) t
        { tn with next := some L.nodes.length }) L.nodes.length
        { info := some x, prev := some t }).length = L.nodes.length + 1
      rw [setNode, setNode, List.length_set, List.length_set,
        List.length_append, List.length_singleton]
    case _ => rfl

/-- The reinsertion loop `for item in l: insert_at_end(item)` appends all
the values, provided none of them is the absence sentinel. -/
theorem insertAll_spec {L : DLL α} {addrs : List Nat} (h : Good L addrs)
    {vs : List (Option α)} (hvs : none ∉ vs) :
    ∃ L' addrs', insertAll L vs = Except.ok L' ∧ Good L' addrs' ∧
      valsAt L'.nodes addrs' = valsAt L.nodes addrs ++ vs ∧
      L'.size = L.size + vs.length := by
  induction vs generalizing L addrs with
  | nil => exact ⟨L, addrs, rfl, h, by simp, by simp⟩
  | cons v vs ih =>
    cases v with
    | none => exact absurd (List.mem_cons_self _ _) hvs
    | some x =>
      obtain ⟨L1, hev, hgood1, hvals1, hlen1, hsize1⟩ := insert_at_end_spec h x
      have hvs' : none ∉ vs := fun hm => hvs (List.mem_cons_of_mem _ hm)
      obtain ⟨L', addrs', hev', hgood', hvals', hsize'⟩ := ih hgood1 hvs'
      refine ⟨L', addrs', ?_, hgood', ?_, ?_⟩
      · simp only [insertAll, hev, ok_bind]
        exact hev'
      · rw [hvals', hvals1]
        simp
      · rw [hsize', hsize1, List.length_cons]
        push_cast
        ring

/-- `insert_at_beginning` on a well-formed list succeeds and prepends the
value; the new node is allocated at the end of the arena. -/
theorem insert_at_beginning_spec {L : DLL α} {addrs : List Nat}
    (h : Good L addrs) (x : α) :
    ∃ L', insert_at_beginning L (some x) = Except.ok L' ∧
      Good L' (L.nodes.length :: addrs) ∧
      valsAt L'.nodes (L.nodes.length :: addrs) = some x :: valsAt L.nodes addrs ∧
      L'.nodes.length = L.nodes.length + 1 ∧
      L'.size = L.size + 1 := by
  obtain ⟨⟨hc, htail, hsize, hnd⟩, hvals⟩ := h
  cases addrs with
  | nil =>
    have hh : L.head = none := of_decide_eq_true hc
    have hsz : L.size = 0 := by simpa using hsize
    refine ⟨{ nodes := L.nodes ++ [{ info := some x }],
              head := some L.nodes.length, tail := some L.nodes.length,
              size := L.size + 1 }, ?_, ?_, ?_, ?_, ?_⟩
    · simp only [insert_at_beginning, validate_some, ok_bind, hh]
      rfl
    · refine ⟨⟨?_, rfl, ?_, by simp⟩, ?_⟩
      · refine chainSeg_cons_iff.mpr ⟨rfl, { info := some x },
          List.getElem?_concat_length _ _, rfl, ?_⟩
        rfl
      · rw [hsz]; rfl
      · simp [valsAt, infoAt, List.getElem?_concat_length]
    · simp [valsAt, infoAt, List.getElem?_concat_length]
    · simp
    · rfl
  | cons a rest =>
    have hh : L.head = some a := (chainSeg_cons_iff.mp hc).1
    rcases chainSeg_cons_iff.mp hc with ⟨-, n0, hn0, hn0prev, hrest⟩
    have ha_lt : a < L.nodes.length := lt_length_of_getElem? hn0
    have ha_ne_len : a ≠ L.nodes.length := Nat.ne_of_lt ha_lt
    have hlen_notMem : L.nodes.length ∉ a :: rest := fresh_notMem hc
    have ha_notMem_rest : a ∉ rest := (List.nodup_cons.mp hnd).1
    have e1 : (L.nodes ++ [({ info := some x, next := some a } : Node α)])[a]? =
        some n0 := by
      rw [List.getElem?_append, if_pos ha_lt, hn0]
    refine ⟨{ nodes := setNode (L.nodes ++ [{ info := some x, next := some a }]) a
                         { n0 with prev := some L.nodes.length },
              head := some L.nodes.length, tail := L.tail,
              size := L.size + 1 }, ?_, ?_, ?_, ?_, ?_⟩
    · simp only [insert_at_beginning, validate_some, ok_bind, hh, deref_eq_ok e1]
      rfl
    case _ =>
      have ea : (setNode (L.nodes ++ [{ info := some x, next := some a }]) a
          { n0 with prev := some L.nodes.length })[a]? =
          some { n0 with prev := some L.nodes.length } := by
        have halt0 : a < (L.nodes ++
            [({ info := some x, next := some a } : Node α)]).length := by
          rw [List.length_append, List.length_singleton]; omega
        rw [setNode, List.getElem?_set_self halt0]
      have elen : (setNode (L.nodes ++ [{ info := some x, next := some a }]) a
          { n0 with prev := some L.nodes.length })[L.nodes.length]? =
          some ({ info := some x, next := some a } : Node α) := by
        rw [setNode, List.getElem?_set_ne ha_ne_len, List.getElem?_concat_length]
      refine ⟨⟨?_, ?_, ?_, ?_⟩, ?_⟩
      · refine chainSeg_cons_iff.mpr ⟨rfl, _, elen, rfl, ?_⟩
        refine chainSeg_cons_iff.mpr ⟨rfl, _, ea, rfl, ?_⟩
        show chainSeg _ (some a) n0.next rest none = true
        rw [chainSeg_set_of_notMem ha_notMem_rest]
        exact chainSeg_extend_arena hrest
      · show L.tail = (L.nodes.length :: a :: rest).getLast?
        rw [htail]
        rfl
      · show L.size + 1 = ((L.nodes.length :: a :: rest).length : Int)
        rw [hsize]
        simp only [List.length_cons]
        push_cast
        ring
      · exact List.nodup_cons.mpr ⟨hlen_notMem, hnd⟩
      · have hvalEq : valsAt (setNode (L.nodes ++ [{ info := some x, next := some a }]) a
            { n0 with prev := some L.nodes.length }) (L.nodes.length :: a :: rest) =
            some x :: valsAt L.nodes (a :: rest) := by
          rw [valsAt_set_preserve { n0 with prev := some L.nodes.length } e1 rfl]
          show valsAt _ ([L.nodes.length] ++ (a :: rest)) = _
          rw [valsAt_append, valsAt_extend_arena (chainSeg_mem_lt hc)]
          simp [valsAt, infoAt, List.getElem?_concat_length]
        rw [hvalEq]
        intro hmem
        rcases List.mem_cons.mp hmem with hmem | hmem
        · exact Option.noConfusion hmem
        · exact hvals hmem
    case _ =>
      rw [valsAt_set_preserve { n0 with prev := some L.nodes.length } e1 rfl]
      show valsAt _ ([L.nodes.length] ++ (a :: rest)) = _
      rw [valsAt_append, valsAt_extend_arena (chainSeg_mem_lt hc)]
      simp [valsAt, infoAt, List.getElem?_concat_length]
    case _ =>
      show (setNode (L.nodes ++ [{ info := some x, next := some a }]) a
        { n0 with prev := some L.nodes.length }).length = L.nodes.length + 1
      rw [setNode, List.length_set, List.length_append, List.length_singleton]
    case _ => rfl

/-- `delete_at_beginning` fails on the empty list and otherwise removes the
head node; the rest of the chain survives unchanged. -/
theorem delete_at_beginning_spec {L : DLL α} {addrs : List Nat} (h : Good L addrs) :
    (addrs = [] → delete_at_beginning L = Except.error Err.emptyList) ∧
    (addrs ≠ [] → ∃ L', delete_at_beginning L = Except.ok L' ∧
      Good L' addrs.tail ∧ L'.nodes.length = L.nodes.length ∧
      valsAt L'.nodes addrs.tail = (valsAt L.nodes addrs).tail ∧
      L'.size = L.size - 1) := by
  obtain ⟨⟨hc, htail, hsize, hnd⟩, hvals⟩ := h
  constructor
  · rintro rfl
    have hh : L.head = none := of_decide_eq_true hc
    rw [delete_at_beginning, if_pos (Or.inl hh)]
    rfl
  · intro hne
    cases addrs with
    | nil => exact absurd rfl hne
    | cons a rest =>
      rcases chainSeg_cons_iff.mp hc with ⟨hh, n0, hn0, hn0prev, hrest⟩
      have hguard : ¬(L.head = none ∨ L.size = 0) := by
        push_neg
        constructor
        · rw [hh]; simp
        · rw [hsize]; intro hcon; simp only [List.length_cons] at hcon; omega
      cases rest with
      | nil =>
        have hnext : n0.next = none := of_decide_eq_true hrest
        have hs1 : get_size L = 1 := by
          rw [get_size, hsize]; rfl
        refine ⟨{ L with head := n0.next, tail := none, size := L.size - 1 },
          ?_, ?_, rfl, ?_, rfl⟩
        · rw [delete_at_beginning, if_neg hguard]
          simp only [if_pos hs1, hh, deref_eq_ok hn0, ok_bind]
          rfl
        · refine ⟨⟨?_, rfl, ?_, List.nodup_nil⟩, by simp [valsAt]⟩
          · show chainSeg L.nodes none n0.next [] none = true
            rw [hnext, chainSeg_nil]
            rfl
          · show L.size - 1 = (0 : Int)
            rw [hsize]; rfl
        · simp [valsAt]
      | cons b rest2 =>
        rcases chainSeg_cons_iff.mp hrest with ⟨hn0next, nb, hnb, hnbprev, hrest2⟩
        have hs1 : ¬(get_size L = 1) := by
          rw [get_size, hsize]
          intro hcon
          simp only [List.length_cons] at hcon
          omega
        have hb_notMem : b ∉ rest2 := by
          have := (List.nodup_cons.mp hnd).2
          exact (List.nodup_cons.mp this).1
        have eb : (setNode L.nodes b { nb with prev := none })[b]? =
            some { nb with prev := none } := by
          rw [setNode, List.getElem?_set_self (lt_length_of_getElem? hnb)]
        refine ⟨{ L with nodes := setNode L.nodes b { nb with prev := none }, head := n0.next, size := L.size - 1 }, ?_, ?_, ?_, ?_, rfl⟩
        · rw [delete_at_beginning, if_neg hguard]
          simp only [if_neg hs1, hh, deref_eq_ok hn0, hn0next, deref_eq_ok hnb,
            ok_bind]
          rfl
        · refine ⟨⟨?_, ?_, ?_, ?_⟩, ?_⟩
          · show chainSeg _ none n0.next (b :: rest2) none = true
            rw [hn0next]
            refine chainSeg_cons_iff.mpr ⟨rfl, _, eb, rfl, ?_⟩
            show chainSeg _ (some b) nb.next rest2 none = true
            rw [chainSeg_set_of_notMem hb_notMem]
            exact hrest2
          · show L.tail = (b :: rest2).getLast?
            rw [htail]
            rfl
          · show L.size - 1 = ((b :: rest2).length : Int)
            rw [hsize]
            simp only [List.length_cons]
            push_cast
            ring
          · exact (List.nodup_cons.mp hnd).2
          · rw [valsAt_set_preserve { nb with prev := none } hnb rfl]
            intro hmem
            exact hvals (List.mem_cons_of_mem _ hmem)
        · show (setNode L.nodes b { nb with prev := none }).length = L.nodes.length
          rw [setNode, List.length_set]
        · rw [valsAt_set_preserve { nb with prev := none } hnb rfl]
          rfl

/-- `delete_at_end` fails on the empty list and otherwise removes the tail
node; the front of the chain survives unchanged. -/
theorem delete_at_end_spec {L : DLL α} {addrs : List Nat} (h : Good L addrs) :
    (addrs = [] → delete_at_end L = Except.error Err.emptyList) ∧
    (addrs ≠ [] → ∃ L', delete_at_end L = Except.ok L' ∧
      Good L' addrs.dropLast ∧ L'.nodes.length = L.nodes.length ∧
      valsAt L'.nodes addrs.dropLast = (valsAt L.nodes addrs).dropLast ∧
      L'.size = L.size - 1) := by
  obtain ⟨⟨hc, htail, hsize, hnd⟩, hvals⟩ := h
  constructor
  · rintro rfl
    have hh : L.head = none := of_decide_eq_true hc
    rw [delete_at_end, if_pos (Or.inl hh)]
    rfl
  · intro hne
    obtain ⟨front, t, tn, heq, htn, htnprev, htnnext, hfront⟩ :=
      chain_last_node hne hc
    have hhead : L.head = addrs.head? := IsChain.head_eq ⟨hc, htail, hsize, hnd⟩
    have htailt : L.tail = some t := by rw [htail, heq, List.getLast?_concat]
    have hguard : ¬(L.head = none ∨ L.tail = none ∨ L.size = 0) := by
      push_neg
      refine ⟨?_, by rw [htailt]; simp, ?_⟩
      · rw [hhead]
        cases addrs with
        | nil => exact absurd rfl hne
        | cons a rest => simp
      · rw [hsize]
        intro hcon
        cases addrs with
        | nil => exact absurd rfl hne
        | cons a rest => simp only [List.length_cons] at hcon; omega
    cases front with
    | nil =>
      have hh : L.head = some t := by
        rw [hhead, heq]
        rfl
      have hnext : tn.next = none := htnnext
      have hs1 : get_size L = 1 := by
        rw [get_size, hsize, heq]; rfl
      refine ⟨{ L with head := tn.next, tail := none, size := L.size - 1 },
        ?_, ?_, rfl, ?_, rfl⟩
      · rw [delete_at_end, if_neg hguard]
        simp only [if_pos hs1, hh, deref_eq_ok htn, ok_bind]
        rfl
      · rw [heq]
        refine ⟨⟨?_, rfl, ?_, List.nodup_nil⟩, by simp [valsAt]⟩
        · show chainSeg L.nodes none tn.next [].dropLast none = true
          rw [hnext]
          rfl
        · show L.size - 1 = (0 : Int)
          rw [hsize, heq]; rfl
      · rw [heq]
        simp [valsAt]
    | cons f0 front1 =>
      obtain ⟨front', t2, tn2, heqf, htn2, htn2prev, htn2next, hfront'⟩ :=
        chain_last_node (List.cons_ne_nil f0 front1) hfront
      have hprevt2 : tn.prev = some t2 := by
        rw [htnprev, heqf, lastOr_eq_getLast?_or, List.getLast?_concat]
        rfl
      have hs1 : ¬(get_size L = 1) := by
        rw [get_size, hsize, heq]
        intro hcon
        rw [List.length_append, List.length_cons, List.length_singleton] at hcon
        omega
      have ht2_notMem : t2 ∉ front' := by
        have hndf : ((f0 :: front1) ++ [t]).Nodup := heq ▸ hnd
        have : (f0 :: front1).Nodup := (List.nodup_append.mp hndf).1
        rw [heqf] at this
        rcases List.nodup_append.mp this with ⟨-, -, hdisj⟩
        exact fun hmem => hdisj hmem (List.mem_singleton_self t2)
      have et2 : (setNode L.nodes t2 { tn2 with next := none })[t2]? =
          some { tn2 with next := none } := by
        rw [setNode, List.getElem?_set_self (lt_length_of_getElem? htn2)]
      refine ⟨{ L with nodes := setNode L.nodes t2 { tn2 with next := none }, tail := tn.prev, size := L.size - 1 }, ?_, ?_, ?_, ?_, rfl⟩
      · rw [delete_at_end, if_neg hguard]
        simp only [if_neg hs1, htailt, deref_eq_ok htn, hprevt2,
          deref_eq_ok htn2, ok_bind]
        rfl
      · rw [heq, List.dropLast_concat, heqf]
        refine ⟨⟨?_, ?_, ?_, ?_⟩, ?_⟩
        · refine chainSeg_append_iff.mpr ⟨some t2, ?_, ?_⟩
          · rw [chainSeg_set_of_notMem ht2_notMem]
            exact hfront'
          · refine chainSeg_cons_iff.mpr ⟨rfl, _, et2, htn2prev, ?_⟩
            rfl
        · show tn.prev = (front' ++ [t2]).getLast?
          rw [hprevt2, List.getLast?_concat]
        · show L.size - 1 = ((front' ++ [t2]).length : Int)
          rw [hsize, heq, heqf]
          simp only [List.length_append, List.length_singleton]
          push_cast
          ring
        · have hndf : ((f0 :: front1) ++ [t]).Nodup := heq ▸ hnd
          have : (f0 :: front1).Nodup := (List.nodup_append.mp hndf).1
          exact heqf ▸ this
        · rw [valsAt_set_preserve { tn2 with next := none } htn2 rfl]
          intro hmem
          refine hvals ?_
          rw [heq, heqf, valsAt_append]
          exact List.mem_append_left _ hmem
      · show (setNode L.nodes t2 { tn2 with next := none }).length = L.nodes.length
        rw [setNode, List.length_set]
      · rw [valsAt_set_preserve { tn2 with next := none } htn2 rfl, heq,
          List.dropLast_concat, valsAt_append]
        exact List.dropLast_concat.symm

theorem getLast?_append_right {β : Type} {l l' : List β} (h : l' ≠ []) :
    (l ++ l').getLast? = l'.getLast? := by
  rw [List.getLast?_append]
  cases hgl : l'.getLast? with
  | none => exact absurd (List.getLast?_eq_none_iff.mp hgl) h
  | some x => rfl

/-- A successful `find?` splits its list at the first hit. -/
theorem find?_split {β : Type} {p : β → Bool} {l : List β} {m : β}
    (h : l.find? p = some m) :
    ∃ pre post, l = pre ++ m :: post ∧ p m = true ∧ ∀ b ∈ pre, p b = false := by
  induction l with
  | nil => simp at h
  | cons x xs ih =>
    rw [List.find?_cons] at h
    cases hx : p x with
    | true =>
      simp only [hx] at h
      obtain rfl : x = m := by injection h
      exact ⟨[], xs, rfl, hx, by simp⟩
    | false =>
      simp only [hx] at h
      obtain ⟨pre, post, heq, hm, hpre⟩ := ih h
      refine ⟨x :: pre, post, by rw [List.cons_append, heq], hm, ?_⟩
      intro b hb
      rcases List.mem_cons.mp hb with rfl | hb
      · exact hx
      · exact hpre b hb

/-- `delete_value` with a non-sentinel probe: fails with `EmptyList` on the
empty list, with `ValueNotFound` when no payload matches, and otherwise
unlinks exactly the first matching node. -/
theorem delete_value_spec {L : DLL α} {addrs : List Nat} (h : Good L addrs) (v : α) :
    (addrs = [] → delete_value L (some v) = Except.error Err.emptyList) ∧
    (addrs ≠ [] → some v ∉ valsAt L.nodes addrs →
      delete_value L (some v) = Except.error Err.valueNotFound) ∧
    (some v ∈ valsAt L.nodes addrs →
      ∃ L' addrs', delete_value L (some v) = Except.ok L' ∧ Good L' addrs' ∧
        valsAt L'.nodes addrs' = (valsAt L.nodes addrs).erase (some v) ∧
        L'.size = L.size - 1) := by
  have hc := h.1.1
  have htail := h.1.2.1
  have hsize := h.1.2.2.1
  have hnd := h.1.2.2.2
  have hvalsok := h.2
  have hhead : L.head = addrs.head? := IsChain.head_eq h.1
  have hff : findFrom L.nodes (some v) L.head L.nodes.length =
      addrs.find? (fun a => decide (infoAt L.nodes a = some v)) :=
    findFrom_eq hc (chain_length_le hc hnd)
  refine ⟨?_, ?_, ?_⟩
  · rintro rfl
    have hh : L.head = none := of_decide_eq_true hc
    simp only [delete_value, validate_some, ok_bind, if_pos hh]
    rfl
  · intro hne hnotin
    have hh : ¬(L.head = none) := by
      rw [hhead]
      cases addrs with
      | nil => exact absurd rfl hne
      | cons a rest => simp
    have hfindnone : addrs.find? (fun a => decide (infoAt L.nodes a = some v)) = none := by
      rw [List.find?_eq_none]
      intro a ha hpa
      exact hnotin (List.mem_map.mpr ⟨a, ha, of_decide_eq_true hpa⟩)
    simp only [delete_value, validate_some, ok_bind, if_neg hh, hff, hfindnone]
    rfl
  · intro hin
    have hne : addrs ≠ [] := by
      intro hnil
      rw [hnil] at hin
      simp [valsAt] at hin
    have hh : ¬(L.head = none) := by
      rw [hhead]
      cases addrs with
      | nil => exact absurd rfl hne
      | cons a rest => simp
    have hfindsome : (addrs.find? (fun a => decide (infoAt L.nodes a = some v))).isSome := by
      rw [List.find?_isSome]
      rcases List.mem_map.mp hin with ⟨a, ha, hav⟩
      exact ⟨a, ha, decide_eq_true hav⟩
    obtain ⟨m, hfind⟩ := Option.isSome_iff_exists.mp hfindsome
    obtain ⟨pre, post, heq, hpm, hpre⟩ := find?_split hfind
    have hmv : infoAt L.nodes m = some v := of_decide_eq_true hpm
    have hprenotin : some v ∉ valsAt L.nodes pre := by
      intro hmem
      rcases List.mem_map.mp hmem with ⟨b, hb, hbe⟩
      exact absurd (decide_eq_true hbe) (by rw [hpre b hb]; exact Bool.false_ne_true)
    have hvalserase : (valsAt L.nodes addrs).erase (some v) =
        valsAt L.nodes pre ++ valsAt L.nodes post := by
      rw [heq, valsAt_append, List.erase_append_right _ hprenotin]
      show valsAt L.nodes pre ++ (infoAt L.nodes m :: valsAt L.nodes post).erase (some v) = _
      rw [hmv, List.erase_cons_head]
    have hcsplit := hc
    rw [heq] at hcsplit
    rcases chainSeg_append_iff.mp hcsplit with ⟨q', hprechain, hrest⟩
    rcases chainSeg_cons_iff.mp hrest with ⟨hq', nm, hnm, hnmprev, hpostchain⟩
    subst hq'
    cases hpre0 : pre with
    | nil =>
      subst hpre0
      have hprevnone : nm.prev = none := by rw [hnmprev]; rfl
      obtain ⟨L', hev', hGood', hlen', hvals', hsize'⟩ :=
        (delete_at_beginning_spec h).2 hne
      refine ⟨L', addrs.tail, ?_, hGood', ?_, hsize'⟩
      · simp only [delete_value, validate_some, ok_bind, if_neg hh, hff, hfind,
          deref_eq_ok hnm, hprevnone]
        exact hev'
      · rw [hvals', hvalserase, heq]
        simp [valsAt]
    | cons p0 pre1 =>
      have hprene : pre ≠ [] := by rw [hpre0]; exact List.cons_ne_nil p0 pre1
      obtain ⟨pre', pl, npl, heqp, hnpl, hnplprev, hnplnext, hprechain'⟩ :=
        chain_last_node hprene hprechain
      have hprevpl : nm.prev = some pl := by
        rw [hnmprev, heqp, lastOr_eq_getLast?_or, List.getLast?_concat]
        rfl
      cases hpost0 : post with
      | nil =>
        subst hpost0
        have hnextnone : nm.next = none := of_decide_eq_true hpostchain
        obtain ⟨L', hev', hGood', hlen', hvals', hsize'⟩ :=
          (delete_at_end_spec h).2 hne
        refine ⟨L', addrs.dropLast, ?_, hGood', ?_, hsize'⟩
        · simp only [delete_value, validate_some, ok_bind, if_neg hh, hff, hfind,
            deref_eq_ok hnm, hprevpl, hnextnone]
          exact hev'
        · rw [hvals', hvalserase, heq, valsAt_append]
          show (valsAt L.nodes pre ++ (infoAt L.nodes m :: valsAt L.nodes [])).dropLast = _
          simp [valsAt]
      | cons b post' =>
        subst hpost0
        rcases chainSeg_cons_iff.mp hpostchain with ⟨hnextb, nb, hnb, hnbprev, hpost'⟩
        have hnd2 : (pre ++ m :: b :: post').Nodup := heq ▸ hnd
        have hdisj : List.Disjoint pre (m :: b :: post') :=
          (List.nodup_append.mp hnd2).2.2
        have hpl_mem_pre : pl ∈ pre := by
          rw [heqp]
          exact List.mem_append_right _ (List.mem_singleton_self pl)
        have hb_notMem_pre : b ∉ pre := fun hmem =>
          hdisj hmem (List.mem_cons_of_mem _ (List.mem_cons_self _ _))
        have hpl_ne_b : pl ≠ b := fun hcon => hb_notMem_pre (hcon ▸ hpl_mem_pre)
        have hpl_notMem_post : pl ∉ post' := fun hmem =>
          hdisj hpl_mem_pre (List.mem_cons_of_mem _ (List.mem_cons_of_mem _ hmem))
        have hb_notMem_post : b ∉ post' := by
          have h1 : (m :: b :: post').Nodup := (List.nodup_append.mp hnd2).2.1
          have h2 : (b :: post').Nodup := (List.nodup_cons.mp h1).2
          exact (List.nodup_cons.mp h2).1
        have hpl_notMem_pre' : pl ∉ pre' := by
          have h1 : (pre' ++ [pl]).Nodup := heqp ▸ (List.nodup_append.mp hnd2).1
          rcases List.nodup_append.mp h1 with ⟨-, -, hd⟩
          exact fun hmem => hd hmem (List.mem_singleton_self pl)
        have hb_notMem_pre' : b ∉ pre' := fun hmem =>
          hb_notMem_pre (by rw [heqp]; exact List.mem_append_left _ hmem)
        have e_b1 : (setNode L.nodes pl { npl with next := some b })[b]? = some nb := by
          rw [setNode, List.getElem?_set_ne hpl_ne_b, hnb]
        have e_pl2 : (setNode (setNode L.nodes pl { npl with next := some b }) b
            { nb with prev := some pl })[pl]? = some { npl with next := some b } := by
          rw [setNode, setNode, List.getElem?_set_ne (Ne.symm hpl_ne_b),
            List.getElem?_set_self (lt_length_of_getElem? hnpl)]
        have e_b2 : (setNode (setNode L.nodes pl { npl with next := some b }) b
            { nb with prev := some pl })[b]? = some { nb with prev := some pl } := by
          have hblt : b < (setNode L.nodes pl { npl with next := some b }).length := by
            rw [setNode, List.length_set]
            exact lt_length_of_getElem? hnb
          rw [setNode, List.getElem?_set_self hblt]
        refine ⟨{ L with nodes := setNode (setNode L.nodes pl { npl with next := some b }) b { nb with prev := some pl }, size := L.size - 1 },
          pre ++ b :: post', ?_, ?_, ?_, rfl⟩
        · simp only [delete_value, validate_some, ok_bind, if_neg hh, hff, hfind,
            deref_eq_ok hnm, hprevpl, hnextb, deref_eq_ok hnpl, deref_eq_ok e_b1,
            ok_bind]
          rfl
        · refine ⟨⟨?_, ?_, ?_, ?_⟩, ?_⟩
          · show chainSeg _ none L.head (pre ++ b :: post') none = true
            rw [heqp]
            refine chainSeg_append_iff.mpr ⟨some b, ?_, ?_⟩
            · refine chainSeg_append_iff.mpr ⟨some pl, ?_, ?_⟩
              · rw [chainSeg_set_of_notMem hb_notMem_pre',
                  chainSeg_set_of_notMem hpl_notMem_pre']
                exact hprechain'
              · refine chainSeg_cons_iff.mpr ⟨rfl, _, e_pl2, hnplprev, ?_⟩
                rw [chainSeg_nil]
                exact decide_eq_true rfl
            · have hlastOr : lastOr none (pre' ++ [pl]) = some pl := by
                rw [lastOr_eq_getLast?_or, List.getLast?_concat]
                rfl
              rw [hlastOr]
              refine chainSeg_cons_iff.mpr ⟨rfl, _, e_b2, rfl, ?_⟩
              show chainSeg _ (some b) nb.next post' none = true
              rw [chainSeg_set_of_notMem hb_notMem_post,
                chainSeg_set_of_notMem hpl_notMem_post]
              exact hpost'
          · show L.tail = (pre ++ b :: post').getLast?
            rw [htail, heq, getLast?_append_right (List.cons_ne_nil m (b :: post')),
              getLast?_append_right (List.cons_ne_nil b post')]
            rw [show (m :: b :: post').getLast? = (b :: post').getLast? from
              List.getLast?_cons_cons]
          · show L.size - 1 = ((pre ++ b :: post').length : Int)
            rw [hsize, heq]
            simp only [List.length_append, List.length_cons]
            push_cast
            ring
          · have := List.nodup_middle.mp hnd2
            exact (List.nodup_cons.mp this).2
          · rw [valsAt_set_preserve { nb with prev := some pl } e_b1 rfl,
              valsAt_set_preserve { npl with next := some b } hnpl rfl]
            intro hmem
            refine hvalsok ?_
            rw [heq]
            rw [valsAt_append] at hmem ⊢
            rcases List.mem_append.mp hmem with hmem | hmem
            · exact List.mem_append_left _ hmem
            · refine List.mem_append_right _ ?_
              show _ ∈ valsAt L.nodes (m :: b :: post')
              simp only [valsAt, List.map_cons] at hmem ⊢
              exact List.mem_cons_of_mem _ hmem
        · rw [valsAt_set_preserve { nb with prev := some pl } e_b1 rfl,
            valsAt_set_preserve { npl with next := some b } hnpl rfl,
            hvalserase, valsAt_append]

/-- `_get_node_at_position` fails with `OutOfRange` exactly outside
`[0, size)` and otherwise returns the address at the requested offset,
whether the optimized walk went forward or backward. -/
theorem node_at_spec {L : DLL α} {addrs : List Nat} (h : IsChain L addrs)
    (position : Int) :
    ((position < 0 ∨ (addrs.length : Int) ≤ position) →
      _get_node_at_position L position = Except.error Err.outOfRange) ∧
    (0 ≤ position → position < (addrs.length : Int) →
      ∃ a, addrs[position.toNat]? = some a ∧
        _get_node_at_position L position = Except.ok a) := by
  obtain ⟨hc, htail, hsize, hnd⟩ := h
  constructor
  · intro hoob
    have hguard : position < 0 ∨ position ≥ L.size := by rw [hsize]; exact hoob
    simp only [_get_node_at_position, if_pos hguard]
    rfl
  · intro hpos hlt
    have hk : position.toNat < addrs.length := by omega
    have hguard : ¬(position < 0 ∨ position ≥ L.size) := by rw [hsize]; omega
    obtain ⟨a, ha⟩ : ∃ a, addrs[position.toNat]? = some a :=
      ⟨addrs[position.toNat], List.getElem?_eq_getElem hk⟩
    refine ⟨a, ha, ?_⟩
    by_cases hbr : position > L.size / 2
    · have hk' : (L.size - 1 - position).toNat < addrs.length := by
        rw [hsize] at hbr ⊢
        omega
      have hstep := stepBwd_eq hc hk'
      have hidx : addrs.length - 1 - (L.size - 1 - position).toNat =
          position.toNat := by
        rw [hsize] at hbr ⊢
        omega
      rw [hidx, ha, ← htail] at hstep
      simp only [_get_node_at_position, if_neg hguard, if_pos hbr, hstep]
      rfl
    · have hstep := stepFwd_eq hc hk
      rw [ha] at hstep
      simp only [_get_node_at_position, if_neg hguard, if_neg hbr, hstep]
      rfl

/-- A chain address always dereferences to a node. -/
theorem chain_mem_node {nodes : List (Node α)} {p cur q : Option Nat}
    {addrs : List Nat} (h : chainSeg nodes p cur addrs q = true)
    {a : Nat} (ha : a ∈ addrs) : ∃ n, nodes[a]? = some n ∧ n.info = infoAt nodes a := by
  have hlt : a < nodes.length := chainSeg_mem_lt h a ha
  refine ⟨nodes[a], List.getElem?_eq_getElem hlt, ?_⟩
  rw [infoAt, List.getElem?_eq_getElem hlt]

theorem mem_of_getElem? {β : Type} {l : List β} {i : Nat} {x : β}
    (h : l[i]? = some x) : x ∈ l := by
  rcases List.getElem?_eq_some.mp h with ⟨hlt, rfl⟩
  exact List.getElem_mem hlt

/-- The signed-index arithmetic of `__getitem__`/`__setitem__`: a negative
index counts from the end. -/
def resolvedPos (n index : Int) : Int :=
  if index < 0 then index + n else index

/-- Overwriting only a node's payload does not disturb any chain. -/
theorem chainSeg_set_info {nodes : List (Node α)} {a : Nat} {n : Node α}
    (hn : nodes[a]? = some n) (w : Option α) (p cur : Option Nat)
    (addrs : List Nat) (q : Option Nat) :
    chainSeg (setNode nodes a { n with info := w }) p cur addrs q =
      chainSeg nodes p cur addrs q := by
  induction addrs generalizing p cur with
  | nil => rfl
  | cons b rest ih =>
    by_cases hab : a = b
    · subst hab
      have hset : (setNode nodes a { n with info := w })[a]? =
          some { n with info := w } := by
        rw [setNode, List.getElem?_set_self (lt_length_of_getElem? hn)]
      simp only [chainSeg, hset, hn]
      simp only [ih]
    · have hset : (setNode nodes a { n with info := w })[b]? = nodes[b]? :=
        List.getElem?_set_ne hab
      rw [chainSeg, chainSeg, hset]
      cases nodes[b]? with
      | none => rfl
      | some m => simp only [ih]

/-- Overwriting the payload of the node at chain offset `k` updates exactly
position `k` of the value sequence. -/
theorem valsAt_set_info_at {nodes : List (Node α)} {addrs : List Nat}
    (hnd : addrs.Nodup) {k a : Nat} (ha : addrs[k]? = some a)
    {n : Node α} (hn : nodes[a]? = some n) (w : Option α) :
    valsAt (setNode nodes a { n with info := w }) addrs =
      (valsAt nodes addrs).set k w := by
  have hk : k < addrs.length := lt_length_of_getElem? ha
  apply List.ext_getElem?
  intro i
  by_cases hik : i = k
  · subst hik
    have hklen : i < (List.map (infoAt nodes) addrs).length := by
      rw [List.length_map]; exact hk
    rw [valsAt, valsAt, List.getElem?_map, ha, List.getElem?_set_self hklen]
    have hia : infoAt (setNode nodes a { n with info := w }) a = w := by
      rw [infoAt, setNode, List.getElem?_set_self (lt_length_of_getElem? hn)]
    simp [hia]
  · rw [valsAt, valsAt, List.getElem?_set_ne (Ne.symm hik), List.getElem?_map,
      List.getElem?_map]
    cases hai : addrs[i]? with
    | none => rfl
    | some b =>
      have hba : b ≠ a := by
        intro hcon
        subst hcon
        exact hik (List.getElem?_inj (lt_length_of_getElem? hai) hnd
          (by rw [hai, ha]))
      simp [infoAt_set_ne (Ne.symm hba)]

/-- `__getitem__` resolves a negative index by adding the size, fails with
`OutOfRange` exactly when the resolved position is outside `[0, size)`,
and otherwise returns the value at the resolved position. -/
theorem getitem_spec {L : DLL α} {addrs : List Nat} (h : IsChain L addrs)
    (index : Int) :
    ((resolvedPos addrs.length index < 0 ∨
        (addrs.length : Int) ≤ resolvedPos addrs.length index) →
      __getitem__ L index = Except.error Err.outOfRange) ∧
    (0 ≤ resolvedPos addrs.length index →
      resolvedPos addrs.length index < (addrs.length : Int) →
      ∃ w, (valsAt L.nodes addrs)[(resolvedPos addrs.length index).toNat]? = some w ∧
        __getitem__ L index = Except.ok w) := by
  obtain ⟨hc, htail, hsize, hnd⟩ := h
  constructor
  · intro hoob
    by_cases hneg : index < 0
    · have hp : index + L.size < 0 := by
        rw [hsize]
        rcases hoob with h1 | h1
        · rw [resolvedPos, if_pos hneg] at h1; omega
        · rw [resolvedPos, if_pos hneg] at h1; omega
      simp only [__getitem__, resolveIndex, if_pos hneg, if_pos hp]
      rfl
    · have hcond : index ≥ L.size := by
        rw [hsize]
        rcases hoob with h1 | h1
        · rw [resolvedPos, if_neg hneg] at h1; omega
        · rw [resolvedPos, if_neg hneg] at h1; omega
      simp only [__getitem__, resolveIndex, if_neg hneg, if_pos hcond]
      rfl
  · intro hpos hlt
    obtain ⟨a, ha, hnode⟩ :=
      (node_at_spec ⟨hc, htail, hsize, hnd⟩ (resolvedPos addrs.length index)).2
        hpos hlt
    have hmem : a ∈ addrs := mem_of_getElem? ha
    obtain ⟨nd, hnode', hinfo⟩ := chain_mem_node hc hmem
    refine ⟨infoAt L.nodes a, ?_, ?_⟩
    · rw [valsAt, List.getElem?_map, ha]
      rfl
    · by_cases hneg : index < 0
      · have hrp : resolvedPos (addrs.length) index = index + L.size := by
          rw [resolvedPos, if_pos hneg, hsize]
        rw [hrp] at hnode
        have hnn : ¬(index + L.size < 0) := by
          rw [hrp] at hpos; omega
        simp only [__getitem__, resolveIndex, if_pos hneg, if_neg hnn, pure_def,
          ok_bind, hnode, deref_eq_ok hnode']
        rw [hinfo]
      · have hrp : resolvedPos (addrs.length) index = index := by
          rw [resolvedPos, if_neg hneg]
        rw [hrp] at hnode
        have hnn : ¬(index ≥ L.size) := by
          rw [hsize]
          rw [hrp] at hlt
          omega
        simp only [__getitem__, resolveIndex, if_neg hneg, if_neg hnn, pure_def,
          ok_bind, hnode, deref_eq_ok hnode']
        rw [hinfo]

/-- `__setitem__` with a non-sentinel value: fails with `OutOfRange` outside
the resolved range, and otherwise overwrites exactly the resolved position,
leaving the size and every other position unchanged. -/
theorem setitem_spec {L : DLL α} {addrs : List Nat} (h : Good L addrs)
    (index : Int) (x : α) :
    ((resolvedPos addrs.length index < 0 ∨
        (addrs.length : Int) ≤ resolvedPos addrs.length index) →
      __setitem__ L index (some x) = Except.error Err.outOfRange) ∧
    (0 ≤ resolvedPos addrs.length index →
      resolvedPos addrs.length index < (addrs.length : Int) →
      ∃ L', __setitem__ L index (some x) = Except.ok L' ∧ Good L' addrs ∧
        valsAt L'.nodes addrs =
          (valsAt L.nodes addrs).set (resolvedPos addrs.length index).toNat (some x) ∧
        L'.size = L.size) := by
  obtain ⟨⟨hc, htail, hsize, hnd⟩, hvalsok⟩ := h
  constructor
  · intro hoob
    by_cases hneg : index < 0
    · have hp : index + L.size < 0 := by
        rw [hsize]
        rcases hoob with h1 | h1
        · rw [resolvedPos, if_pos hneg] at h1; omega
        · rw [resolvedPos, if_pos hneg] at h1; omega
      simp only [__setitem__, validate_some, ok_bind, resolveIndex,
        if_pos hneg, if_pos hp]
      rfl
    · have hcond : index ≥ L.size := by
        rw [hsize]
        rcases hoob with h1 | h1
        · rw [resolvedPos, if_neg hneg] at h1; omega
        · rw [resolvedPos, if_neg hneg] at h1; omega
      simp only [__setitem__, validate_some, ok_bind, resolveIndex,
        if_neg hneg, if_pos hcond]
      rfl
  · intro hpos hlt
    obtain ⟨a, ha, hnode⟩ :=
      (node_at_spec ⟨hc, htail, hsize, hnd⟩ (resolvedPos addrs.length index)).2
        hpos hlt
    have hmem : a ∈ addrs := mem_of_getElem? ha
    obtain ⟨nd, hnode', hinfo⟩ := chain_mem_node hc hmem
    refine ⟨{ L with nodes := setNode L.nodes a { nd with info := some x } },
      ?_, ?_, ?_, rfl⟩
    · by_cases hneg : index < 0
      · have hrp : resolvedPos (addrs.length) index = index + L.size := by
          rw [resolvedPos, if_pos hneg, hsize]
        rw [hrp] at hnode
        have hnn : ¬(index + L.size < 0) := by
          rw [hrp] at hpos; omega
        simp only [__setitem__, validate_some, ok_bind, resolveIndex,
          if_pos hneg, if_neg hnn, pure_def, hnode, deref_eq_ok hnode']
      · have hrp : resolvedPos (addrs.length) index = index := by
          rw [resolvedPos, if_neg hneg]
        rw [hrp] at hnode
        have hnn : ¬(index ≥ L.size) := by
          rw [hsize]
          rw [hrp] at hlt
          omega
        simp only [__setitem__, validate_some, ok_bind, resolveIndex,
          if_neg hneg, if_neg hnn, pure_def, hnode, deref_eq_ok hnode']
    · refine ⟨⟨?_, htail, hsize, hnd⟩, ?_⟩
      · show chainSeg (setNode L.nodes a { nd with info := some x })
          none L.head addrs none = true
        rw [chainSeg_set_info hnode']
        exact hc
      · rw [valsAt_set_info_at hnd ha hnode']
        intro hmem2
        rcases List.mem_or_eq_of_mem_set hmem2 with hmem2 | hmem2
        · exact hvalsok hmem2
        · exact Option.noConfusion hmem2
    · exact valsAt_set_info_at hnd ha hnode' (some x)

/-- The swap loop of `reverse` swaps the links of exactly the chain's
nodes, leaving the rest of the arena untouched. -/
theorem reverseLoop_eq {nodes : List (Node α)} {p cur : Option Nat}
    {addrs : List Nat} (h : chainSeg nodes p cur addrs none = true)
    (hnd : addrs.Nodup) {fuel : Nat} (hf : addrs.length ≤ fuel) :
    (∀ b, b ∉ addrs → (reverseLoop nodes cur fuel)[b]? = nodes[b]?) ∧
    (∀ a ∈ addrs, (reverseLoop nodes cur fuel)[a]? = (nodes[a]?).map swapNode) := by
  induction addrs generalizing nodes p cur fuel with
  | nil =>
    have : cur = none := of_decide_eq_true h
    subst this
    refine ⟨fun b _ => ?_, fun a ha => absurd ha (List.not_mem_nil a)⟩
    cases fuel <;> rfl
  | cons a rest ih =>
    rcases chainSeg_cons_iff.mp h with ⟨hcur, n, hn, hprev, hrest⟩
    subst hcur
    cases fuel with
    | zero => simp at hf
    | succ f =>
      have hlen : rest.length ≤ f := by simpa using hf
      have ha_notMem : a ∉ rest := (List.nodup_cons.mp hnd).1
      have hndr : rest.Nodup := (List.nodup_cons.mp hnd).2
      have hrest1 : chainSeg (setNode nodes a (swapNode n)) (some a) n.next rest none = true := by
        rw [chainSeg_set_of_notMem ha_notMem]
        exact hrest
      have hred : reverseLoop nodes (some a) (f + 1) =
          reverseLoop (setNode nodes a (swapNode n)) n.next f := by
        simp only [reverseLoop, hn]
        rfl
      obtain ⟨hout, hin⟩ := ih hrest1 hndr hlen
      constructor
      · intro b hb
        have hba : b ≠ a := fun hcon => hb (hcon ▸ List.mem_cons_self a rest)
        have hbr : b ∉ rest := fun hcon => hb (List.mem_cons_of_mem a hcon)
        rw [hred, hout b hbr, setNode, List.getElem?_set_ne (Ne.symm hba)]
      · intro c hc
        rcases List.mem_cons.mp hc with rfl | hc
        · rw [hred, hout c ha_notMem, setNode,
            List.getElem?_set_self (lt_length_of_getElem? hn), hn]
          rfl
        · have hca : c ≠ a := fun hcon => ha_notMem (hcon ▸ hc)
          rw [hred, hin c hc, setNode, List.getElem?_set_ne (Ne.symm hca)]

/-- A doubly linked segment whose nodes all had their links swapped is a
segment in the opposite direction. -/
theorem chainSeg_flip {nodes nodes2 : List (Node α)} {p cur q : Option Nat}
    {addrs : List Nat} (h : chainSeg nodes p cur addrs q = true)
    (hswap : ∀ a ∈ addrs, nodes2[a]? = (nodes[a]?).map swapNode) :
    addrs ≠ [] → chainSeg nodes2 q addrs.getLast? addrs.reverse p = true := by
  induction addrs generalizing p cur q with
  | nil => intro hcon; exact absurd rfl hcon
  | cons a rest ih =>
    intro hne2
    rcases chainSeg_cons_iff.mp h with ⟨hcur, n, hn, hprev, hrest⟩
    have hswapa : nodes2[a]? = some (swapNode n) := by
      rw [hswap a (List.mem_cons_self a rest), hn]
      rfl
    cases rest with
    | nil =>
      have hnext : n.next = q := of_decide_eq_true hrest
      refine chainSeg_cons_iff.mpr ⟨rfl, swapNode n, hswapa, ?_, ?_⟩
      · show n.next = q
        exact hnext
      · rw [chainSeg_nil]
        exact decide_eq_true hprev
    | cons b rest2 =>
      have hnextb : n.next = some b := (chainSeg_cons_iff.mp hrest).1
      have hswap' : ∀ c ∈ b :: rest2, nodes2[c]? = (nodes[c]?).map swapNode :=
        fun c hc => hswap c (List.mem_cons_of_mem a hc)
      have hih := ih hrest hswap' (List.cons_ne_nil b rest2)
      rw [List.getLast?_cons_cons, List.reverse_cons]
      refine chainSeg_append_iff.mpr ⟨some a, hih, ?_⟩
      have hlastOr : lastOr q (b :: rest2).reverse = some b := by
        rw [lastOr_eq_getLast?_or, List.getLast?_reverse]
        rfl
      rw [hlastOr]
      refine chainSeg_cons_iff.mpr ⟨rfl, swapNode n, hswapa, ?_, ?_⟩
      · show n.next = some b
        exact hnextb
      · rw [chainSeg_nil]
        exact decide_eq_true hprev

/-- `reverse` fails on the empty list and otherwise reverses the chain in
place by swapping every node's links and exchanging head and tail. -/
theorem reverse_spec {L : DLL α} {addrs : List Nat} (h : Good L addrs) :
    (addrs = [] → reverse L = Except.error Err.emptyList) ∧
    (addrs ≠ [] → ∃ L', reverse L = Except.ok L' ∧ Good L' addrs.reverse ∧
      L'.nodes.length = L.nodes.length ∧
      valsAt L'.nodes addrs.reverse = (valsAt L.nodes addrs).reverse ∧
      L'.size = L.size) := by
  obtain ⟨⟨hc, htail, hsize, hnd⟩, hvalsok⟩ := h
  constructor
  · rintro rfl
    have hh : L.head = none := of_decide_eq_true hc
    rw [reverse, if_pos (Or.inl hh)]
    rfl
  · intro hne
    have hhead : L.head = addrs.head? :=
      IsChain.head_eq ⟨hc, htail, hsize, hnd⟩
    have hguard : ¬(L.head = none ∨ L.tail = none ∨ L.size = 0) := by
      push_neg
      cases addrs with
      | nil => exact absurd rfl hne
      | cons a rest =>
        refine ⟨by rw [hhead]; simp, ?_, ?_⟩
        · rw [htail]
          exact fun hcon =>
            List.cons_ne_nil a rest (List.getLast?_eq_none_iff.mp hcon)
        · rw [hsize]
          intro hcon
          simp only [List.length_cons] at hcon
          omega
    obtain ⟨hout, hin⟩ := reverseLoop_eq hc hnd (chain_length_le hc hnd)
    have hinfo_eq : ∀ a ∈ addrs,
        infoAt (reverseLoop L.nodes L.head L.nodes.length) a = infoAt L.nodes a := by
      intro a ha
      rw [infoAt, infoAt, hin a ha]
      cases L.nodes[a]? <;> rfl
    refine ⟨{ L with nodes := reverseLoop L.nodes L.head L.nodes.length, head := L.tail, tail := L.head }, ?_, ?_, ?_, ?_, rfl⟩
    · rw [reverse, if_neg hguard]
      rfl
    · refine ⟨⟨?_, ?_, ?_, ?_⟩, ?_⟩
      · show chainSeg _ none L.tail addrs.reverse none = true
        rw [htail]
        exact chainSeg_flip hc hin hne
      · show L.head = addrs.reverse.getLast?
        rw [List.getLast?_reverse, hhead]
      · show L.size = (addrs.reverse.length : Int)
        rw [hsize, List.length_reverse]
      · exact List.nodup_reverse.mpr hnd
      · show none ∉ valsAt _ addrs.reverse
        have hv : valsAt (reverseLoop L.nodes L.head L.nodes.length) addrs.reverse =
            valsAt L.nodes addrs.reverse := by
          unfold valsAt
          exact List.map_congr_left fun a ha => hinfo_eq a (List.mem_reverse.mp ha)
        rw [hv]
        intro hmem
        rcases List.mem_map.mp hmem with ⟨b, hb, hbe⟩
        exact hvalsok (List.mem_map.mpr ⟨b, List.mem_reverse.mp hb, hbe⟩)
    · show (reverseLoop L.nodes L.head L.nodes.length).length = L.nodes.length
      have : ∀ (ns : List (Node α)) (c : Option Nat) (f : Nat),
          (reverseLoop ns c f).length = ns.length := by
        intro ns c f
        induction f generalizing ns c with
        | zero => cases c <;> rfl
        | succ k ihf =>
          cases c with
          | none => rfl
          | some a =>
            rw [reverseLoop]
            cases ns[a]? with
            | none => rfl
            | some n =>
              rw [ihf, setNode, List.length_set]
      exact this L.nodes L.head L.nodes.length
    · show valsAt _ addrs.reverse = (valsAt L.nodes addrs).reverse
      have hv : valsAt (reverseLoop L.nodes L.head L.nodes.length) addrs.reverse =
          valsAt L.nodes addrs.reverse := by
        unfold valsAt
        exact List.map_congr_left fun a ha => hinfo_eq a (List.mem_reverse.mp ha)
      rw [hv, valsAt, valsAt, List.map_reverse]

/-- `contains` on a well-formed list decides membership of the value in
the value sequence. -/
theorem contains_spec {L : DLL α} {addrs : List Nat} (h : IsChain L addrs)
    (v : α) :
    contains L (some v) = Except.ok (decide (some v ∈ valsAt L.nodes addrs)) := by
  obtain ⟨hc, htail, hsize, hnd⟩ := h
  have hff : findFrom L.nodes (some v) L.head L.nodes.length =
      addrs.find? (fun a => decide (infoAt L.nodes a = some v)) :=
    findFrom_eq hc (chain_length_le hc hnd)
  simp only [contains, validate_some, ok_bind, hff, pure_def]
  by_cases hmem : some v ∈ valsAt L.nodes addrs
  · have : (addrs.find? (fun a => decide (infoAt L.nodes a = some v))).isSome := by
      rw [List.find?_isSome]
      rcases List.mem_map.mp hmem with ⟨a, ha, hav⟩
      exact ⟨a, ha, decide_eq_true hav⟩
    rw [this, decide_eq_true hmem]
  · have : addrs.find? (fun a => decide (infoAt L.nodes a = some v)) = none := by
      rw [List.find?_eq_none]
      intro a ha hpa
      exact hmem (List.mem_map.mpr ⟨a, ha, of_decide_eq_true hpa⟩)
    rw [this, decide_eq_false hmem]
    rfl

/-- `insert_after_node` with valid values: fails with the not-found error
when the target value is absent, and otherwise splices the new node right
after the first node holding the target value. -/
theorem insert_after_node_spec {L : DLL α} {addrs : List Nat}
    (h : Good L addrs) (tv x : α) :
    (some tv ∉ valsAt L.nodes addrs →
      insert_after_node L (some tv) (some x) = Except.error Err.valueNotFound) ∧
    (some tv ∈ valsAt L.nodes addrs →
      ∃ L' addrs', insert_after_node L (some tv) (some x) = Except.ok L' ∧
        Good L' addrs' ∧
        (∃ pre m post, addrs = pre ++ m :: post ∧
          addrs' = pre ++ m :: L.nodes.length :: post ∧
          infoAt L.nodes m = some tv ∧
          valsAt L'.nodes addrs' =
            valsAt L.nodes pre ++ some tv :: some x :: valsAt L.nodes post) ∧
        L'.size = L.size + 1) := by
  have hc := h.1.1
  have htail := h.1.2.1
  have hsize := h.1.2.2.1
  have hnd := h.1.2.2.2
  have hvalsok := h.2
  have hcont := contains_spec h.1 tv
  have hff : findFrom L.nodes (some tv) L.head L.nodes.length =
      addrs.find? (fun a => decide (infoAt L.nodes a = some tv)) :=
    findFrom_eq hc (chain_length_le hc hnd)
  constructor
  · intro hnotin
    rw [decide_eq_false hnotin] at hcont
    simp only [insert_after_node, validate_some, ok_bind, hcont]
    rfl
  · intro hin
    rw [decide_eq_true hin] at hcont
    have hfindsome : (addrs.find? (fun a => decide (infoAt L.nodes a = some tv))).isSome := by
      rw [List.find?_isSome]
      rcases List.mem_map.mp hin with ⟨a, ha, hav⟩
      exact ⟨a, ha, decide_eq_true hav⟩
    obtain ⟨m, hfind⟩ := Option.isSome_iff_exists.mp hfindsome
    obtain ⟨pre, post, heq, hpm, hpre⟩ := find?_split hfind
    have hmv : infoAt L.nodes m = some tv := of_decide_eq_true hpm
    have hcsplit := hc
    rw [heq] at hcsplit
    rcases chainSeg_append_iff.mp hcsplit with ⟨q', hprechain, hrest⟩
    rcases chainSeg_cons_iff.mp hrest with ⟨hq', nm, hnm, hnmprev, hpostchain⟩
    subst hq'
    have hm_lt : m < L.nodes.length := lt_length_of_getElem? hnm
    have hm_ne_len : m ≠ L.nodes.length := Nat.ne_of_lt hm_lt
    have hlen_notMem : L.nodes.length ∉ addrs := fresh_notMem hc
    have hnd2 : (pre ++ m :: post).Nodup := heq ▸ hnd
    cases hpost0 : post with
    | nil =>
      subst hpost0
      have hnextnone : nm.next = none := of_decide_eq_true hpostchain
      have htailm : L.tail = some m := by
        rw [htail, heq, List.getLast?_concat]
      have hassert : ¬(L.tail ≠ some m) := by rw [htailm]; simp
      have e1 : (L.nodes ++ [({ info := some x } : Node α)])[m]? = some nm := by
        rw [List.getElem?_append, if_pos hm_lt, hnm]
      have e2 : (setNode (L.nodes ++ [({ info := some x } : Node α)]) m
          { nm with next := some L.nodes.length })[L.nodes.length]? =
          some ({ info := some x } : Node α) := by
        rw [setNode, List.getElem?_set_ne hm_ne_len, List.getElem?_concat_length]
      have hm_notMem_pre : m ∉ pre := by
        rcases List.nodup_append.mp (by simpa using hnd2) with ⟨-, -, hdisj⟩
        exact fun hmem => hdisj hmem (List.mem_singleton_self m)
      have hlen_notMem_pre : L.nodes.length ∉ pre := fun hmem =>
        hlen_notMem (heq ▸ List.mem_append_left _ hmem)
      refine ⟨{ nodes := setNode (setNode (L.nodes ++ [{ info := some x }]) m { nm with next := some L.nodes.length }) L.nodes.length { info := some x, prev := some m }, head := L.head, tail := some L.nodes.length, size := L.size + 1 },
        addrs ++ [L.nodes.length], ?_, ?_, ?_, rfl⟩
      · simp only [insert_after_node, validate_some, ok_bind, hcont, hff, hfind,
          Bool.not_true, not_true, eq_self_iff_true, ne_eq, ite_false, ite_true,
          deref_eq_ok hnm, hnextnone, htailm, deref_eq_ok e1,
          deref_eq_ok e2]
        rfl
      · have et2 : (setNode (setNode (L.nodes ++ [{ info := some x }]) m
            { nm with next := some L.nodes.length }) L.nodes.length
            { info := some x, prev := some m })[m]? =
            some { nm with next := some L.nodes.length } := by
          have hmlt0 : m < (L.nodes ++ [({ info := some x } : Node α)]).length := by
            rw [List.length_append, List.length_singleton]; omega
          rw [setNode, setNode, List.getElem?_set_ne (Ne.symm hm_ne_len),
            List.getElem?_set_self hmlt0]
        have elen2 : (setNode (setNode (L.nodes ++ [{ info := some x }]) m
            { nm with next := some L.nodes.length }) L.nodes.length
            { info := some x, prev := some m })[L.nodes.length]? =
            some ({ info := some x, prev := some m } : Node α) := by
          have hlt1 : L.nodes.length < (setNode (L.nodes ++
              [({ info := some x } : Node α)]) m
              { nm with next := some L.nodes.length }).length := by
            rw [setNode, List.length_set, List.length_append, List.length_singleton]
            omega
          rw [setNode, List.getElem?_set_self hlt1]
        refine ⟨⟨?_, ?_, ?_, ?_⟩, ?_⟩
        · show chainSeg _ none L.head (addrs ++ [L.nodes.length]) none = true
          rw [heq]
          refine chainSeg_append_iff.mpr ⟨some L.nodes.length, ?_, ?_⟩
          · refine chainSeg_append_iff.mpr ⟨some m, ?_, ?_⟩
            · rw [chainSeg_set_of_notMem hlen_notMem_pre,
                chainSeg_set_of_notMem hm_notMem_pre]
              exact chainSeg_extend_arena hprechain
            · refine chainSeg_cons_iff.mpr ⟨rfl, _, et2, hnmprev, ?_⟩
              rw [chainSeg_nil]
              exact decide_eq_true rfl
          · have hlastOr : lastOr none (pre ++ [m]) = some m := by
              rw [lastOr_eq_getLast?_or, List.getLast?_concat]
              rfl
            rw [hlastOr]
            refine chainSeg_cons_iff.mpr ⟨rfl, _, elen2, rfl, ?_⟩
            rw [chainSeg_nil]
            exact decide_eq_true rfl
        · show some L.nodes.length = (addrs ++ [L.nodes.length]).getLast?
          rw [List.getLast?_concat]
        · show L.size + 1 = ((addrs ++ [L.nodes.length]).length : Int)
          rw [hsize, List.length_append, List.length_singleton]
          push_cast
          ring
        · refine List.Nodup.append hnd (List.nodup_singleton _) ?_
          intro b hb hmem
          rw [List.mem_singleton] at hmem
          exact hlen_notMem (hmem ▸ hb)
        · rw [valsAt_set_preserve { info := some x, prev := some m } e2 rfl,
            valsAt_set_preserve { nm with next := some L.nodes.length } e1 rfl,
            valsAt_append, valsAt_extend_arena (chainSeg_mem_lt hc)]
          intro hmem
          rcases List.mem_append.mp hmem with hmem | hmem
          · exact hvalsok hmem
          · simp [valsAt, infoAt, List.getElem?_concat_length] at hmem
      · refine ⟨pre, m, [], heq, by rw [heq]; simp, hmv, ?_⟩
        rw [valsAt_set_preserve { info := some x, prev := some m } e2 rfl,
          valsAt_set_preserve { nm with next := some L.nodes.length } e1 rfl,
          heq, List.append_assoc, valsAt_append]
        have hpre_bound : ∀ a ∈ pre, a < L.nodes.length := fun a ha =>
          chainSeg_mem_lt hc a (by rw [heq]; exact List.mem_append_left _ ha)
        rw [valsAt_extend_arena hpre_bound]
        have h1 : infoAt (L.nodes ++ [({ info := some x } : Node α)]) m = some tv := by
          rw [infoAt_extend_arena hm_lt]
          exact hmv
        have h2 : infoAt (L.nodes ++ [({ info := some x } : Node α)]) L.nodes.length = some x := by
          rw [infoAt, List.getElem?_concat_length]
        simp only [valsAt, List.singleton_append, List.map_cons, List.map_nil, h1, h2]
    | cons b post' =>
      subst hpost0
      rcases chainSeg_cons_iff.mp hpostchain with ⟨hnextb, nb, hnb, hnbprev, hpost'⟩
      have hb_lt : b < L.nodes.length := lt_length_of_getElem? hnb
      have hb_ne_len : b ≠ L.nodes.length := Nat.ne_of_lt hb_lt
      have hm_ne_b : m ≠ b := by
        intro hcon
        have h1 : (m :: b :: post').Nodup := (List.nodup_append.mp hnd2).2.1
        rcases List.nodup_cons.mp h1 with ⟨hm1, -⟩
        exact hm1 (hcon ▸ List.mem_cons_self b post')
      have e1 : (L.nodes ++ [({ info := some x, next := some b, prev := some m } : Node α)])[b]? = some nb := by
        rw [List.getElem?_append, if_pos hb_lt, hnb]
      have e2 : (setNode (L.nodes ++ [({ info := some x, next := some b, prev := some m } : Node α)]) b { nb with prev := some L.nodes.length })[m]? = some nm := by
        rw [setNode, List.getElem?_set_ne (Ne.symm hm_ne_b),
          List.getElem?_append, if_pos hm_lt, hnm]
      refine ⟨{ nodes := setNode (setNode (L.nodes ++ [{ info := some x, next := some b, prev := some m }]) b { nb with prev := some L.nodes.length }) m { nm with next := some L.nodes.length }, head := L.head, tail := L.tail, size := L.size + 1 },
        pre ++ m :: L.nodes.length :: b :: post', ?_, ?_, ?_, rfl⟩
      · simp only [insert_after_node, validate_some, ok_bind, hcont, hff, hfind,
          Bool.not_true, not_true, eq_self_iff_true, ne_eq, ite_false, ite_true,
          deref_eq_ok hnm, hnextb, deref_eq_ok e1,
          deref_eq_ok e2]
        rfl
      · have hm_notMem_pre : m ∉ pre := by
          rcases List.nodup_append.mp hnd2 with ⟨-, -, hdisj⟩
          exact fun hmem => hdisj hmem (List.mem_cons_self _ _)
        have hb_notMem_pre : b ∉ pre := by
          rcases List.nodup_append.mp hnd2 with ⟨-, -, hdisj⟩
          exact fun hmem => hdisj hmem (List.mem_cons_of_mem _ (List.mem_cons_self _ _))
        have hlen_notMem_pre : L.nodes.length ∉ pre := fun hmem =>
          hlen_notMem (heq ▸ List.mem_append_left _ hmem)
        have hb_notMem_post : b ∉ post' := by
          have h1 : (m :: b :: post').Nodup := (List.nodup_append.mp hnd2).2.1
          have h2 : (b :: post').Nodup := (List.nodup_cons.mp h1).2
          exact (List.nodup_cons.mp h2).1
        have hm_notMem_post : m ∉ post' := by
          have h1 : (m :: b :: post').Nodup := (List.nodup_append.mp hnd2).2.1
          rcases List.nodup_cons.mp h1 with ⟨hm1, -⟩
          exact fun hmem => hm1 (List.mem_cons_of_mem _ hmem)
        have hlen_notMem_post : L.nodes.length ∉ post' := fun hmem =>
          hlen_notMem (heq ▸ List.mem_append_right _
            (List.mem_cons_of_mem _ (List.mem_cons_of_mem _ hmem)))
        have em2 : (setNode (setNode (L.nodes ++ [({ info := some x, next := some b, prev := some m } : Node α)]) b { nb with prev := some L.nodes.length }) m { nm with next := some L.nodes.length })[m]? = some { nm with next := some L.nodes.length } := by
          have hmlt2 : m < (setNode (L.nodes ++ [({ info := some x, next := some b, prev := some m } : Node α)]) b { nb with prev := some L.nodes.length }).length := by
            rw [setNode, List.length_set, List.length_append, List.length_singleton]
            omega
          rw [setNode, List.getElem?_set_self hmlt2]
        have eb2 : (setNode (setNode (L.nodes ++ [({ info := some x, next := some b, prev := some m } : Node α)]) b { nb with prev := some L.nodes.length }) m { nm with next := some L.nodes.length })[b]? = some { nb with prev := some L.nodes.length } := by
          have hblt0 : b < (L.nodes ++ [({ info := some x, next := some b, prev := some m } : Node α)]).length := by
            rw [List.length_append, List.length_singleton]; omega
          rw [setNode, setNode, List.getElem?_set_ne hm_ne_b,
            List.getElem?_set_self hblt0]
        have elen3 : (setNode (setNode (L.nodes ++ [({ info := some x, next := some b, prev := some m } : Node α)]) b { nb with prev := some L.nodes.length }) m { nm with next := some L.nodes.length })[L.nodes.length]? = some ({ info := some x, next := some b, prev := some m } : Node α) := by
          rw [setNode, setNode, List.getElem?_set_ne hm_ne_len,
            List.getElem?_set_ne hb_ne_len, List.getElem?_concat_length]
        refine ⟨⟨?_, ?_, ?_, ?_⟩, ?_⟩
        · show chainSeg _ none L.head (pre ++ m :: L.nodes.length :: b :: post') none = true
          refine chainSeg_append_iff.mpr ⟨some m, ?_, ?_⟩
          · rw [chainSeg_set_of_notMem hm_notMem_pre,
              chainSeg_set_of_notMem hb_notMem_pre]
            exact chainSeg_extend_arena hprechain
          · refine chainSeg_cons_iff.mpr ⟨rfl, _, em2, hnmprev, ?_⟩
            refine chainSeg_cons_iff.mpr ⟨rfl, _, elen3, rfl, ?_⟩
            refine chainSeg_cons_iff.mpr ⟨rfl, _, eb2, rfl, ?_⟩
            show chainSeg _ (some b) nb.next post' none = true
            rw [chainSeg_set_of_notMem hm_notMem_post,
              chainSeg_set_of_notMem hb_notMem_post]
            exact chainSeg_extend_arena hpost'
        · show L.tail = (pre ++ m :: L.nodes.length :: b :: post').getLast?
          rw [htail, heq,
            getLast?_append_right (List.cons_ne_nil m (b :: post')),
            getLast?_append_right (List.cons_ne_nil m (L.nodes.length :: b :: post')),
            List.getLast?_cons_cons, List.getLast?_cons_cons, List.getLast?_cons_cons]
        · show L.size + 1 = ((pre ++ m :: L.nodes.length :: b :: post').length : Int)
          rw [hsize, heq]
          simp only [List.length_append, List.length_cons]
          push_cast
          ring
        · show (pre ++ m :: L.nodes.length :: b :: post').Nodup
          rw [List.nodup_middle]
          refine List.nodup_cons.mpr ⟨?_, ?_⟩
          · intro hmem
            rcases List.mem_append.mp hmem with hmem | hmem
            · exact hm_notMem_pre hmem
            · rcases List.mem_cons.mp hmem with hmem | hmem
              · exact hm_ne_len hmem
              · have h1 : (m :: b :: post').Nodup := (List.nodup_append.mp hnd2).2.1
                exact (List.nodup_cons.mp h1).1 hmem
          · rw [List.nodup_middle]
            refine List.nodup_cons.mpr ⟨?_, ?_⟩
            · intro hmem
              rcases List.mem_append.mp hmem with hmem | hmem
              · exact hlen_notMem_pre hmem
              · rcases List.mem_cons.mp hmem with hmem | hmem
                · exact hb_ne_len hmem.symm
                · exact hlen_notMem_post hmem
            · have := List.nodup_middle.mp hnd2
              exact (List.nodup_cons.mp this).2
        · rw [valsAt_set_preserve { nm with next := some L.nodes.length } e2 rfl,
            valsAt_set_preserve { nb with prev := some L.nodes.length } e1 rfl]
          intro hmem
          rcases List.mem_map.mp hmem with ⟨c, hcmem, hce⟩
          have hc_cases : c ∈ addrs ∨ c = L.nodes.length := by
            rcases List.mem_append.mp hcmem with hcp | hcc
            · exact Or.inl (heq ▸ List.mem_append_left _ hcp)
            · rcases List.mem_cons.mp hcc with rfl | hcc
              · exact Or.inl (heq ▸ List.mem_append_right _ (List.mem_cons_self _ _))
              · rcases List.mem_cons.mp hcc with rfl | hcc
                · exact Or.inr rfl
                · exact Or.inl (heq ▸ List.mem_append_right _
                    (List.mem_cons_of_mem _ hcc))
          rcases hc_cases with hcaddrs | rfl
          · rw [infoAt_extend_arena (chainSeg_mem_lt hc c hcaddrs)] at hce
            exact hvalsok (List.mem_map.mpr ⟨c, hcaddrs, hce⟩)
          · rw [infoAt, List.getElem?_concat_length] at hce
            exact Option.noConfusion hce
      · refine ⟨pre, m, b :: post', heq, rfl, hmv, ?_⟩
        rw [valsAt_set_preserve { nm with next := some L.nodes.length } e2 rfl,
          valsAt_set_preserve { nb with prev := some L.nodes.length } e1 rfl,
          valsAt_append]
        have hpre_bound : ∀ a ∈ pre, a < L.nodes.length := fun a ha =>
          chainSeg_mem_lt hc a (by rw [heq]; exact List.mem_append_left _ ha)
        have hpost_bound : ∀ c ∈ b :: post', c < L.nodes.length := fun c hcm =>
          chainSeg_mem_lt hc c (by
            rw [heq]
            exact List.mem_append_right _ (List.mem_cons_of_mem _ hcm))
        rw [valsAt_extend_arena hpre_bound]
        have h1 : infoAt (L.nodes ++ [({ info := some x, next := some b, prev := some m } : Node α)]) m = some tv := by
          rw [infoAt_extend_arena hm_lt]
          exact hmv
        have h2 : infoAt (L.nodes ++ [({ info := some x, next := some b, prev := some m } : Node α)]) L.nodes.length = some x := by
          rw [infoAt, List.getElem?_concat_length]
        simp only [valsAt, List.map_cons, h1, h2]
        have h3 : ∀ c ∈ b :: post', infoAt (L.nodes ++ [({ info := some x, next := some b, prev := some m } : Node α)]) c = infoAt L.nodes c :=
          fun c hcm => infoAt_extend_arena (hpost_bound c hcm)
        rw [h3 b (List.mem_cons_self _ _),
          List.map_congr_left fun c hcm => h3 c (List.mem_cons_of_mem _ hcm)]

/-- `insert_before_node` with valid values: fails with the not-found error
when the target value is absent, and otherwise splices the new node right
before the first node holding the target value. -/
theorem insert_before_node_spec {L : DLL α} {addrs : List Nat}
    (h : Good L addrs) (tv x : α) :
    (some tv ∉ valsAt L.nodes addrs →
      insert_before_node L (some tv) (some x) = Except.error Err.valueNotFound) ∧
    (some tv ∈ valsAt L.nodes addrs →
      ∃ L' addrs', insert_before_node L (some tv) (some x) = Except.ok L' ∧
        Good L' addrs' ∧
        (∃ pre m post, addrs = pre ++ m :: post ∧
          addrs' = pre ++ L.nodes.length :: m :: post ∧
          infoAt L.nodes m = some tv ∧
          valsAt L'.nodes addrs' =
            valsAt L.nodes pre ++ some x :: some tv :: valsAt L.nodes post) ∧
        L'.size = L.size + 1) := by
  have hc := h.1.1
  have htail := h.1.2.1
  have hsize := h.1.2.2.1
  have hnd := h.1.2.2.2
  have hvalsok := h.2
  have hcont := contains_spec h.1 tv
  have hff : findFrom L.nodes (some tv) L.head L.nodes.length =
      addrs.find? (fun a => decide (infoAt L.nodes a = some tv)) :=
    findFrom_eq hc (chain_length_le hc hnd)
  constructor
  · intro hnotin
    rw [decide_eq_false hnotin] at hcont
    simp only [insert_before_node, validate_some, ok_bind, hcont]
    rfl
  · intro hin
    rw [decide_eq_true hin] at hcont
    have hfindsome : (addrs.find? (fun a => decide (infoAt L.nodes a = some tv))).isSome := by
      rw [List.find?_isSome]
      rcases List.mem_map.mp hin with ⟨a, ha, hav⟩
      exact ⟨a, ha, decide_eq_true hav⟩
    obtain ⟨m, hfind⟩ := Option.isSome_iff_exists.mp hfindsome
    obtain ⟨pre, post, heq, hpm, hpre⟩ := find?_split hfind
    have hmv : infoAt L.nodes m = some tv := of_decide_eq_true hpm
    have hcsplit := hc
    rw [heq] at hcsplit
    rcases chainSeg_append_iff.mp hcsplit with ⟨q', hprechain, hrest⟩
    rcases chainSeg_cons_iff.mp hrest with ⟨hq', nm, hnm, hnmprev, hpostchain⟩
    subst hq'
    have hm_lt : m < L.nodes.length := lt_length_of_getElem? hnm
    have hm_ne_len : m ≠ L.nodes.length := Nat.ne_of_lt hm_lt
    have hlen_notMem : L.nodes.length ∉ addrs := fresh_notMem hc
    have hnd2 : (pre ++ m :: post).Nodup := heq ▸ hnd
    have hm_notMem_post : m ∉ post := by
      have h1 : (m :: post).Nodup := (List.nodup_append.mp hnd2).2.1
      exact (List.nodup_cons.mp h1).1
    have hlen_notMem_post : L.nodes.length ∉ post := fun hmem =>
      hlen_notMem (by rw [heq]; exact List.mem_append_right _ (List.mem_cons_of_mem _ hmem))
    have hm_notMem_pre : m ∉ pre := by
      rcases List.nodup_append.mp hnd2 with ⟨-, -, hdisj⟩
      exact fun hmem => hdisj hmem (List.mem_cons_self _ _)
    have hlen_notMem_pre : L.nodes.length ∉ pre := fun hmem =>
      hlen_notMem (by rw [heq]; exact List.mem_append_left _ hmem)
    have hpre_bound : ∀ a ∈ pre, a < L.nodes.length := fun a ha =>
      chainSeg_mem_lt hc a (by rw [heq]; exact List.mem_append_left _ ha)
    have hpost_bound : ∀ c ∈ post, c < L.nodes.length := fun c hcm =>
      chainSeg_mem_lt hc c (by
        rw [heq]
        exact List.mem_append_right _ (List.mem_cons_of_mem _ hcm))
    cases hpre0 : pre with
    | nil =>
      subst hpre0
      have hprevnone : nm.prev = none := by rw [hnmprev]; rfl
      have hh : L.head = some m := (chainSeg_cons_iff.mp hcsplit).1
      have hassert : ¬(L.head ≠ some m) := by rw [hh]; simp
      have e1 : (L.nodes ++ [({ info := some x } : Node α)])[m]? = some nm := by
        rw [List.getElem?_append, if_pos hm_lt, hnm]
      have e2 : (setNode (L.nodes ++ [({ info := some x } : Node α)]) m { nm with prev := some L.nodes.length })[L.nodes.length]? = some ({ info := some x } : Node α) := by
        rw [setNode, List.getElem?_set_ne hm_ne_len, List.getElem?_concat_length]
      have hff2 := hff
      rw [hh] at hff2
      refine ⟨{ nodes := setNode (setNode (L.nodes ++ [{ info := some x }]) m { nm with prev := some L.nodes.length }) L.nodes.length { info := some x, next := some m }, head := some L.nodes.length, tail := L.tail, size := L.size + 1 },
        L.nodes.length :: m :: post, ?_, ?_, ?_, rfl⟩
      · simp only [insert_before_node, validate_some, ok_bind, hcont, hff2, hfind,
          Bool.not_true, not_true, eq_self_iff_true, ne_eq, ite_false, ite_true,
          deref_eq_ok hnm, hprevnone, hh, deref_eq_ok e1, deref_eq_ok e2]
        rfl
      · have em2 : (setNode (setNode (L.nodes ++ [({ info := some x } : Node α)]) m { nm with prev := some L.nodes.length }) L.nodes.length { info := some x, next := some m })[m]? = some { nm with prev := some L.nodes.length } := by
          have hmlt0 : m < (L.nodes ++ [({ info := some x } : Node α)]).length := by
            rw [List.length_append, List.length_singleton]; omega
          rw [setNode, setNode, List.getElem?_set_ne (Ne.symm hm_ne_len),
            List.getElem?_set_self hmlt0]
        have elen2 : (setNode (setNode (L.nodes ++ [({ info := some x } : Node α)]) m { nm with prev := some L.nodes.length }) L.nodes.length { info := some x, next := some m })[L.nodes.length]? = some ({ info := some x, next := some m } : Node α) := by
          have hlt1 : L.nodes.length < (setNode (L.nodes ++ [({ info := some x } : Node α)]) m { nm with prev := some L.nodes.length }).length := by
            rw [setNode, List.length_set, List.length_append, List.length_singleton]
            omega
          rw [setNode, List.getElem?_set_self hlt1]
        refine ⟨⟨?_, ?_, ?_, ?_⟩, ?_⟩
        · refine chainSeg_cons_iff.mpr ⟨rfl, _, elen2, rfl, ?_⟩
          refine chainSeg_cons_iff.mpr ⟨rfl, _, em2, rfl, ?_⟩
          show chainSeg _ (some m) nm.next post none = true
          rw [chainSeg_set_of_notMem hlen_notMem_post,
            chainSeg_set_of_notMem hm_notMem_post]
          exact chainSeg_extend_arena hpostchain
        · show L.tail = (L.nodes.length :: m :: post).getLast?
          rw [htail, heq, List.getLast?_cons_cons]
          rfl
        · show L.size + 1 = ((L.nodes.length :: m :: post).length : Int)
          rw [hsize, heq]
          simp only [List.length_cons, List.length_append, List.length_nil]
          push_cast
          ring
        · refine List.nodup_cons.mpr ⟨?_, by rw [heq] at hnd; exact hnd⟩
          intro hmem
          refine hlen_notMem ?_
          rw [heq]
          exact List.mem_append_right _ hmem
        · rw [valsAt_set_preserve { info := some x, next := some m } e2 rfl,
            valsAt_set_preserve { nm with prev := some L.nodes.length } e1 rfl]
          intro hmem
          rcases List.mem_map.mp hmem with ⟨c, hcmem, hce⟩
          rcases List.mem_cons.mp hcmem with rfl | hcmem
          · rw [infoAt, List.getElem?_concat_length] at hce
            exact Option.noConfusion hce
          · rw [infoAt_extend_arena (chainSeg_mem_lt hc c (heq ▸ hcmem))] at hce
            exact hvalsok (List.mem_map.mpr ⟨c, heq ▸ hcmem, hce⟩)
      · refine ⟨[], m, post, heq, rfl, hmv, ?_⟩
        rw [valsAt_set_preserve { info := some x, next := some m } e2 rfl,
          valsAt_set_preserve { nm with prev := some L.nodes.length } e1 rfl]
        have h2 : infoAt (L.nodes ++ [({ info := some x } : Node α)]) L.nodes.length = some x := by
          rw [infoAt, List.getElem?_concat_length]
        have h1 : infoAt (L.nodes ++ [({ info := some x } : Node α)]) m = some tv := by
          rw [infoAt_extend_arena hm_lt]
          exact hmv
        simp only [valsAt, List.map_cons, List.map_nil, List.nil_append, h1, h2]
        rw [List.map_congr_left fun c hcm => infoAt_extend_arena (hpost_bound c hcm)]
    | cons p0 pre1 =>
      have hprene : pre ≠ [] := by rw [hpre0]; exact List.cons_ne_nil p0 pre1
      obtain ⟨pre', pl, npl, heqp, hnpl, hnplprev, hnplnext, hprechain'⟩ :=
        chain_last_node hprene hprechain
      have hprevpl : nm.prev = some pl := by
        rw [hnmprev, heqp, lastOr_eq_getLast?_or, List.getLast?_concat]
        rfl
      have hpl_lt : pl < L.nodes.length := lt_length_of_getElem? hnpl
      have hpl_ne_len : pl ≠ L.nodes.length := Nat.ne_of_lt hpl_lt
      have hpl_mem_pre : pl ∈ pre := by
        rw [heqp]
        exact List.mem_append_right _ (List.mem_singleton_self pl)
      have hpl_ne_m : pl ≠ m := fun hcon => hm_notMem_pre (hcon ▸ hpl_mem_pre)
      have hpl_notMem_post : pl ∉ post := by
        rcases List.nodup_append.mp hnd2 with ⟨-, -, hdisj⟩
        exact fun hmem => hdisj hpl_mem_pre (List.mem_cons_of_mem _ hmem)
      have hpl_notMem_pre' : pl ∉ pre' := by
        have h1 : (pre' ++ [pl]).Nodup := heqp ▸ (List.nodup_append.mp hnd2).1
        rcases List.nodup_append.mp h1 with ⟨-, -, hd⟩
        exact fun hmem => hd hmem (List.mem_singleton_self pl)
      have hm_notMem_pre' : m ∉ pre' := fun hmem =>
        hm_notMem_pre (by rw [heqp]; exact List.mem_append_left _ hmem)
      have hlen_notMem_pre' : L.nodes.length ∉ pre' := fun hmem =>
        hlen_notMem_pre (by rw [heqp]; exact List.mem_append_left _ hmem)
      have e1 : (L.nodes ++ [({ info := some x, next := some m, prev := some pl } : Node α)])[pl]? = some npl := by
        rw [List.getElem?_append, if_pos hpl_lt, hnpl]
      have e2 : (setNode (L.nodes ++ [({ info := some x, next := some m, prev := some pl } : Node α)]) pl { npl with next := some L.nodes.length })[m]? = some nm := by
        rw [setNode, List.getElem?_set_ne hpl_ne_m,
          List.getElem?_append, if_pos hm_lt, hnm]
      refine ⟨{ nodes := setNode (setNode (L.nodes ++ [{ info := some x, next := some m, prev := some pl }]) pl { npl with next := some L.nodes.length }) m { nm with prev := some L.nodes.length }, head := L.head, tail := L.tail, size := L.size + 1 },
        pre ++ L.nodes.length :: m :: post, ?_, ?_, ?_, rfl⟩
      · simp only [insert_before_node, validate_some, ok_bind, hcont, hff, hfind,
          Bool.not_true, not_true, eq_self_iff_true, ne_eq, ite_false, ite_true,
          deref_eq_ok hnm, hprevpl, deref_eq_ok e1, deref_eq_ok e2]
        rfl
      · have epl2 : (setNode (setNode (L.nodes ++ [({ info := some x, next := some m, prev := some pl } : Node α)]) pl { npl with next := some L.nodes.length }) m { nm with prev := some L.nodes.length })[pl]? = some { npl with next := some L.nodes.length } := by
          have hpllt0 : pl < (L.nodes ++ [({ info := some x, next := some m, prev := some pl } : Node α)]).length := by
            rw [List.length_append, List.length_singleton]; omega
          rw [setNode, setNode, List.getElem?_set_ne (Ne.symm hpl_ne_m),
            List.getElem?_set_self hpllt0]
        have em2 : (setNode (setNode (L.nodes ++ [({ info := some x, next := some m, prev := some pl } : Node α)]) pl { npl with next := some L.nodes.length }) m { nm with prev := some L.nodes.length })[m]? = some { nm with prev := some L.nodes.length } := by
          have hmlt2 : m < (setNode (L.nodes ++ [({ info := some x, next := some m, prev := some pl } : Node α)]) pl { npl with next := some L.nodes.length }).length := by
            rw [setNode, List.length_set, List.length_append, List.length_singleton]
            omega
          rw [setNode, List.getElem?_set_self hmlt2]
        have elen3 : (setNode (setNode (L.nodes ++ [({ info := some x, next := some m, prev := some pl } : Node α)]) pl { npl with next := some L.nodes.length }) m { nm with prev := some L.nodes.length })[L.nodes.length]? = some ({ info := some x, next := some m, prev := some pl } : Node α) := by
          rw [setNode, setNode, List.getElem?_set_ne hm_ne_len,
            List.getElem?_set_ne hpl_ne_len, List.getElem?_concat_length]
        refine ⟨⟨?_, ?_, ?_, ?_⟩, ?_⟩
        · show chainSeg _ none L.head (pre ++ L.nodes.length :: m :: post) none = true
          rw [heqp]
          refine chainSeg_append_iff.mpr ⟨some L.nodes.length, ?_, ?_⟩
          · refine chainSeg_append_iff.mpr ⟨some pl, ?_, ?_⟩
            · rw [chainSeg_set_of_notMem hm_notMem_pre',
                chainSeg_set_of_notMem hpl_notMem_pre']
              exact chainSeg_extend_arena hprechain'
            · refine chainSeg_cons_iff.mpr ⟨rfl, _, epl2, hnplprev, ?_⟩
              rw [chainSeg_nil]
              exact decide_eq_true rfl
          · have hlastOr : lastOr none (pre' ++ [pl]) = some pl := by
              rw [lastOr_eq_getLast?_or, List.getLast?_concat]
              rfl
            rw [hlastOr]
            refine chainSeg_cons_iff.mpr ⟨rfl, _, elen3, rfl, ?_⟩
            refine chainSeg_cons_iff.mpr ⟨rfl, _, em2, rfl, ?_⟩
            show chainSeg _ (some m) nm.next post none = true
            rw [chainSeg_set_of_notMem hm_notMem_post,
              chainSeg_set_of_notMem hpl_notMem_post]
            exact chainSeg_extend_arena hpostchain
        · show L.tail = (pre ++ L.nodes.length :: m :: post).getLast?
          rw [htail, heq, getLast?_append_right (List.cons_ne_nil m post),
            getLast?_append_right (List.cons_ne_nil L.nodes.length (m :: post)),
            List.getLast?_cons_cons]
        · show L.size + 1 = ((pre ++ L.nodes.length :: m :: post).length : Int)
          rw [hsize, heq]
          simp only [List.length_append, List.length_cons]
          push_cast
          ring
        · rw [List.nodup_middle]
          refine List.nodup_cons.mpr ⟨?_, heq ▸ hnd⟩
          intro hmem
          rcases List.mem_append.mp hmem with hmem | hmem
          · exact hlen_notMem_pre hmem
          · rcases List.mem_cons.mp hmem with hmem | hmem
            · exact hm_ne_len hmem.symm
            · exact hlen_notMem_post hmem
        · rw [valsAt_set_preserve { nm with prev := some L.nodes.length } e2 rfl,
            valsAt_set_preserve { npl with next := some L.nodes.length } e1 rfl]
          intro hmem
          rcases List.mem_map.mp hmem with ⟨c, hcmem, hce⟩
          have hc_cases : c ∈ addrs ∨ c = L.nodes.length := by
            rcases List.mem_append.mp hcmem with hcp | hcc
            · exact Or.inl (by rw [heq]; exact List.mem_append_left _ hcp)
            · rcases List.mem_cons.mp hcc with rfl | hcc
              · exact Or.inr rfl
              · rcases List.mem_cons.mp hcc with rfl | hcc
                · exact Or.inl (by
                    rw [heq]
                    exact List.mem_append_right _ (List.mem_cons_self _ _))
                · exact Or.inl (by
                    rw [heq]
                    exact List.mem_append_right _ (List.mem_cons_of_mem _ hcc))
          rcases hc_cases with hcaddrs | rfl
          · rw [infoAt_extend_arena (chainSeg_mem_lt hc c hcaddrs)] at hce
            exact hvalsok (List.mem_map.mpr ⟨c, hcaddrs, hce⟩)
          · rw [infoAt, List.getElem?_concat_length] at hce
            exact Option.noConfusion hce
      · refine ⟨pre, m, post, heq, rfl, hmv, ?_⟩
        rw [valsAt_set_preserve { nm with prev := some L.nodes.length } e2 rfl,
          valsAt_set_preserve { npl with next := some L.nodes.length } e1 rfl,
          valsAt_append, valsAt_extend_arena hpre_bound]
        have h1 : infoAt (L.nodes ++ [({ info := some x, next := some m, prev := some pl } : Node α)]) m = some tv := by
          rw [infoAt_extend_arena hm_lt]
          exact hmv
        have h2 : infoAt (L.nodes ++ [({ info := some x, next := some m, prev := some pl } : Node α)]) L.nodes.length = some x := by
          rw [infoAt, List.getElem?_concat_length]
        simp only [valsAt, List.map_cons, h1, h2]
        rw [List.map_congr_left fun c hcm => infoAt_extend_arena (hpost_bound c hcm)]

/-- A successful positional lookup splits the list at that offset. -/
theorem getElem?_split {β : Type} {l : List β} {k : Nat} {a : β}
    (h : l[k]? = some a) : l = l.take k ++ a :: l.drop (k + 1) := by
  rcases List.getElem?_eq_some.mp h with ⟨hlt, rfl⟩
  rw [← List.drop_eq_getElem_cons hlt, List.take_append_drop]

/-- `delete_at_position`: fails with `EmptyList` on the empty list, with
`OutOfRange` outside `[0, size)`, and otherwise removes the node at the
requested offset. -/
theorem delete_at_position_spec {L : DLL α} {addrs : List Nat}
    (h : Good L addrs) (position : Int) :
    (addrs = [] → delete_at_position L position = Except.error Err.emptyList) ∧
    (addrs ≠ [] → (position < 0 ∨ (addrs.length : Int) ≤ position) →
      delete_at_position L position = Except.error Err.outOfRange) ∧
    (0 ≤ position → position < (addrs.length : Int) →
      ∃ L' addrs', delete_at_position L position = Except.ok L' ∧ Good L' addrs' ∧
        addrs'.length = addrs.length - 1 ∧
        valsAt L'.nodes addrs' =
          valsAt L.nodes (addrs.take position.toNat) ++
            valsAt L.nodes (addrs.drop (position.toNat + 1)) ∧
        L'.size = L.size - 1) := by
  have hc := h.1.1
  have htail := h.1.2.1
  have hsize := h.1.2.2.1
  have hnd := h.1.2.2.2
  have hvalsok := h.2
  have hhead : L.head = addrs.head? := IsChain.head_eq h.1
  refine ⟨?_, ?_, ?_⟩
  · rintro rfl
    have hh : L.head = none := of_decide_eq_true hc
    simp only [delete_at_position, if_pos (Or.inl hh)]
    rfl
  · intro hne hoob
    have hguard : ¬(L.head = none ∨ L.size = 0) := by
      cases addrs with
      | nil => exact absurd rfl hne
      | cons a rest =>
        push_neg
        constructor
        · rw [hhead]; simp
        · rw [hsize]; intro hcon; simp only [List.length_cons] at hcon; omega
    have herr := (node_at_spec h.1 position).1 hoob
    simp only [delete_at_position, if_neg hguard, herr]
    rfl
  · intro hpos hlt
    have hne : addrs ≠ [] := by
      intro hcon
      rw [hcon] at hlt
      simp at hlt
      omega
    have hguard : ¬(L.head = none ∨ L.size = 0) := by
      cases addrs with
      | nil => exact absurd rfl hne
      | cons a rest =>
        push_neg
        constructor
        · rw [hhead]; simp
        · rw [hsize]; intro hcon; simp only [List.length_cons] at hcon; omega
    obtain ⟨m, hm, hnode⟩ := (node_at_spec h.1 position).2 hpos hlt
    have heq : addrs = addrs.take position.toNat ++ m :: addrs.drop (position.toNat + 1) :=
      getElem?_split hm
    have hk : position.toNat < addrs.length := by omega
    have hlentake : (addrs.take position.toNat).length = position.toNat := by
      rw [List.length_take]
      omega
    have hlendrop : (addrs.drop (position.toNat + 1)).length =
        addrs.length - position.toNat - 1 := by
      rw [List.length_drop]
      omega
    have hcsplit := hc
    rw [heq] at hcsplit
    rcases chainSeg_append_iff.mp hcsplit with ⟨q', hprechain, hrest⟩
    rcases chainSeg_cons_iff.mp hrest with ⟨hq', nm, hnm, hnmprev, hpostchain⟩
    subst hq'
    have hnd2 : (addrs.take position.toNat ++ m :: addrs.drop (position.toNat + 1)).Nodup :=
      heq ▸ hnd
    cases hpre0 : addrs.take position.toNat with
    | nil =>
      have hprevnone : nm.prev = none := by
        rw [hnmprev, hpre0]
        rfl
      obtain ⟨L', hev', hGood', hlen', hvals', hsize'⟩ :=
        (delete_at_beginning_spec h).2 hne
      refine ⟨L', addrs.tail, ?_, hGood', ?_, ?_, hsize'⟩
      · simp only [delete_at_position, if_neg hguard, hnode, ok_bind,
          deref_eq_ok hnm, hprevnone]
        exact hev'
      · rw [List.length_tail]
      · have hk0 : position.toNat = 0 := by
          have h0 := hlentake
          rw [hpre0] at h0
          simpa using h0.symm
        rw [hvals', hk0]
        simp only [Nat.zero_add]
        have hdrop : valsAt L.nodes (addrs.drop 1) = (valsAt L.nodes addrs).tail := by
          rw [valsAt, valsAt, List.map_drop, List.drop_one]
        rw [hdrop]
        rfl
    | cons p0 pre1 =>
      have hprene : addrs.take position.toNat ≠ [] := by
        rw [hpre0]
        exact List.cons_ne_nil p0 pre1
      obtain ⟨pre', pl, npl, heqp, hnpl, hnplprev, hnplnext, hprechain'⟩ :=
        chain_last_node hprene hprechain
      have hprevpl : nm.prev = some pl := by
        rw [hnmprev, heqp, lastOr_eq_getLast?_or, List.getLast?_concat]
        rfl
      cases hpost0 : addrs.drop (position.toNat + 1) with
      | nil =>
        rw [hpost0] at hpostchain
        have hnextnone : nm.next = none := of_decide_eq_true hpostchain
        obtain ⟨L', hev', hGood', hlen', hvals', hsize'⟩ :=
          (delete_at_end_spec h).2 hne
        refine ⟨L', addrs.dropLast, ?_, hGood', ?_, ?_, hsize'⟩
        · simp only [delete_at_position, if_neg hguard, hnode, ok_bind,
            deref_eq_ok hnm, hprevpl, hnextnone]
          exact hev'
        · rw [List.length_dropLast]
        · rw [hvals', heq, hpost0, valsAt_append]
          have hdl : (valsAt L.nodes (addrs.take position.toNat) ++
              valsAt L.nodes [m]).dropLast =
              valsAt L.nodes (addrs.take position.toNat) := List.dropLast_concat
          rw [hdl, hpre0]
          simp [valsAt]
      | cons b post' =>
        rw [hpost0] at hpostchain heq hnd2
        rcases chainSeg_cons_iff.mp hpostchain with ⟨hnextb, nb, hnb, hnbprev, hpost'⟩
        generalize hprea : addrs.take position.toNat = pre at heq hnd2 hprechain heqp hpre0
        have hdisj : List.Disjoint pre (m :: b :: post') :=
          (List.nodup_append.mp hnd2).2.2
        have hpl_mem_pre : pl ∈ pre := by
          rw [heqp]
          exact List.mem_append_right _ (List.mem_singleton_self pl)
        have hb_notMem_pre : b ∉ pre := fun hmem =>
          hdisj hmem (List.mem_cons_of_mem _ (List.mem_cons_self _ _))
        have hpl_ne_b : pl ≠ b := fun hcon => hb_notMem_pre (hcon ▸ hpl_mem_pre)
        have hpl_notMem_post : pl ∉ post' := fun hmem =>
          hdisj hpl_mem_pre (List.mem_cons_of_mem _ (List.mem_cons_of_mem _ hmem))
        have hb_notMem_post : b ∉ post' := by
          have h1 : (m :: b :: post').Nodup := (List.nodup_append.mp hnd2).2.1
          have h2 : (b :: post').Nodup := (List.nodup_cons.mp h1).2
          exact (List.nodup_cons.mp h2).1
        have hpl_notMem_pre' : pl ∉ pre' := by
          have h1 : (pre' ++ [pl]).Nodup := heqp ▸ (List.nodup_append.mp hnd2).1
          rcases List.nodup_append.mp h1 with ⟨-, -, hd⟩
          exact fun hmem => hd hmem (List.mem_singleton_self pl)
        have hb_notMem_pre' : b ∉ pre' := fun hmem =>
          hb_notMem_pre (by rw [heqp]; exact List.mem_append_left _ hmem)
        have e_b1 : (setNode L.nodes pl { npl with next := some b })[b]? = some nb := by
          rw [setNode, List.getElem?_set_ne hpl_ne_b, hnb]
        have e_pl2 : (setNode (setNode L.nodes pl { npl with next := some b }) b
            { nb with prev := some pl })[pl]? = some { npl with next := some b } := by
          rw [setNode, setNode, List.getElem?_set_ne (Ne.symm hpl_ne_b),
            List.getElem?_set_self (lt_length_of_getElem? hnpl)]
        have e_b2 : (setNode (setNode L.nodes pl { npl with next := some b }) b
            { nb with prev := some pl })[b]? = some { nb with prev := some pl } := by
          have hblt : b < (setNode L.nodes pl { npl with next := some b }).length := by
            rw [setNode, List.length_set]
            exact lt_length_of_getElem? hnb
          rw [setNode, List.getElem?_set_self hblt]
        refine ⟨{ L with nodes := setNode (setNode L.nodes pl { npl with next := some b }) b { nb with prev := some pl }, size := L.size - 1 },
          pre ++ b :: post', ?_, ?_, ?_, ?_, rfl⟩
        · simp only [delete_at_position, if_neg hguard, hnode, ok_bind,
            deref_eq_ok hnm, hprevpl, hnextb, deref_eq_ok hnpl, deref_eq_ok e_b1]
          rfl
        · refine ⟨⟨?_, ?_, ?_, ?_⟩, ?_⟩
          · show chainSeg _ none L.head (pre ++ b :: post') none = true
            rw [heqp]
            refine chainSeg_append_iff.mpr ⟨some b, ?_, ?_⟩
            · refine chainSeg_append_iff.mpr ⟨some pl, ?_, ?_⟩
              · rw [chainSeg_set_of_notMem hb_notMem_pre',
                  chainSeg_set_of_notMem hpl_notMem_pre']
                exact hprechain'
              · refine chainSeg_cons_iff.mpr ⟨rfl, _, e_pl2, hnplprev, ?_⟩
                rw [chainSeg_nil]
                exact decide_eq_true rfl
            · have hlastOr : lastOr none (pre' ++ [pl]) = some pl := by
                rw [lastOr_eq_getLast?_or, List.getLast?_concat]
                rfl
              rw [hlastOr]
              refine chainSeg_cons_iff.mpr ⟨rfl, _, e_b2, rfl, ?_⟩
              show chainSeg _ (some b) nb.next post' none = true
              rw [chainSeg_set_of_notMem hb_notMem_post,
                chainSeg_set_of_notMem hpl_notMem_post]
              exact hpost'
          · show L.tail = (pre ++ b :: post').getLast?
            rw [htail, heq, getLast?_append_right (List.cons_ne_nil m (b :: post')),
              getLast?_append_right (List.cons_ne_nil b post')]
            rw [show (m :: b :: post').getLast? = (b :: post').getLast? from
              List.getLast?_cons_cons]
          · show L.size - 1 = ((pre ++ b :: post').length : Int)
            rw [hsize, heq]
            simp only [List.length_append, List.length_cons]
            push_cast
            ring
          · have := List.nodup_middle.mp hnd2
            exact (List.nodup_cons.mp this).2
          · rw [valsAt_set_preserve { nb with prev := some pl } e_b1 rfl,
              valsAt_set_preserve { npl with next := some b } hnpl rfl]
            intro hmem
            refine hvalsok ?_
            rw [heq]
            rw [valsAt_append] at hmem ⊢
            rcases List.mem_append.mp hmem with hmem | hmem
            · exact List.mem_append_left _ hmem
            · refine List.mem_append_right _ ?_
              show _ ∈ valsAt L.nodes (m :: b :: post')
              simp only [valsAt, List.map_cons] at hmem ⊢
              exact List.mem_cons_of_mem _ hmem
        · have h1 : addrs.length = pre.length + post'.length + 2 := by
            rw [heq]
            simp only [List.length_append, List.length_cons]
            omega
          show (pre ++ b :: post').length = addrs.length - 1
          simp only [List.length_append, List.length_cons]
          omega
        · rw [valsAt_set_preserve { nb with prev := some pl } e_b1 rfl,
            valsAt_set_preserve { npl with next := some b } hnpl rfl,
            valsAt_append, hpre0]

/-- `clear` always yields a well-formed empty list (the arena is left to
the garbage collector). -/
theorem clear_good (L : DLL α) : Good (clear L) [] := by
  refine ⟨⟨?_, rfl, rfl, List.nodup_nil⟩, by simp [valsAt]⟩
  rw [clear, chainSeg_nil]
  rfl

/-- `pop` fails on the empty stack and otherwise removes and returns the
tail value. -/
theorem pop_spec {L : DLL α} {addrs : List Nat} (h : Good L addrs) :
    (addrs = [] → pop L = Except.error Err.emptyList) ∧
    (addrs ≠ [] → ∃ v L', pop L = Except.ok (v, L') ∧
      Good L' addrs.dropLast ∧
      (valsAt L.nodes addrs).getLast? = some v ∧
      valsAt L'.nodes addrs.dropLast = (valsAt L.nodes addrs).dropLast ∧
      L'.size = L.size - 1) := by
  obtain ⟨⟨hc, htail, hsize, hnd⟩, hvalsok⟩ := h
  constructor
  · rintro rfl
    have hh : L.head = none := of_decide_eq_true hc
    rw [pop, if_pos (Or.inl hh)]
    rfl
  · intro hne
    obtain ⟨front, t, tn, heq, htn, htnprev, htnnext, hfront⟩ :=
      chain_last_node hne hc
    have hhead : L.head = addrs.head? := IsChain.head_eq ⟨hc, htail, hsize, hnd⟩
    have htailt : L.tail = some t := by rw [htail, heq, List.getLast?_concat]
    have hguard : ¬(L.head = none ∨ L.tail = none ∨ L.size = 0) := by
      push_neg
      refine ⟨?_, by rw [htailt]; simp, ?_⟩
      · rw [hhead]
        cases addrs with
        | nil => exact absurd rfl hne
        | cons a rest => simp
      · rw [hsize]
        intro hcon
        cases addrs with
        | nil => exact absurd rfl hne
        | cons a rest => simp only [List.length_cons] at hcon; omega
    have hlastv : (valsAt L.nodes addrs).getLast? = some (infoAt L.nodes t) := by
      rw [heq, valsAt_append]
      rw [getLast?_append_right (by simp [valsAt] : valsAt L.nodes [t] ≠ [])]
      simp [valsAt]
    cases front with
    | nil =>
      have hh : L.head = some t := by
        rw [hhead, heq]
        rfl
      have hs1 : L.size = 1 := by
        rw [hsize, heq]; rfl
      have hassert : ¬(tn.info ≠ tn.info) := by simp
      refine ⟨tn.info, clear L, ?_, ?_, ?_, ?_, ?_⟩
      · rw [pop, if_neg hguard]
        simp only [if_pos hs1, hh, htailt, deref_eq_ok htn, ok_bind,
          ne_eq, not_true, eq_self_iff_true, ite_false, ite_true]
        rfl
      · rw [heq]
        exact clear_good L
      · rw [hlastv, infoAt, htn]
      · rw [heq]
        simp [valsAt, clear]
      · rw [clear, hs1]
        norm_num
    | cons f0 front1 =>
      obtain ⟨front', t2, tn2, heqf, htn2, htn2prev, htn2next, hfront'⟩ :=
        chain_last_node (List.cons_ne_nil f0 front1) hfront
      have hprevt2 : tn.prev = some t2 := by
        rw [htnprev, heqf, lastOr_eq_getLast?_or, List.getLast?_concat]
        rfl
      have hs1 : ¬(L.size = 1) := by
        rw [hsize, heq]
        intro hcon
        rw [List.length_append, List.length_cons, List.length_singleton] at hcon
        omega
      have ht2_notMem : t2 ∉ front' := by
        have hndf : ((f0 :: front1) ++ [t]).Nodup := heq ▸ hnd
        have h1 : (f0 :: front1).Nodup := (List.nodup_append.mp hndf).1
        rw [heqf] at h1
        rcases List.nodup_append.mp h1 with ⟨-, -, hd⟩
        exact fun hmem => hd hmem (List.mem_singleton_self t2)
      have et2 : (setNode L.nodes t2 { tn2 with next := none })[t2]? =
          some { tn2 with next := none } := by
        rw [setNode, List.getElem?_set_self (lt_length_of_getElem? htn2)]
      refine ⟨tn.info, { L with nodes := setNode L.nodes t2 { tn2 with next := none }, tail := tn.prev, size := L.size - 1 }, ?_, ?_, ?_, ?_, rfl⟩
      · rw [pop, if_neg hguard]
        simp only [if_neg hs1, htailt, deref_eq_ok htn, hprevt2,
          deref_eq_ok htn2, ok_bind]
        rfl
      · rw [heq, List.dropLast_concat, heqf]
        refine ⟨⟨?_, ?_, ?_, ?_⟩, ?_⟩
        · refine chainSeg_append_iff.mpr ⟨some t2, ?_, ?_⟩
          · rw [chainSeg_set_of_notMem ht2_notMem]
            exact hfront'
          · refine chainSeg_cons_iff.mpr ⟨rfl, _, et2, htn2prev, ?_⟩
            rfl
        · show tn.prev = (front' ++ [t2]).getLast?
          rw [hprevt2, List.getLast?_concat]
        · show L.size - 1 = ((front' ++ [t2]).length : Int)
          rw [hsize, heq, heqf]
          simp only [List.length_append, List.length_singleton]
          push_cast
          ring
        · have hndf : ((f0 :: front1) ++ [t]).Nodup := heq ▸ hnd
          have h1 : (f0 :: front1).Nodup := (List.nodup_append.mp hndf).1
          exact heqf ▸ h1
        · rw [valsAt_set_preserve { tn2 with next := none } htn2 rfl]
          intro hmem
          refine hvalsok ?_
          rw [heq, heqf, valsAt_append]
          exact List.mem_append_left _ hmem
      · rw [hlastv, infoAt, htn]
      · rw [valsAt_set_preserve { tn2 with next := none } htn2 rfl, heq,
          List.dropLast_concat, valsAt_append]
        exact List.dropLast_concat.symm

/-- `dequeue` fails on the empty queue and otherwise removes and returns
the head value. -/
theorem dequeue_spec {L : DLL α} {addrs : List Nat} (h : Good L addrs) :
    (addrs = [] → dequeue L = Except.error Err.emptyList) ∧
    (addrs ≠ [] → ∃ v L', dequeue L = Except.ok (v, L') ∧
      Good L' addrs.tail ∧
      (valsAt L.nodes addrs).head? = some v ∧
      valsAt L'.nodes addrs.tail = (valsAt L.nodes addrs).tail ∧
      L'.size = L.size - 1) := by
  obtain ⟨⟨hc, htail, hsize, hnd⟩, hvalsok⟩ := h
  constructor
  · rintro rfl
    have hh : L.head = none := of_decide_eq_true hc
    rw [dequeue, if_pos (Or.inl hh)]
    rfl
  · intro hne
    cases addrs with
    | nil => exact absurd rfl hne
    | cons a rest =>
      rcases chainSeg_cons_iff.mp hc with ⟨hh, n0, hn0, hn0prev, hrest⟩
      have hguard : ¬(L.head = none ∨ L.tail = none ∨ L.size = 0) := by
        push_neg
        refine ⟨by rw [hh]; simp, ?_, ?_⟩
        · rw [htail]
          exact fun hcon =>
            List.cons_ne_nil a rest (List.getLast?_eq_none_iff.mp hcon)
        · rw [hsize]
          intro hcon
          simp only [List.length_cons] at hcon
          omega
      have hheadv : (valsAt L.nodes (a :: rest)).head? = some (infoAt L.nodes a) := rfl
      cases rest with
      | nil =>
        have hs1 : L.size = 1 := by rw [hsize]; rfl
        refine ⟨n0.info, clear L, ?_, clear_good L, ?_, ?_, ?_⟩
        · rw [dequeue, if_neg hguard]
          simp only [hh, deref_eq_ok hn0, ok_bind, if_pos hs1]
          rfl
        · rw [hheadv, infoAt, hn0]
        · simp [valsAt, clear]
        · rw [clear, hs1]
          norm_num
      | cons b rest2 =>
        rcases chainSeg_cons_iff.mp hrest with ⟨hn0next, nb, hnb, hnbprev, hrest2⟩
        have hs1 : ¬(L.size = 1) := by
          rw [hsize]
          intro hcon
          simp only [List.length_cons] at hcon
          omega
        have hb_notMem : b ∉ rest2 := by
          have h1 := (List.nodup_cons.mp hnd).2
          exact (List.nodup_cons.mp h1).1
        have eb : (setNode L.nodes b { nb with prev := none })[b]? =
            some { nb with prev := none } := by
          rw [setNode, List.getElem?_set_self (lt_length_of_getElem? hnb)]
        refine ⟨n0.info, { L with nodes := setNode L.nodes b { nb with prev := none }, head := n0.next, size := L.size - 1 }, ?_, ?_, ?_, ?_, rfl⟩
        · rw [dequeue, if_neg hguard]
          simp only [hh, deref_eq_ok hn0, ok_bind, if_neg hs1, hn0next,
            deref_eq_ok hnb]
          rfl
        · refine ⟨⟨?_, ?_, ?_, ?_⟩, ?_⟩
          · show chainSeg _ none n0.next (b :: rest2) none = true
            rw [hn0next]
            refine chainSeg_cons_iff.mpr ⟨rfl, _, eb, rfl, ?_⟩
            show chainSeg _ (some b) nb.next rest2 none = true
            rw [chainSeg_set_of_notMem hb_notMem]
            exact hrest2
          · show L.tail = (b :: rest2).getLast?
            rw [htail]
            rfl
          · show L.size - 1 = ((b :: rest2).length : Int)
            rw [hsize]
            simp only [List.length_cons]
            push_cast
            ring
          · exact (List.nodup_cons.mp hnd).2
          · rw [valsAt_set_preserve { nb with prev := none } hnb rfl]
            intro hmem
            exact hvalsok (List.mem_cons_of_mem _ hmem)
        · rw [hheadv, infoAt, hn0]
        · rw [valsAt_set_preserve { nb with prev := none } hnb rfl]
          rfl

/-- On a non-empty chain the shared emptiness guard
`head is None or tail is None or size == 0` is false. -/
theorem chain_guard_pos {L : DLL α} {addrs : List Nat} (h : IsChain L addrs)
    (hne : addrs ≠ []) : ¬(L.head = none ∨ L.tail = none ∨ L.size = 0) := by
  obtain ⟨hc, htail, hsize, hnd⟩ := h
  cases addrs with
  | nil => exact absurd rfl hne
  | cons a rest =>
    have hh : L.head = some a := (chainSeg_cons_iff.mp hc).1
    push_neg
    refine ⟨by rw [hh]; simp, ?_, ?_⟩
    · rw [htail]
      exact fun hcon => List.cons_ne_nil a rest (List.getLast?_eq_none_iff.mp hcon)
    · rw [hsize]
      intro hcon
      simp only [List.length_cons] at hcon
      omega

/-- On the empty chain the shared emptiness guard is true. -/
theorem chain_guard_nil {L : DLL α} {addrs : List Nat} (h : IsChain L addrs)
    (hnil : addrs = []) : L.head = none ∨ L.tail = none ∨ L.size = 0 := by
  subst hnil
  exact Or.inl (of_decide_eq_true h.1)

/-- `sort`: soft failure (no raised error, state untouched) on the empty
list and on incomparable elements; otherwise the value sequence becomes
the host sort of the previous sequence. -/
theorem sort_spec (lt : Option α → Option α → Option Bool) (desc : Bool)
    {L : DLL α} {addrs : List Nat} (h : Good L addrs) :
    (addrs = [] → sort lt L desc = Except.ok (L, SortStatus.emptyMsg)) ∧
    (addrs ≠ [] → allPairsComparable lt (valsAt L.nodes addrs) = false →
      sort lt L desc = Except.ok (L, SortStatus.incomparableMsg)) ∧
    (addrs ≠ [] → allPairsComparable lt (valsAt L.nodes addrs) = true →
      ∃ L' addrs', sort lt L desc =
          Except.ok (L', if desc then SortStatus.sortedReverseMsg else SortStatus.sortedMsg) ∧
        Good L' addrs' ∧
        valsAt L'.nodes addrs' =
          List.insertionSort (fun a b => sortLe lt desc a b = true) (valsAt L.nodes addrs) ∧
        L'.size = L.size) := by
  have htp : to_python_list L = valsAt L.nodes addrs := to_python_list_eq h.1
  refine ⟨?_, ?_, ?_⟩
  · intro hnil
    rw [sort, if_pos (chain_guard_nil h.1 hnil)]
    rfl
  · intro hne hcomp
    rw [sort, if_neg (chain_guard_pos h.1 hne)]
    simp only [htp, pythonListSort, hcomp, Bool.false_eq_true, if_false]
    rfl
  · intro hne hcomp
    have hnone : none ∉
        List.insertionSort (fun a b => sortLe lt desc a b = true) (valsAt L.nodes addrs) :=
      fun hm => h.2 ((List.perm_insertionSort _ _).mem_iff.mp hm)
    obtain ⟨L', addrs', hev, hgood, hvals, hsize'⟩ := insertAll_spec (clear_good L) hnone
    refine ⟨L', addrs', ?_, hgood, ?_, ?_⟩
    · rw [sort, if_neg (chain_guard_pos h.1 hne)]
      simp only [htp, pythonListSort, hcomp, if_true, hev, ok_bind]
      rfl
    · rw [hvals]
      rfl
    · have hlen : (List.insertionSort (fun a b => sortLe lt desc a b = true)
          (valsAt L.nodes addrs)).length = addrs.length := by
        rw [(List.perm_insertionSort _ _).length_eq, valsAt, List.length_map]
      have h0 : (clear L).size = 0 := rfl
      have hsz := h.1.2.2.1
      rw [hsize', hlen, h0, hsz]
      omega

/-- Membership in the result of the seen-set filtering loop. -/
theorem dedupSeen_mem {seen l : List (Option α)} {x : Option α} :
    x ∈ dedupSeen seen l ↔ x ∈ l ∧ x ∉ seen := by
  induction l generalizing seen with
  | nil => simp [dedupSeen]
  | cons a as ih =>
    by_cases ha : a ∈ seen
    · rw [dedupSeen, if_pos ha, ih]
      constructor
      · rintro ⟨h1, h2⟩
        exact ⟨List.mem_cons_of_mem _ h1, h2⟩
      · rintro ⟨h1, h2⟩
        rcases List.mem_cons.mp h1 with rfl | h1
        · exact absurd ha h2
        · exact ⟨h1, h2⟩
    · rw [dedupSeen, if_neg ha]
      constructor
      · intro hm
        rcases List.mem_cons.mp hm with rfl | hm
        · exact ⟨List.mem_cons_self _ _, ha⟩
        · obtain ⟨h1, h2⟩ := ih.mp hm
          exact ⟨List.mem_cons_of_mem _ h1, fun hc => h2 (List.mem_cons_of_mem _ hc)⟩
      · rintro ⟨h1, h2⟩
        rcases List.mem_cons.mp h1 with rfl | h1
        · exact List.mem_cons_self _ _
        · by_cases hxa : x = a
          · subst hxa
            exact List.mem_cons_self _ _
          · exact List.mem_cons_of_mem _
              (ih.mpr ⟨h1, fun hc => (List.mem_cons.mp hc).elim hxa h2⟩)

/-- The deduplicated sequence has no repeats. -/
theorem dedupSeen_nodup (seen l : List (Option α)) : (dedupSeen seen l).Nodup := by
  induction l generalizing seen with
  | nil => exact List.nodup_nil
  | cons a as ih =>
    by_cases ha : a ∈ seen
    · rw [dedupSeen, if_pos ha]
      exact ih seen
    · rw [dedupSeen, if_neg ha]
      refine List.nodup_cons.mpr ⟨?_, ih (a :: seen)⟩
      intro hm
      exact (dedupSeen_mem.mp hm).2 (List.mem_cons_self _ _)

/-- The position of the first occurrence of `x` in a list (the list's
length when `x` is absent). -/
def firstIdx (x : Option α) : List (Option α) → Nat
  | [] => 0
  | y :: ys => if y = x then 0 else firstIdx x ys + 1

/-- The deduplicated sequence lists values in order of first occurrence:
any earlier element's first occurrence in the source strictly precedes any
later element's. -/
theorem dedupSeen_pairwise (seen l : List (Option α)) :
    (dedupSeen seen l).Pairwise
      (fun x y => firstIdx x l < firstIdx y l) := by
  induction l generalizing seen with
  | nil => exact List.Pairwise.nil
  | cons a as ih =>
    by_cases ha : a ∈ seen
    · rw [dedupSeen, if_pos ha]
      refine (ih seen).imp_of_mem ?_
      intro x y hx hy hlt
      have hxa : ¬ a = x := fun hcon => (dedupSeen_mem.mp hx).2 (hcon ▸ ha)
      have hya : ¬ a = y := fun hcon => (dedupSeen_mem.mp hy).2 (hcon ▸ ha)
      rw [firstIdx, if_neg hxa, firstIdx, if_neg hya]
      exact Nat.succ_lt_succ hlt
    · rw [dedupSeen, if_neg ha]
      refine List.pairwise_cons.mpr ⟨?_, ?_⟩
      · intro y hy
        have hya : ¬ a = y := fun hcon =>
          (dedupSeen_mem.mp hy).2 (by rw [← hcon]; exact List.mem_cons_self _ _)
        rw [firstIdx, if_pos rfl, firstIdx, if_neg hya]
        exact Nat.succ_pos _
      · refine (ih (a :: seen)).imp_of_mem ?_
        intro x y hx hy hlt
        have hxa : ¬ a = x := fun hcon =>
          (dedupSeen_mem.mp hx).2 (by rw [← hcon]; exact List.mem_cons_self _ _)
        have hya : ¬ a = y := fun hcon =>
          (dedupSeen_mem.mp hy).2 (by rw [← hcon]; exact List.mem_cons_self _ _)
        rw [firstIdx, if_neg hxa, firstIdx, if_neg hya]
        exact Nat.succ_lt_succ hlt

/-- `remove_duplicates` fails on the empty list; otherwise the rebuilt
value sequence is the seen-set filter of the previous one. -/
theorem remove_duplicates_spec {L : DLL α} {addrs : List Nat} (h : Good L addrs) :
    (addrs = [] → remove_duplicates L = Except.error Err.emptyList) ∧
    (addrs ≠ [] → ∃ L' addrs', remove_duplicates L = Except.ok L' ∧
      Good L' addrs' ∧
      valsAt L'.nodes addrs' = dedupSeen [] (valsAt L.nodes addrs) ∧
      L'.size = ((dedupSeen [] (valsAt L.nodes addrs)).length : Int)) := by
  have htp : to_python_list L = valsAt L.nodes addrs := to_python_list_eq h.1
  refine ⟨?_, ?_⟩
  · intro hnil
    rw [remove_duplicates, if_pos (chain_guard_nil h.1 hnil)]
    rfl
  · intro hne
    have hnone : none ∉ dedupSeen [] (valsAt L.nodes addrs) :=
      fun hm => h.2 (dedupSeen_mem.mp hm).1
    obtain ⟨L', addrs', hev, hgood, hvals, hsize'⟩ := insertAll_spec (clear_good L) hnone
    refine ⟨L', addrs', ?_, hgood, ?_, ?_⟩
    · rw [remove_duplicates, if_neg (chain_guard_pos h.1 hne)]
      simp only [htp, pure_def, ok_bind]
      exact hev
    · rw [hvals]
      rfl
    · have h0 : (clear L).size = 0 := rfl
      rw [hsize', h0]
      omega

/-- `clone` always succeeds and reproduces the value sequence. -/
theorem clone_spec {L : DLL α} {addrs : List Nat} (h : Good L addrs) :
    ∃ L' addrs', clone L = Except.ok L' ∧ Good L' addrs' ∧
      valsAt L'.nodes addrs' = valsAt L.nodes addrs ∧ L'.size = L.size := by
  by_cases hnil : addrs = []
  · subst hnil
    have hsz := h.1.2.2.1
    refine ⟨emptyDLL, [], ?_, good_empty, rfl, ?_⟩
    · rw [clone, if_pos (chain_guard_nil h.1 rfl)]
      rfl
    · rw [hsz]
      rfl
  · have hcv : chainValues L.nodes L.head L.nodes.length = valsAt L.nodes addrs :=
      chainValues_eq h.1.1 (chain_length_le h.1.1 h.1.2.2.2)
    obtain ⟨L', addrs', hev, hgood, hvals, hsize'⟩ := insertAll_spec good_empty h.2
    refine ⟨L', addrs', ?_, hgood, ?_, ?_⟩
    · rw [clone, if_neg (chain_guard_pos h.1 hnil), hcv]
      exact hev
    · rw [hvals]
      rfl
    · have h0 : (emptyDLL : DLL α).size = 0 := rfl
      have hsz := h.1.2.2.1
      rw [hsize', h0, hsz, valsAt, List.length_map]
      omega

/-- `from_python_list` on a sentinel-free sequence succeeds, and reading
the list back gives the sequence again. -/
theorem from_python_list_spec {xs : List (Option α)} (hxs : none ∉ xs) :
    ∃ L addrs, from_python_list xs = Except.ok L ∧ Good L addrs ∧
      to_python_list L = xs ∧ L.size = (xs.length : Int) := by
  obtain ⟨L, addrs, hev, hgood, hvals, hsize⟩ := insertAll_spec good_empty hxs
  refine ⟨L, addrs, hev, hgood, ?_, ?_⟩
  · rw [to_python_list_eq hgood.1, hvals]
    rfl
  · have h0 : (emptyDLL : DLL α).size = 0 := rfl
    rw [hsize, h0]
    omega

/-- Whenever the reinsertion loop returns at all, it returns a well-formed
list (each step is an `insert_at_end`). -/
theorem insertAll_good {vs : List (Option α)} :
    ∀ {L : DLL α} {addrs : List Nat} {L' : DLL α}, Good L addrs →
      insertAll L vs = Except.ok L' → ∃ addrs', Good L' addrs' := by
  induction vs with
  | nil =>
    intro L addrs L' h hev
    rw [insertAll] at hev
    injection hev with he
    subst he
    exact ⟨addrs, h⟩
  | cons v vs ih =>
    intro L addrs L' h hev
    cases v with
    | none =>
      rw [insertAll] at hev
      simp only [insert_at_end, validate_none, error_bind] at hev
      exact Except.noConfusion hev
    | some x =>
      obtain ⟨L1, hev1, hgood1, _, _, _⟩ := insert_at_end_spec h x
      rw [insertAll, hev1, ok_bind] at hev
      exact ih hgood1 hev

/-- Pointwise reading of a chain: the node at every position carries
`prev` and `next` links to its neighbours (`p`/`q` at the boundaries). -/
theorem chainSeg_at {nodes : List (Node α)} {p cur q : Option Nat} {addrs : List Nat}
    (h : chainSeg nodes p cur addrs q = true) :
    ∀ i, i < addrs.length → ∃ a n, addrs[i]? = some a ∧ nodes[a]? = some n ∧
      n.prev = (if i = 0 then p else addrs[i - 1]?) ∧
      n.next = (if i + 1 = addrs.length then q else addrs[i + 1]?) := by
  induction addrs generalizing p cur with
  | nil =>
    intro i hi
    simp at hi
  | cons a rest ih =>
    rcases chainSeg_cons_iff.mp h with ⟨hcur, n, hn, hprev, hrest⟩
    intro i hi
    cases i with
    | zero =>
      refine ⟨a, n, by simp, hn, ?_, ?_⟩
      · rw [if_pos rfl]
        exact hprev
      · cases rest with
        | nil =>
          have h1 : (0 : Nat) + 1 = [a].length := rfl
          rw [if_pos h1]
          exact of_decide_eq_true hrest
        | cons b rest' =>
          have hne2 : ¬(0 + 1 = (a :: b :: rest').length) := by
            simp only [List.length_cons]
            omega
          rw [if_neg hne2]
          have hnb : n.next = some b := (chainSeg_cons_iff.mp hrest).1
          rw [hnb]
          simp
    | succ j =>
      have hj : j < rest.length := by
        simp only [List.length_cons] at hi
        omega
      obtain ⟨a', n', hga, hn', hprev', hnext'⟩ := ih hrest j hj
      refine ⟨a', n', ?_, hn', ?_, ?_⟩
      · simpa using hga
      · rw [if_neg (Nat.succ_ne_zero j)]
        cases j with
        | zero =>
          rw [if_pos rfl] at hprev'
          simpa using hprev'
        | succ k =>
          rw [if_neg (Nat.succ_ne_zero k)] at hprev'
          simpa using hprev'
      · by_cases hlast : j + 1 = rest.length
        · rw [if_pos (by simp only [List.length_cons]; omega)]
          rw [if_pos hlast] at hnext'
          exact hnext'
        · rw [if_neg (by simp only [List.length_cons]; omega)]
          rw [if_neg hlast] at hnext'
          simpa using hnext'

/-- The naive positional lookup the spec compares `_get_node_at_position`
against: the same bounds check, then always walk forward from the head. -/
def node_at_naive (L : DLL α) (position : Int) : Except Err Nat := do
  if position < 0 ∨ position ≥ L.size then throw Err.outOfRange
  match stepFwd L.nodes L.head position.toNat with
  | none => throw Err.internalError
  | some a => pure a

/-- The reachable states: everything producible by a finite sequence of
successfully returning public state-changing operations, starting from the
constructor (or from the `from_python_list` factory). -/
inductive Reachable : DLL α → Prop where
  | empty : Reachable emptyDLL
  | insert_front (L L' : DLL α) (v : Option α) : Reachable L →
      insert_at_beginning L v = Except.ok L' → Reachable L'
  | insert_back (L L' : DLL α) (v : Option α) : Reachable L →
      insert_at_end L v = Except.ok L' → Reachable L'
  | insert_after (L L' : DLL α) (t v : Option α) : Reachable L →
      insert_after_node L t v = Except.ok L' → Reachable L'
  | insert_before (L L' : DLL α) (t v : Option α) : Reachable L →
      insert_before_node L t v = Except.ok L' → Reachable L'
  | delete_front (L L' : DLL α) : Reachable L →
      delete_at_beginning L = Except.ok L' → Reachable L'
  | delete_back (L L' : DLL α) : Reachable L →
      delete_at_end L = Except.ok L' → Reachable L'
  | del_value (L L' : DLL α) (v : Option α) : Reachable L →
      delete_value L v = Except.ok L' → Reachable L'
  | delete_at (L L' : DLL α) (p : Int) : Reachable L →
      delete_at_position L p = Except.ok L' → Reachable L'
  | clear_st (L : DLL α) : Reachable L → Reachable (clear L)
  | reverse_st (L L' : DLL α) : Reachable L →
      reverse L = Except.ok L' → Reachable L'
  | sort_st (L L' : DLL α) (lt : Option α → Option α → Option Bool)
      (desc : Bool) (st : SortStatus) : Reachable L →
      sort lt L desc = Except.ok (L', st) → Reachable L'
  | dedup_st (L L' : DLL α) : Reachable L →
      remove_duplicates L = Except.ok L' → Reachable L'
  | push_st (L L' : DLL α) (v : Option α) : Reachable L →
      push L v = Except.ok L' → Reachable L'
  | pop_st (L L' : DLL α) (v : Option α) : Reachable L →
      pop L = Except.ok (v, L') → Reachable L'
  | enqueue_st (L L' : DLL α) (v : Option α) : Reachable L →
      enqueue L v = Except.ok L' → Reachable L'
  | dequeue_st (L L' : DLL α) (v : Option α) : Reachable L →
      dequeue L = Except.ok (v, L') → Reachable L'
  | set_st (L L' : DLL α) (i : Int) (v : Option α) : Reachable L →
      __setitem__ L i v = Except.ok L' → Reachable L'
  | from_list (xs : List (Option α)) (L : DLL α) :
      from_python_list xs = Except.ok L → Reachable L
  | clone_st (L L' : DLL α) : Reachable L →
      clone L = Except.ok L' → Reachable L'

/-- Every reachable state satisfies the structural invariant (and no
stored payload is the absence sentinel). -/
theorem reachable_good {L : DLL α} (h : Reachable L) : ∃ addrs, Good L addrs := by
  induction h with
  | empty => exact ⟨[], good_empty⟩
  | insert_front L0 L' v hR hev ih =>
    obtain ⟨addrs, hg⟩ := ih
    cases v with
    | none =>
      simp only [insert_at_beginning, validate_none, error_bind] at hev
      exact Except.noConfusion hev
    | some x =>
      obtain ⟨L1, hev1, hg1, _, _, _⟩ := insert_at_beginning_spec hg x
      rw [hev1] at hev
      injection hev with he
      subst he
      exact ⟨_, hg1⟩
  | insert_back L0 L' v hR hev ih =>
    obtain ⟨addrs, hg⟩ := ih
    cases v with
    | none =>
      simp only [insert_at_end, validate_none, error_bind] at hev
      exact Except.noConfusion hev
    | some x =>
      obtain ⟨L1, hev1, hg1, _, _, _⟩ := insert_at_end_spec hg x
      rw [hev1] at hev
      injection hev with he
      subst he
      exact ⟨_, hg1⟩
  | insert_after L0 L' t v hR hev ih =>
    obtain ⟨addrs, hg⟩ := ih
    cases t with
    | none =>
      simp only [insert_after_node, validate_none, error_bind] at hev
      exact Except.noConfusion hev
    | some tv =>
      cases v with
      | none =>
        simp only [insert_after_node, validate_some, ok_bind, validate_none,
          error_bind] at hev
        exact Except.noConfusion hev
      | some x =>
        by_cases hm : some tv ∈ valsAt L0.nodes addrs
        · obtain ⟨L1, addrs', hev1, hg1, _, _⟩ := (insert_after_node_spec hg tv x).2 hm
          rw [hev1] at hev
          injection hev with he
          subst he
          exact ⟨_, hg1⟩
        · rw [(insert_after_node_spec hg tv x).1 hm] at hev
          exact Except.noConfusion hev
  | insert_before L0 L' t v hR hev ih =>
    obtain ⟨addrs, hg⟩ := ih
    cases t with
    | none =>
      simp only [insert_before_node, validate_none, error_bind] at hev
      exact Except.noConfusion hev
    | some tv =>
      cases v with
      | none =>
        simp only [insert_before_node, validate_some, ok_bind, validate_none,
          error_bind] at hev
        exact Except.noConfusion hev
      | some x =>
        by_cases hm : some tv ∈ valsAt L0.nodes addrs
        · obtain ⟨L1, addrs', hev1, hg1, _, _⟩ := (insert_before_node_spec hg tv x).2 hm
          rw [hev1] at hev
          injection hev with he
          subst he
          exact ⟨_, hg1⟩
        · rw [(insert_before_node_spec hg tv x).1 hm] at hev
          exact Except.noConfusion hev
  | delete_front L0 L' hR hev ih =>
    obtain ⟨addrs, hg⟩ := ih
    by_cases hnil : addrs = []
    · rw [(delete_at_beginning_spec hg).1 hnil] at hev
      exact Except.noConfusion hev
    · obtain ⟨L1, hev1, hg1, _, _, _⟩ := (delete_at_beginning_spec hg).2 hnil
      rw [hev1] at hev
      injection hev with he
      subst he
      exact ⟨_, hg1⟩
  | delete_back L0 L' hR hev ih =>
    obtain ⟨addrs, hg⟩ := ih
    by_cases hnil : addrs = []
    · rw [(delete_at_end_spec hg).1 hnil] at hev
      exact Except.noConfusion hev
    · obtain ⟨L1, hev1, hg1, _, _, _⟩ := (delete_at_end_spec hg).2 hnil
      rw [hev1] at hev
      injection hev with he
      subst he
      exact ⟨_, hg1⟩
  | del_value L0 L' v hR hev ih =>
    obtain ⟨addrs, hg⟩ := ih
    cases v with
    | none =>
      simp only [delete_value, validate_none, error_bind] at hev
      exact Except.noConfusion hev
    | some x =>
      by_cases hm : some x ∈ valsAt L0.nodes addrs
      · obtain ⟨L1, addrs', hev1, hg1, _, _⟩ := (delete_value_spec hg x).2.2 hm
        rw [hev1] at hev
        injection hev with he
        subst he
        exact ⟨_, hg1⟩
      · by_cases hnil : addrs = []
        · rw [(delete_value_spec hg x).1 hnil] at hev
          exact Except.noConfusion hev
        · rw [(delete_value_spec hg x).2.1 hnil hm] at hev
          exact Except.noConfusion hev
  | delete_at L0 L' p hR hev ih =>
    obtain ⟨addrs, hg⟩ := ih
    by_cases hnil : addrs = []
    · rw [(delete_at_position_spec hg p).1 hnil] at hev
      exact Except.noConfusion hev
    · by_cases hoob : p < 0 ∨ (addrs.length : Int) ≤ p
      · rw [(delete_at_position_spec hg p).2.1 hnil hoob] at hev
        exact Except.noConfusion hev
      · push_neg at hoob
        obtain ⟨L1, addrs', hev1, hg1, _, _, _⟩ :=
          (delete_at_position_spec hg p).2.2 hoob.1 hoob.2
        rw [hev1] at hev
        injection hev with he
        subst he
        exact ⟨_, hg1⟩
  | clear_st L0 hR ih => exact ⟨[], clear_good L0⟩
  | reverse_st L0 L' hR hev ih =>
    obtain ⟨addrs, hg⟩ := ih
    by_cases hnil : addrs = []
    · rw [(reverse_spec hg).1 hnil] at hev
      exact Except.noConfusion hev
    · obtain ⟨L1, hev1, hg1, _, _, _⟩ := (reverse_spec hg).2 hnil
      rw [hev1] at hev
      injection hev with he
      subst he
      exact ⟨_, hg1⟩
  | sort_st L0 L' lt desc st hR hev ih =>
    obtain ⟨addrs, hg⟩ := ih
    by_cases hnil : addrs = []
    · rw [(sort_spec lt desc hg).1 hnil] at hev
      injection hev with he
      injection he with he1 he2
      subst he1
      exact ⟨addrs, hg⟩
    · cases hcb : allPairsComparable lt (valsAt L0.nodes addrs) with
      | false =>
        rw [(sort_spec lt desc hg).2.1 hnil hcb] at hev
        injection hev with he
        injection he with he1 he2
        subst he1
        exact ⟨addrs, hg⟩
      | true =>
        obtain ⟨L1, addrs', hev1, hg1, _, _⟩ := (sort_spec lt desc hg).2.2 hnil hcb
        rw [hev1] at hev
        injection hev with he
        injection he with he1 he2
        subst he1
        exact ⟨addrs', hg1⟩
  | dedup_st L0 L' hR hev ih =>
    obtain ⟨addrs, hg⟩ := ih
    by_cases hnil : addrs = []
    · rw [(remove_duplicates_spec hg).1 hnil] at hev
      exact Except.noConfusion hev
    · obtain ⟨L1, addrs', hev1, hg1, _, _⟩ := (remove_duplicates_spec hg).2 hnil
      rw [hev1] at hev
      injection hev with he
      subst he
      exact ⟨_, hg1⟩
  | push_st L0 L' v hR hev ih =>
    obtain ⟨addrs, hg⟩ := ih
    cases v with
    | none =>
      simp only [push, insert_at_end, validate_none, error_bind] at hev
      exact Except.noConfusion hev
    | some x =>
      obtain ⟨L1, hev1, hg1, _, _, _⟩ := insert_at_end_spec hg x
      rw [push, hev1] at hev
      injection hev with he
      subst he
      exact ⟨_, hg1⟩
  | pop_st L0 L' v hR hev ih =>
    obtain ⟨addrs, hg⟩ := ih
    by_cases hnil : addrs = []
    · rw [(pop_spec hg).1 hnil] at hev
      exact Except.noConfusion hev
    · obtain ⟨v1, L1, hev1, hg1, _, _, _⟩ := (pop_spec hg).2 hnil
      rw [hev1] at hev
      injection hev with he
      injection he with he1 he2
      subst he2
      exact ⟨_, hg1⟩
  | enqueue_st L0 L' v hR hev ih =>
    obtain ⟨addrs, hg⟩ := ih
    cases v with
    | none =>
      simp only [enqueue, insert_at_end, validate_none, error_bind] at hev
      exact Except.noConfusion hev
    | some x =>
      obtain ⟨L1, hev1, hg1, _, _, _⟩ := insert_at_end_spec hg x
      rw [enqueue, hev1] at hev
      injection hev with he
      subst he
      exact ⟨_, hg1⟩
  | dequeue_st L0 L' v hR hev ih =>
    obtain ⟨addrs, hg⟩ := ih
    by_cases hnil : addrs = []
    · rw [(dequeue_spec hg).1 hnil] at hev
      exact Except.noConfusion hev
    · obtain ⟨v1, L1, hev1, hg1, _, _, _⟩ := (dequeue_spec hg).2 hnil
      rw [hev1] at hev
      injection hev with he
      injection he with he1 he2
      subst he2
      exact ⟨_, hg1⟩
  | set_st L0 L' i v hR hev ih =>
    obtain ⟨addrs, hg⟩ := ih
    cases v with
    | none =>
      simp only [__setitem__, validate_none, error_bind] at hev
      exact Except.noConfusion hev
    | some x =>
      by_cases hoob : resolvedPos addrs.length i < 0 ∨
          (addrs.length : Int) ≤ resolvedPos addrs.length i
      · rw [(setitem_spec hg i x).1 hoob] at hev
        exact Except.noConfusion hev
      · push_neg at hoob
        obtain ⟨L1, hev1, hg1, _, _⟩ := (setitem_spec hg i x).2 hoob.1 hoob.2
        rw [hev1] at hev
        injection hev with he
        subst he
        exact ⟨_, hg1⟩
  | from_list xs L1 hev =>
    rw [from_python_list] at hev
    exact insertAll_good good_empty hev
  | clone_st L0 L' hR hev ih =>
    obtain ⟨addrs, hg⟩ := ih
    obtain ⟨L1, addrs', hev1, hg1, _, _⟩ := clone_spec hg
    rw [hev1] at hev
    injection hev with he
    subst he
    exact ⟨_, hg1⟩

/-! ## Concrete states used to instantiate the claims -/

/-- The list `[10, 20, 30]`, laid out linearly in the arena. -/
def sampleDLL : DLL Int :=
  { nodes := [
      { info := some 10, next := some 1, prev := none },
      { info := some 20, next := some 2, prev := some 0 },
      { info := some 30, next := none, prev := some 1 } ],
    head := some 0, tail := some 2, size := 3 }

/-- The list `[1, 2, 1, 3, 2, 4]`, laid out linearly in the arena. -/
def dupDLL : DLL Int :=
  { nodes := [
      { info := some 1, next := some 1, prev := none },
      { info := some 2, next := some 2, prev := some 0 },
      { info := some 1, next := some 3, prev := some 1 },
      { info := some 3, next := some 4, prev := some 2 },
      { info := some 2, next := some 5, prev := some 3 },
      { info := some 4, next := none, prev := some 4 } ],
    head := some 0, tail := some 5, size := 6 }

/-- Integer `<` lifted to payloads (total on genuine values, as in the
host). -/
def intLt (a b : Option Int) : Option Bool :=
  match a, b with
  | some x, some y => some (decide (x < y))
  | _, _ => none

/-- `sampleDLL` satisfies the invariant, its chain being `[0, 1, 2]`. -/
theorem sampleDLL_good : Good sampleDLL [0, 1, 2] :=
  ⟨⟨by decide, by decide, by decide, by decide⟩, by decide⟩

/-- `dupDLL` satisfies the invariant, its chain being `[0, 1, 2, 3, 4, 5]`. -/
theorem dupDLL_good : Good dupDLL [0, 1, 2, 3, 4, 5] :=
  ⟨⟨by decide, by decide, by decide, by decide⟩, by decide⟩

/-! ## The claims -/

/-- C1: For every reachable list state (every state produced by any finite
sequence of successfully returning public operations starting from the
empty constructor), the structural invariants hold: `size == 0` iff `head`
is absent iff `tail` is absent; if `size == 1` then head and tail are the
same node with both links absent; the list's nodes satisfy back-link
symmetry (`node.next.prev == node` and `node.prev.next == node`);
`head.prev` and `tail.next` are absent; and the forward walk from `head`
via `next` visits exactly `size` nodes ending at `tail`, the backward walk
from `tail` via `prev` being the exact mirror. -/
theorem C1_structural_invariants {L : DLL α} (h : Reachable L) :
    ∃ addrs : List Nat,
      ((L.size = 0 ↔ L.head = none) ∧ (L.size = 0 ↔ L.tail = none)) ∧
      (L.size = 1 → L.head = L.tail ∧
        ∃ a n, L.head = some a ∧ L.nodes[a]? = some n ∧
          n.next = none ∧ n.prev = none) ∧
      (∀ a ∈ addrs, ∃ n, L.nodes[a]? = some n ∧
        (∀ b, n.next = some b → ∃ m, L.nodes[b]? = some m ∧ m.prev = some a) ∧
        (∀ c, n.prev = some c → ∃ m, L.nodes[c]? = some m ∧ m.next = some a)) ∧
      (∀ a n, L.head = some a → L.nodes[a]? = some n → n.prev = none) ∧
      (∀ a n, L.tail = some a → L.nodes[a]? = some n → n.next = none) ∧
      (L.size = (addrs.length : Int) ∧
        fwdWalk L.nodes L.head addrs.length = addrs ∧
        addrs.getLast? = L.tail ∧
        bwdWalk L.nodes L.tail addrs.length = addrs.reverse ∧
        addrs.reverse.getLast? = L.head) := by
  obtain ⟨addrs, hg⟩ := reachable_good h
  obtain ⟨⟨hc, htail, hsize, hnd⟩, hvals⟩ := hg
  have hhead : L.head = addrs.head? := IsChain.head_eq ⟨hc, htail, hsize, hnd⟩
  refine ⟨addrs, ⟨?_, ?_⟩, ?_, ?_, ?_, ?_, hsize,
    fwdWalk_eq hc (le_refl _), htail.symm, ?_, ?_⟩
  · constructor
    · intro h0
      have hlen : addrs.length = 0 := by
        rw [hsize] at h0
        exact_mod_cast h0
      rw [hhead, List.length_eq_zero.mp hlen]
      rfl
    · intro hh
      cases haddrs : addrs with
      | nil =>
        rw [hsize, haddrs]
        rfl
      | cons a rest =>
        rw [haddrs] at hhead
        rw [hhead] at hh
        exact Option.noConfusion hh
  · constructor
    · intro h0
      have hlen : addrs.length = 0 := by
        rw [hsize] at h0
        exact_mod_cast h0
      rw [htail, List.length_eq_zero.mp hlen]
      rfl
    · intro ht
      have hnil : addrs = [] :=
        List.getLast?_eq_none_iff.mp (by rw [← htail]; exact ht)
      rw [hsize, hnil]
      rfl
  · intro h1
    have hlen : addrs.length = 1 := by
      rw [hsize] at h1
      exact_mod_cast h1
    obtain ⟨a, ha⟩ := List.length_eq_one.mp hlen
    rw [ha] at hc htail
    rcases chainSeg_cons_iff.mp hc with ⟨hcur, n, hn, hprev, hrest⟩
    have hnext : n.next = none := of_decide_eq_true hrest
    refine ⟨?_, a, n, hcur, hn, hnext, hprev⟩
    rw [hcur, htail]
    simp
  · intro a ha
    obtain ⟨i, hi, hgi⟩ := List.getElem_of_mem ha
    have hgiq : addrs[i]? = some a := by rw [List.getElem?_eq_getElem hi, hgi]
    obtain ⟨a0, n, hga0, hn, hprev, hnext⟩ := chainSeg_at hc i hi
    rw [hgiq] at hga0
    injection hga0 with he
    subst he
    refine ⟨n, hn, ?_, ?_⟩
    · intro b hb
      by_cases hlast : i + 1 = addrs.length
      · rw [if_pos hlast] at hnext
        rw [hnext] at hb
        exact Option.noConfusion hb
      · rw [if_neg hlast] at hnext
        have hi1 : i + 1 < addrs.length := by omega
        obtain ⟨b0, m, hgb0, hm, hprev2, _⟩ := chainSeg_at hc (i + 1) hi1
        rw [hnext, hgb0] at hb
        injection hb with he2
        subst he2
        rw [if_neg (Nat.succ_ne_zero i), Nat.add_sub_cancel, hgiq] at hprev2
        exact ⟨m, hm, hprev2⟩
    · intro c hcp
      cases hi0 : i with
      | zero =>
        rw [hi0, if_pos rfl] at hprev
        rw [hprev] at hcp
        exact Option.noConfusion hcp
      | succ j =>
        rw [hi0] at hprev hgiq hi
        rw [if_neg (Nat.succ_ne_zero j), Nat.add_sub_cancel] at hprev
        have hj : j < addrs.length := by omega
        obtain ⟨c0, m, hgc0, hm, _, hnext2⟩ := chainSeg_at hc j hj
        rw [hprev, hgc0] at hcp
        injection hcp with he2
        subst he2
        have hne : ¬(j + 1 = addrs.length) := by omega
        rw [if_neg hne, hgiq] at hnext2
        exact ⟨m, hm, hnext2⟩
  · intro a n ha hn
    cases haddrs : addrs with
    | nil =>
      rw [haddrs] at hhead
      rw [hhead] at ha
      exact Option.noConfusion ha
    | cons a0 rest =>
      rw [haddrs] at hc
      rcases chainSeg_cons_iff.mp hc with ⟨hcur, n0, hn0, hprev0, _⟩
      rw [hcur] at ha
      injection ha with he
      subst he
      rw [hn0] at hn
      injection hn with he2
      subst he2
      exact hprev0
  · intro a n ha hn
    cases haddrs : addrs with
    | nil =>
      rw [haddrs] at htail
      rw [htail] at ha
      exact Option.noConfusion ha
    | cons a0 rest =>
      have hne : addrs ≠ [] := by
        rw [haddrs]
        exact List.cons_ne_nil _ _
      obtain ⟨front, t, tn, hdecomp, htn, _, htnext, _⟩ := chain_last_node hne hc
      have hta : L.tail = some t := by rw [htail, hdecomp, List.getLast?_concat]
      rw [hta] at ha
      injection ha with he
      subst he
      rw [htn] at hn
      injection hn with he2
      subst he2
      exact htnext
  · rw [htail]
    exact bwdWalk_eq hc (le_refl _)
  · rw [List.getLast?_reverse]
    exact hhead.symm

/-- Witness for C1: the constructor's empty state is reachable and the
invariants hold of it. -/
theorem C1_structural_invariants_witness :
    ∃ addrs : List Nat,
      (((emptyDLL : DLL Int).size = 0 ↔ (emptyDLL : DLL Int).head = none) ∧
        ((emptyDLL : DLL Int).size = 0 ↔ (emptyDLL : DLL Int).tail = none)) ∧
      ((emptyDLL : DLL Int).size = 1 →
        (emptyDLL : DLL Int).head = (emptyDLL : DLL Int).tail ∧
        ∃ a n, (emptyDLL : DLL Int).head = some a ∧
          (emptyDLL : DLL Int).nodes[a]? = some n ∧
          n.next = none ∧ n.prev = none) ∧
      (∀ a ∈ addrs, ∃ n, (emptyDLL : DLL Int).nodes[a]? = some n ∧
        (∀ b, n.next = some b →
          ∃ m, (emptyDLL : DLL Int).nodes[b]? = some m ∧ m.prev = some a) ∧
        (∀ c, n.prev = some c →
          ∃ m, (emptyDLL : DLL Int).nodes[c]? = some m ∧ m.next = some a)) ∧
      (∀ a n, (emptyDLL : DLL Int).head = some a →
        (emptyDLL : DLL Int).nodes[a]? = some n → n.prev = none) ∧
      (∀ a n, (emptyDLL : DLL Int).tail = some a →
        (emptyDLL : DLL Int).nodes[a]? = some n → n.next = none) ∧
      ((emptyDLL : DLL Int).size = (addrs.length : Int) ∧
        fwdWalk (emptyDLL : DLL Int).nodes (emptyDLL : DLL Int).head
          addrs.length = addrs ∧
        addrs.getLast? = (emptyDLL : DLL Int).tail ∧
        bwdWalk (emptyDLL : DLL Int).nodes (emptyDLL : DLL Int).tail
          addrs.length = addrs.reverse ∧
        addrs.reverse.getLast? = (emptyDLL : DLL Int).head) :=
  C1_structural_invariants Reachable.empty

/-- C2: For every list `L` and every insertion or element-assignment
operation (`insert_at_beginning`, `insert_at_end`, `insert_after_node`,
`insert_before_node`, `push`, `enqueue`, `__setitem__`), calling it with
the absence sentinel `None` as the payload fails with `InvalidValue`.  In
this embedding a method is a function from the old state to an `Except`
result, and an error result carries no new state: the caller keeps `L`
exactly as it was, same size and same value sequence (the source raises
inside `_validate_value` before touching any field). -/
theorem C2_none_payload_invalid (L : DLL α) (tv : Option α) (i : Int) :
    insert_at_beginning L none = Except.error Err.invalidValue ∧
    insert_at_end L none = Except.error Err.invalidValue ∧
    insert_after_node L tv none = Except.error Err.invalidValue ∧
    insert_before_node L tv none = Except.error Err.invalidValue ∧
    push L none = Except.error Err.invalidValue ∧
    enqueue L none = Except.error Err.invalidValue ∧
    __setitem__ L i none = Except.error Err.invalidValue := by
  refine ⟨?_, ?_, ?_, ?_, ?_, ?_, ?_⟩
  · simp only [insert_at_beginning, validate_none, error_bind]
  · simp only [insert_at_end, validate_none, error_bind]
  · cases tv with
    | none => simp only [insert_after_node, validate_none, error_bind]
    | some t =>
      simp only [insert_after_node, validate_some, ok_bind, validate_none, error_bind]
  · cases tv with
    | none => simp only [insert_before_node, validate_none, error_bind]
    | some t =>
      simp only [insert_before_node, validate_some, ok_bind, validate_none, error_bind]
  · simp only [push, insert_at_end, validate_none, error_bind]
  · simp only [enqueue, insert_at_end, validate_none, error_bind]
  · simp only [__setitem__, validate_none, error_bind]

/-- C3: For every well-formed list `L` and every non-`None` value `v`,
`delete_value v` fails with `EmptyList` on the empty list; with
`ValueNotFound` when no stored value equals `v`; and otherwise removes
exactly the first occurrence of `v` from the value sequence (the result is
`List.erase`, which deletes the first match scanning from the front),
decrementing `size` by exactly one whether the match is the head, the
tail, or interior. -/
theorem C3_delete_value_semantics {L : DLL α} {addrs : List Nat}
    (h : Good L addrs) (v : α) :
    (addrs = [] → delete_value L (some v) = Except.error Err.emptyList) ∧
    (addrs ≠ [] → some v ∉ valsAt L.nodes addrs →
      delete_value L (some v) = Except.error Err.valueNotFound) ∧
    (some v ∈ valsAt L.nodes addrs →
      ∃ L' addrs', delete_value L (some v) = Except.ok L' ∧ Good L' addrs' ∧
        valsAt L'.nodes addrs' = (valsAt L.nodes addrs).erase (some v) ∧
        L'.size = L.size - 1) :=
  delete_value_spec h v

/-- Witness for C3 on the concrete list `[10, 20, 30]`, deleting the
interior value 20. -/
theorem C3_delete_value_semantics_witness :
    Good sampleDLL [0, 1, 2] ∧
    ((([0, 1, 2] : List Nat) = [] →
      delete_value sampleDLL (some 20) = Except.error Err.emptyList) ∧
     (([0, 1, 2] : List Nat) ≠ [] →
      some 20 ∉ valsAt sampleDLL.nodes [0, 1, 2] →
      delete_value sampleDLL (some 20) = Except.error Err.valueNotFound) ∧
     (some 20 ∈ valsAt sampleDLL.nodes [0, 1, 2] →
      ∃ L' addrs', delete_value sampleDLL (some 20) = Except.ok L' ∧
        Good L' addrs' ∧
        valsAt L'.nodes addrs' = (valsAt sampleDLL.nodes [0, 1, 2]).erase (some 20) ∧
        L'.size = sampleDLL.size - 1)) :=
  ⟨sampleDLL_good, C3_delete_value_semantics sampleDLL_good 20⟩

/-- C4: `reverse` is an involution on non-empty lists: one application
reverses the value sequence exactly, and a second application restores the
original sequence. -/
theorem C4_reverse_involution {L : DLL α} {addrs : List Nat}
    (h : Good L addrs) (hne : addrs ≠ []) :
    ∃ L' L'', reverse L = Except.ok L' ∧ reverse L' = Except.ok L'' ∧
      to_python_list L' = (to_python_list L).reverse ∧
      to_python_list L'' = to_python_list L := by
  obtain ⟨L', hev1, hg1, _, hvals1, _⟩ := (reverse_spec h).2 hne
  have hne2 : addrs.reverse ≠ [] := by
    intro hcon
    exact hne (by simpa using hcon)
  obtain ⟨L'', hev2, hg2, _, hvals2, _⟩ := (reverse_spec hg1).2 hne2
  refine ⟨L', L'', hev1, hev2, ?_, ?_⟩
  · rw [to_python_list_eq hg1.1, hvals1, to_python_list_eq h.1]
  · rw [to_python_list_eq hg2.1, hvals2, hvals1, List.reverse_reverse,
      to_python_list_eq h.1]

/-- Witness for C4 on the concrete list `[10, 20, 30]`. -/
theorem C4_reverse_involution_witness :
    (Good sampleDLL [0, 1, 2] ∧ ([0, 1, 2] : List Nat) ≠ []) ∧
    ∃ L' L'', reverse sampleDLL = Except.ok L' ∧ reverse L' = Except.ok L'' ∧
      to_python_list L' = (to_python_list sampleDLL).reverse ∧
      to_python_list L'' = to_python_list sampleDLL :=
  ⟨⟨sampleDLL_good, by decide⟩, C4_reverse_involution sampleDLL_good (by decide)⟩

/-- C5: the dual-direction optimization of `_get_node_at_position` is
behaviorally transparent: it fails with `OutOfRange` exactly when
`position < 0` or `position >= size`; on every valid position the returned
node holds the value at index `position` of the forward value sequence;
and the optimized lookup is extensionally equal to `node_at_naive`, the
bounds-checked head-only forward traversal. -/
theorem C5_node_at_transparent {L : DLL α} {addrs : List Nat}
    (h : IsChain L addrs) (position : Int) :
    (_get_node_at_position L position = Except.error Err.outOfRange ↔
      (position < 0 ∨ position ≥ L.size)) ∧
    (0 ≤ position → position < L.size →
      ∃ a n, _get_node_at_position L position = Except.ok a ∧
        L.nodes[a]? = some n ∧
        (to_python_list L)[position.toNat]? = some n.info) ∧
    _get_node_at_position L position = node_at_naive L position := by
  have hsize := h.2.2.1
  have hc := h.1
  refine ⟨?_, ?_, ?_⟩
  · constructor
    · intro herr
      by_cases hoob : position < 0 ∨ position ≥ L.size
      · exact hoob
      · push_neg at hoob
        have hlt : position < (addrs.length : Int) := by
          rw [← hsize]
          exact hoob.2
        obtain ⟨a, hga, hev⟩ := (node_at_spec h position).2 hoob.1 hlt
        rw [hev] at herr
        exact Except.noConfusion herr
    · intro hoob
      have hoob2 : position < 0 ∨ (addrs.length : Int) ≤ position := by
        rw [← hsize]
        exact hoob
      exact (node_at_spec h position).1 hoob2
  · intro hpos hlt
    have hlt2 : position < (addrs.length : Int) := by
      rw [← hsize]
      exact hlt
    obtain ⟨a, hga, hev⟩ := (node_at_spec h position).2 hpos hlt2
    have hk : position.toNat < addrs.length := by omega
    obtain ⟨a0, n, hga0, hn, _, _⟩ := chainSeg_at hc position.toNat hk
    rw [hga] at hga0
    injection hga0 with he
    subst he
    refine ⟨a, n, hev, hn, ?_⟩
    rw [to_python_list_eq h, valsAt, List.getElem?_map, hga]
    simp [infoAt, hn]
  · by_cases hoob : position < 0 ∨ position ≥ L.size
    · have hoob2 : position < 0 ∨ (addrs.length : Int) ≤ position := by
        rw [← hsize]
        exact hoob
      rw [(node_at_spec h position).1 hoob2, node_at_naive, if_pos hoob]
      rfl
    · push_neg at hoob
      have hlt2 : position < (addrs.length : Int) := by
        rw [← hsize]
        exact hoob.2
      obtain ⟨a, hga, hev⟩ := (node_at_spec h position).2 hoob.1 hlt2
      have hk : position.toNat < addrs.length := by omega
      have hguard : ¬(position < 0 ∨ position ≥ L.size) := by
        push_neg
        exact hoob
      rw [hev, node_at_naive, if_neg hguard]
      simp only [pure_def, ok_bind, stepFwd_eq hc hk, hga]

/-- Witness for C5 on the concrete list `[10, 20, 30]` at position 2 (the
backward-walk branch, since `2 > 3 // 2`). -/
theorem C5_node_at_transparent_witness :
    IsChain sampleDLL [0, 1, 2] ∧
    ((_get_node_at_position sampleDLL 2 = Except.error Err.outOfRange ↔
      ((2 : Int) < 0 ∨ (2 : Int) ≥ sampleDLL.size)) ∧
     ((0 : Int) ≤ 2 → (2 : Int) < sampleDLL.size →
      ∃ a n, _get_node_at_position sampleDLL 2 = Except.ok a ∧
        sampleDLL.nodes[a]? = some n ∧
        (to_python_list sampleDLL)[(2 : Int).toNat]? = some n.info) ∧
     _get_node_at_position sampleDLL 2 = node_at_naive sampleDLL 2) :=
  ⟨sampleDLL_good.1, C5_node_at_transparent sampleDLL_good.1 2⟩

/-- C6: `__getitem__` resolves a negative index by adding the size (so
`-1` is the last element), returns the value at the resolved position when
it lies in `[0, size)`, and fails with `OutOfRange` otherwise; in
particular `get(-1)` on `[10, 20, 30]` returns 30 and `get(99)` on it
fails with `OutOfRange`. -/
theorem C6_get_signed_index {L : DLL α} {addrs : List Nat}
    (h : IsChain L addrs) (i : Int) :
    (i < 0 → resolvedPos addrs.length i = i + L.size) ∧
    (0 ≤ i → resolvedPos addrs.length i = i) ∧
    (0 ≤ resolvedPos addrs.length i → resolvedPos addrs.length i < L.size →
      ∃ w, __getitem__ L i = Except.ok w ∧
        (to_python_list L)[(resolvedPos addrs.length i).toNat]? = some w) ∧
    ((resolvedPos addrs.length i < 0 ∨ L.size ≤ resolvedPos addrs.length i) →
      __getitem__ L i = Except.error Err.outOfRange) ∧
    __getitem__ sampleDLL (-1) = Except.ok (some 30) ∧
    __getitem__ sampleDLL 99 = Except.error Err.outOfRange := by
  have hsize := h.2.2.1
  refine ⟨?_, ?_, ?_, ?_, by rfl, by rfl⟩
  · intro hneg
    rw [resolvedPos, if_pos hneg, hsize]
  · intro hpos
    rw [resolvedPos, if_neg (by omega)]
  · intro h0 h1
    have h1a : resolvedPos addrs.length i < (addrs.length : Int) := by omega
    obtain ⟨w, hw, hev⟩ := (getitem_spec h i).2 h0 h1a
    refine ⟨w, hev, ?_⟩
    rw [to_python_list_eq h]
    exact hw
  · intro hoob
    have hoob2 : resolvedPos addrs.length i < 0 ∨
        (addrs.length : Int) ≤ resolvedPos addrs.length i := by omega
    exact (getitem_spec h i).1 hoob2

/-- Witness for C6 on `[10, 20, 30]` at index `-1`. -/
theorem C6_get_signed_index_witness :
    IsChain sampleDLL [0, 1, 2] ∧
    (((-1 : Int) < 0 →
      resolvedPos ([0, 1, 2] : List Nat).length (-1) = -1 + sampleDLL.size) ∧
     ((0 : Int) ≤ -1 → resolvedPos ([0, 1, 2] : List Nat).length (-1) = -1) ∧
     ((0 : Int) ≤ resolvedPos ([0, 1, 2] : List Nat).length (-1) →
      resolvedPos ([0, 1, 2] : List Nat).length (-1) < sampleDLL.size →
      ∃ w, __getitem__ sampleDLL (-1) = Except.ok w ∧
        (to_python_list sampleDLL)[(resolvedPos
          ([0, 1, 2] : List Nat).length (-1)).toNat]? = some w) ∧
     ((resolvedPos ([0, 1, 2] : List Nat).length (-1) < 0 ∨
        sampleDLL.size ≤ resolvedPos ([0, 1, 2] : List Nat).length (-1)) →
      __getitem__ sampleDLL (-1) = Except.error Err.outOfRange) ∧
     __getitem__ sampleDLL (-1) = Except.ok (some 30) ∧
     __getitem__ sampleDLL 99 = Except.error Err.outOfRange) :=
  ⟨sampleDLL_good.1, C6_get_signed_index sampleDLL_good.1 (-1)⟩

/-- C7: `sort`'s empty-list and incomparable-element cases are soft
failures: the call returns normally (no raised error) with the state
untouched and only a reported status; in every other case it succeeds and
the value sequence becomes the sorted permutation of the previous one
(ascending, or descending when requested), sortedness being with respect
to the host comparison whenever that comparison is total and
transitive. -/
theorem C7_sort_soft_failures (lt : Option α → Option α → Option Bool)
    (desc : Bool) {L : DLL α} {addrs : List Nat} (h : Good L addrs) :
    (addrs = [] → sort lt L desc = Except.ok (L, SortStatus.emptyMsg)) ∧
    (addrs ≠ [] → allPairsComparable lt (valsAt L.nodes addrs) = false →
      sort lt L desc = Except.ok (L, SortStatus.incomparableMsg)) ∧
    (addrs ≠ [] → allPairsComparable lt (valsAt L.nodes addrs) = true →
      ∃ L' addrs', sort lt L desc =
          Except.ok (L', if desc then SortStatus.sortedReverseMsg
            else SortStatus.sortedMsg) ∧
        Good L' addrs' ∧
        (valsAt L'.nodes addrs').Perm (valsAt L.nodes addrs) ∧
        ((∀ a b, sortLe lt desc a b = true ∨ sortLe lt desc b a = true) →
          (∀ a b c, sortLe lt desc a b = true → sortLe lt desc b c = true →
            sortLe lt desc a c = true) →
          (valsAt L'.nodes addrs').Pairwise
            (fun a b => sortLe lt desc a b = true)) ∧
        L'.size = L.size) := by
  refine ⟨(sort_spec lt desc h).1, (sort_spec lt desc h).2.1, ?_⟩
  intro hne hcomp
  obtain ⟨L', addrs', hev, hg2, hvals, hsz⟩ := (sort_spec lt desc h).2.2 hne hcomp
  refine ⟨L', addrs', hev, hg2, ?_, ?_, hsz⟩
  · rw [hvals]
    exact List.perm_insertionSort _ _
  · intro htot htrans
    rw [hvals]
    letI : IsTotal (Option α) (fun a b => sortLe lt desc a b = true) := ⟨htot⟩
    letI : IsTrans (Option α) (fun a b => sortLe lt desc a b = true) :=
      ⟨fun a b c => htrans a b c⟩
    exact List.sorted_insertionSort _ _

/-- Witness for C7 on `[10, 20, 30]` under integer comparison,
ascending. -/
theorem C7_sort_soft_failures_witness :
    Good sampleDLL [0, 1, 2] ∧
    ((([0, 1, 2] : List Nat) = [] →
      sort intLt sampleDLL false = Except.ok (sampleDLL, SortStatus.emptyMsg)) ∧
     (([0, 1, 2] : List Nat) ≠ [] →
      allPairsComparable intLt (valsAt sampleDLL.nodes [0, 1, 2]) = false →
      sort intLt sampleDLL false =
        Except.ok (sampleDLL, SortStatus.incomparableMsg)) ∧
     (([0, 1, 2] : List Nat) ≠ [] →
      allPairsComparable intLt (valsAt sampleDLL.nodes [0, 1, 2]) = true →
      ∃ L' addrs', sort intLt sampleDLL false =
          Except.ok (L', if false then SortStatus.sortedReverseMsg
            else SortStatus.sortedMsg) ∧
        Good L' addrs' ∧
        (valsAt L'.nodes addrs').Perm (valsAt sampleDLL.nodes [0, 1, 2]) ∧
        ((∀ a b, sortLe intLt false a b = true ∨ sortLe intLt false b a = true) →
          (∀ a b c, sortLe intLt false a b = true →
            sortLe intLt false b c = true → sortLe intLt false a c = true) →
          (valsAt L'.nodes addrs').Pairwise
            (fun a b => sortLe intLt false a b = true)) ∧
        L'.size = sampleDLL.size)) :=
  ⟨sampleDLL_good, C7_sort_soft_failures intLt false sampleDLL_good⟩

/-- C8: `remove_duplicates` fails with `EmptyList` on the empty list; on a
non-empty list it rebuilds the list so that the resulting value sequence
has no repeats, holds exactly the values of the original, and lists them
in the order of their first occurrences in the original; in particular
`[1, 2, 1, 3, 2, 4]` becomes `[1, 2, 3, 4]`. -/
theorem C8_remove_duplicates_firsts {L : DLL α} {addrs : List Nat}
    (h : Good L addrs) :
    (addrs = [] → remove_duplicates L = Except.error Err.emptyList) ∧
    (addrs ≠ [] → ∃ L' addrs', remove_duplicates L = Except.ok L' ∧
      Good L' addrs' ∧
      (valsAt L'.nodes addrs').Nodup ∧
      (∀ x, x ∈ valsAt L'.nodes addrs' ↔ x ∈ valsAt L.nodes addrs) ∧
      (valsAt L'.nodes addrs').Pairwise
        (fun x y => firstIdx x (valsAt L.nodes addrs) <
          firstIdx y (valsAt L.nodes addrs))) ∧
    Except.map to_python_list (remove_duplicates dupDLL) =
      Except.ok [some 1, some 2, some 3, some 4] := by
  refine ⟨(remove_duplicates_spec h).1, ?_, by rfl⟩
  intro hne
  obtain ⟨L', addrs', hev, hg2, hvals, _⟩ := (remove_duplicates_spec h).2 hne
  refine ⟨L', addrs', hev, hg2, ?_, ?_, ?_⟩
  · rw [hvals]
    exact dedupSeen_nodup [] _
  · intro x
    rw [hvals, dedupSeen_mem]
    simp
  · rw [hvals]
    exact dedupSeen_pairwise [] _

/-- Witness for C8 on the concrete list `[1, 2, 1, 3, 2, 4]`. -/
theorem C8_remove_duplicates_firsts_witness :
    Good dupDLL [0, 1, 2, 3, 4, 5] ∧
    ((([0, 1, 2, 3, 4, 5] : List Nat) = [] →
      remove_duplicates dupDLL = Except.error Err.emptyList) ∧
     (([0, 1, 2, 3, 4, 5] : List Nat) ≠ [] →
      ∃ L' addrs', remove_duplicates dupDLL = Except.ok L' ∧
        Good L' addrs' ∧
        (valsAt L'.nodes addrs').Nodup ∧
        (∀ x, x ∈ valsAt L'.nodes addrs' ↔
          x ∈ valsAt dupDLL.nodes [0, 1, 2, 3, 4, 5]) ∧
        (valsAt L'.nodes addrs').Pairwise
          (fun x y => firstIdx x (valsAt dupDLL.nodes [0, 1, 2, 3, 4, 5]) <
            firstIdx y (valsAt dupDLL.nodes [0, 1, 2, 3, 4, 5]))) ∧
     Except.map to_python_list (remove_duplicates dupDLL) =
       Except.ok [some 1, some 2, some 3, some 4]) :=
  ⟨dupDLL_good, C8_remove_duplicates_firsts dupDLL_good⟩

/-- C9: building a list from a sentinel-free sequence and reading it back
is the identity, and the round trip never fails on such inputs:
`from_python_list` inserts each element at the end in order, and
`to_python_list` reads the chain forward from the head. -/
theorem C9_sequence_roundtrip {xs : List (Option α)} (hxs : none ∉ xs) :
    ∃ L, from_python_list xs = Except.ok L ∧ to_python_list L = xs := by
  obtain ⟨L, addrs, hev, hg, htp, _⟩ := from_python_list_spec hxs
  exact ⟨L, hev, htp⟩

/-- Witness for C9 on the sequence `[1, 2]`. -/
theorem C9_sequence_roundtrip_witness :
    (none ∉ ([some 1, some 2] : List (Option Int))) ∧
    ∃ L, from_python_list ([some 1, some 2] : List (Option Int)) = Except.ok L ∧
      to_python_list L = [some 1, some 2] :=
  ⟨by decide, C9_sequence_roundtrip (by decide)⟩

/-- C10: `__setitem__` has a pointwise frame: for every well-formed list,
every index whose resolved position `p` (`p = i`, or `i + size` for
negative `i`) lies in `[0, size)`, and every non-`None` value, the write
succeeds, the size is unchanged, the value at position `p` becomes the new
value, and the value at every other position is exactly what it was
before. -/
theorem C10_set_pointwise_frame {L : DLL α} {addrs : List Nat}
    (h : Good L addrs) (i : Int) (x : α)
    (h0 : 0 ≤ resolvedPos addrs.length i)
    (h1 : resolvedPos addrs.length i < (addrs.length : Int)) :
    resolvedPos addrs.length i = (if i < 0 then i + L.size else i) ∧
    ∃ L', __setitem__ L i (some x) = Except.ok L' ∧ L'.size = L.size ∧
      (valsAt L'.nodes addrs)[(resolvedPos addrs.length i).toNat]? =
        some (some x) ∧
      ∀ j : Nat, j ≠ (resolvedPos addrs.length i).toNat →
        (valsAt L'.nodes addrs)[j]? = (valsAt L.nodes addrs)[j]? := by
  have hsize := h.1.2.2.1
  constructor
  · rw [resolvedPos, hsize]
  · obtain ⟨L', hev, hg2, hvals, hsz⟩ := (setitem_spec h i x).2 h0 h1
    refine ⟨L', hev, hsz, ?_, ?_⟩
    · rw [hvals]
      have hlt : (resolvedPos addrs.length i).toNat <
          (valsAt L.nodes addrs).length := by
        rw [valsAt, List.length_map]
        omega
      exact List.getElem?_set_self hlt
    · intro j hj
      rw [hvals]
      exact List.getElem?_set_ne (fun hcon => hj hcon.symm)

/-- Witness for C10 on `[10, 20, 30]`, writing 99 at index `-1`. -/
theorem C10_set_pointwise_frame_witness :
    (Good sampleDLL [0, 1, 2] ∧
      0 ≤ resolvedPos ([0, 1, 2] : List Nat).length (-1) ∧
      resolvedPos ([0, 1, 2] : List Nat).length (-1) <
        (([0, 1, 2] : List Nat).length : Int)) ∧
    (resolvedPos ([0, 1, 2] : List Nat).length (-1) =
      (if (-1 : Int) < 0 then -1 + sampleDLL.size else -1) ∧
     ∃ L', __setitem__ sampleDLL (-1) (some 99) = Except.ok L' ∧
       L'.size = sampleDLL.size ∧
       (valsAt L'.nodes [0, 1, 2])[(resolvedPos
         ([0, 1, 2] : List Nat).length (-1)).toNat]? = some (some 99) ∧
       ∀ j : Nat, j ≠ (resolvedPos ([0, 1, 2] : List Nat).length (-1)).toNat →
         (valsAt L'.nodes [0, 1, 2])[j]? =
           (valsAt sampleDLL.nodes [0, 1, 2])[j]?) :=
  ⟨⟨sampleDLL_good, by decide, by decide⟩,
    C10_set_pointwise_frame sampleDLL_good (-1) 99 (by decide) (by decide)⟩

end PyDLL

